import Mathlib

/-!
# convert_to_webp.go

A shallow embedding of the batch converter of `convert_to_webp.go` and the
properties its specification states.

Conventions of the embedding.

* A Go `string` is its sequence of bytes (`GoString`), each byte a natural
  number.  String literals of the program are written with `str`, the UTF-8
  encoding of a Lean string.
* `int64` values are integers; the results of `int64` arithmetic are reduced to
  the two's-complement range by `int64`.
* `float64` values are those of IEEE 754 binary64: `float64.nan`, the two
  infinities, and the finite values, each a sign, a significand below 2^53 and
  an exponent from -1074 to 971.  Conversion, division and multiplication round
  their exact result to the nearest such value, ties to the even significand.
* The file system is the list of the entries that `os.Stat` sees, keyed by the
  path string as the program spells it (no links, case-sensitive names).
  What the operating system and the codecs decide (whether a directory can be
  made, a file opened, an image decoded or encoded, a file removed) is given by
  the fields of `Env`, each a function of the current file system and the
  arguments of the call.
* Console output (`fmt.Printf`) and the text of the summary file are not
  modelled; `main` yields the arguments it hands to `printSummary` and
  `saveSummaryFile`.
* The functions of the Go standard library the program calls (`filepath.Ext`,
  `strings.TrimSuffix`, `strings.ToLower`, `filepath.Clean`, `filepath.Join`,
  `filepath.Rel`, `filepath.Dir`, `filepath.Walk`) are embedded for Unix paths
  (separator `/`, no volume names).
-/

namespace ConvertToWebp

/-! ## Strings -/

/-- A Go string: a sequence of bytes. -/
abbrev GoString := List Nat

/-- UTF-8 encoding of one code point. -/
def utf8 (c : Nat) : List Nat :=
  if c < 0x80 then [c]
  else if c < 0x800 then [0xC0 + c / 0x40, 0x80 + c % 0x40]
  else if c < 0x10000 then [0xE0 + c / 0x1000, 0x80 + c / 0x40 % 0x40, 0x80 + c % 0x40]
  else [0xF0 + c / 0x40000, 0x80 + c / 0x1000 % 0x40, 0x80 + c / 0x40 % 0x40, 0x80 + c % 0x40]

/-- The bytes of a string literal. -/
def str (s : String) : GoString := (s.toList.map fun c => utf8 c.toNat).flatten

/-- Byte value of the path separator. -/
def Separator : Nat := 47

/-- Byte value of the full stop. -/
def dot : Nat := 46

def extJPG : GoString := str ".jpg"
def extJPEG : GoString := str ".jpeg"
def extPNG : GoString := str ".png"
def extWEBP : GoString := str ".webp"

def supportedExts : List GoString := [extJPG, extJPEG, extPNG]

/-- Go `strings.HasSuffix`. -/
def HasSuffix (s suffix : GoString) : Bool :=
  decide (suffix.length ≤ s.length) && decide (s.drop (s.length - suffix.length) = suffix)

/-- Go `strings.TrimSuffix`. -/
def TrimSuffix (s suffix : GoString) : GoString :=
  if HasSuffix s suffix then s.take (s.length - suffix.length) else s

/-- Lower-casing of one ASCII byte. -/
def lowerByte (c : Nat) : Nat := if 65 ≤ c ∧ c ≤ 90 then c + 32 else c

/-- Go `strings.ToLower`: a string of ASCII bytes only has its upper-case
letters shifted; any other string is mapped rune by rune with the Unicode
tables, which are the parameter `unicodeLower`. -/
def ToLower (unicodeLower : GoString → GoString) (s : GoString) : GoString :=
  if s.all (fun c => decide (c < 128)) then s.map lowerByte else unicodeLower s

/-! ## Paths (`path/filepath`, Unix) -/

/-- The loop of `filepath.Ext`, from the last byte towards the first: `rev` are
the bytes still to visit, last byte first, and `acc` the bytes already passed. -/
def extScan : List Nat → GoString → GoString
  | [], _ => []
  | c :: rev, acc =>
    if c = Separator then []
    else if c = dot then c :: acc
    else extScan rev (c :: acc)

/-- Go `filepath.Ext`: the suffix beginning at the final dot in the final
element of the path, empty when there is no dot. -/
def Ext (path : GoString) : GoString := extScan path.reverse []

/-- The elements of a path: the pieces between separators. -/
def elements : GoString → List GoString
  | [] => [[]]
  | c :: cs =>
    if c = Separator then [] :: elements cs
    else
      match elements cs with
      | [] => [[c]]
      | e :: es => (c :: e) :: es

/-- The body of the element loop of `filepath.Clean`, on the state
`(out, dotdot)`: `out` holds the elements written so far and `dotdot` counts
the leading `..` elements of `out` that may not be removed (in Go both are
positions in one byte buffer).  Empty elements and `.` are dropped, `..` takes
back the last element, or is written when there is none to take back and the
path is not rooted, and any other element is written. -/
def cleanStep (rooted : Bool) (s : List GoString × Nat) (e : GoString) : List GoString × Nat :=
  if e = [] then s
  else if e = [dot] then s
  else if e = [dot, dot] then
    if s.2 < s.1.length then (s.1.dropLast, s.2)
    else if rooted then s
    else (s.1 ++ [[dot, dot]], s.1.length + 1)
  else (s.1 ++ [e], s.2)

/-- The elements of `out` written with separators between them, after the
leading separator when the path is rooted; `.` when nothing is written. -/
def render (rooted : Bool) (out : List GoString) : GoString :=
  if rooted then Separator :: [Separator].intercalate out
  else if out = [] then [dot]
  else [Separator].intercalate out

/-- Go `filepath.Clean`. -/
def Clean (path : GoString) : GoString :=
  if path = [] then [dot]
  else
    let rooted := decide (path.head? = some Separator)
    render rooted ((elements path).foldl (cleanStep rooted) ([], 0)).1

/-- Go `strings.Join` with the separator of paths. -/
def joinSep : List GoString → GoString := [Separator].intercalate

/-- Go `filepath.Join`: the elements from the first non-empty one on are joined
with separators and cleaned; the result is empty when all are empty. -/
def Join : List GoString → GoString
  | [] => []
  | e :: rest => if e = [] then Join rest else Clean (joinSep (e :: rest))

/-- Go `filepath.Dir`: all but the last element of the path, cleaned. -/
def Dir (path : GoString) : GoString :=
  Clean (path.reverse.dropWhile (fun c => !decide (c = Separator))).reverse

/-- The comparison loop of `filepath.Rel` on the parts of `base` and `targ`
not yet compared: elements are taken off both as long as they are the same.
It yields the two remaining parts, the first differing elements at their
heads. -/
def relLoop : Nat → GoString → GoString → GoString × GoString
  | 0, b, t => (b, t)
  | fuel + 1, b, t =>
    if b = [] ∨ t = [] then (b, t)
    else
      let be := b.takeWhile (fun c => !decide (c = Separator))
      let te := t.takeWhile (fun c => !decide (c = Separator))
      if te ≠ be then (b, t)
      else relLoop fuel (b.drop (be.length + 1)) (t.drop (te.length + 1))

/-- Go `filepath.Rel`; `none` is the error result.  Both paths are cleaned and
`.` counts as the path without elements.  After the elements the two have in
common, a base that goes on with `..` is an error (the target cannot be reached
lexically); otherwise the result is one `..` for every element left of the
base, followed by what is left of the target. -/
def Rel (basepath targpath : GoString) : Option GoString :=
  let base := Clean basepath
  let targ := Clean targpath
  if targ = base then some [dot]
  else
    let base := if base = [dot] then [] else base
    let targ := if targ = [dot] then [] else targ
    let baseSlashed := decide (base.head? = some Separator)
    let targSlashed := decide (targ.head? = some Separator)
    if baseSlashed ≠ targSlashed then none
    else
      match relLoop base.length base targ with
      | (b, t) =>
        if b.takeWhile (fun c => !decide (c = Separator)) = [dot, dot] then none
        else if b ≠ [] then
          let seps := b.count Separator
          some ([dot, dot] ++ (List.replicate seps [Separator, dot, dot]).flatten
            ++ (if t ≠ [] then Separator :: t else []))
        else some t

/-! ## The program: pure functions -/

def isSupportedExt (ext : GoString) : Bool :=
  supportedExts.any fun supported => decide (ext = supported)

def getOutputPath (inputPath sourceDir outputDir : GoString) : GoString :=
  if outputDir = [] then
    let ext := Ext inputPath
    TrimSuffix inputPath ext ++ extWEBP
  else
    -- the error of `filepath.Rel` is discarded; its string is then empty
    let relPath := (Rel sourceDir inputPath).getD []
    let ext := Ext relPath
    let webpRelPath := TrimSuffix relPath ext ++ extWEBP
    Join [outputDir, webpRelPath]

/-! ## Numbers -/

/-- Reduction of an integer to the range of `int64` (two's complement). -/
def int64 (x : Int) : Int := (x + 2 ^ 63) % 2 ^ 64 - 2 ^ 63

/-- The values of a Go `float64` (IEEE 754 binary64).  The finite value
`fin s m e` is `m * 2 ^ e`, negated when `s` is set; the values the operations
produce have `m < 2 ^ 53` and `-1074 ≤ e ≤ 971`, with `2 ^ 52 ≤ m` unless
`e = -1074`, so that `m - 2 ^ 52` is the fraction field and `e + 1075` the
exponent field of a normal number.  The two zeros are `fin s 0 (-1074)`. -/
inductive float64 where
  | nan
  | inf (negative : Bool)
  | fin (negative : Bool) (mant : Nat) (exp : Int)
  deriving DecidableEq

/-- The number of halvings that bring `n` below 2, at most `fuel` of them. -/
def log2Fuel : Nat → Nat → Nat
  | 0, _ => 0
  | fuel + 1, n => if n < 2 then 0 else log2Fuel fuel (n / 2) + 1

/-- The position of the leading bit of `n`. -/
def floorLog2 (n : Nat) : Nat := log2Fuel n n

/-- The exponent of the leading bit of the fraction `p / q`. -/
def floorLog2Q (p q : Nat) : Int :=
  let lg : Int := (floorLog2 p : Int) - (floorLog2 q : Int)
  if q * 2 ^ lg.toNat ≤ p * 2 ^ (-lg).toNat then lg else lg - 1

/-- The integer nearest to `p / q`, the even one of the two when `p / q` lies
half-way. -/
def roundNearest (p q : Nat) : Nat :=
  if q < 2 * (p % q) ∨ (2 * (p % q) = q ∧ p / q % 2 = 1) then p / q + 1 else p / q

/-- The significand and the exponent of the binary64 value nearest to the
positive fraction `p / q`: 53 significant bits, fewer below `2 ^ (-1022)`. -/
def roundPos (p q : Nat) : Nat × Int :=
  let e : Int := max (floorLog2Q p q - 52) (-1074)
  let m := roundNearest (p * 2 ^ (-e).toNat) (q * 2 ^ e.toNat)
  if m = 2 ^ 53 then (2 ^ 52, e + 1) else (m, e)

/-- The zero of the given sign. -/
def float64.zero (negative : Bool) : float64 := .fin negative 0 (-1074)

/-- The `float64` nearest to the fraction `p / q` (with `p` and `q` positive)
taken with the given sign: an infinity when the rounded value is out of range. -/
def float64.round (negative : Bool) (p q : Nat) : float64 :=
  let r := roundPos p q
  if 971 < r.2 then .inf negative
  else if r.1 = 0 then float64.zero negative
  else .fin negative r.1 r.2

/-- Conversion `float64(i)` of an integer. -/
def float64.ofInt (i : Int) : float64 :=
  if i = 0 then float64.zero false else float64.round (decide (i < 0)) i.natAbs 1

/-- Division of `float64` values: a non-zero finite value over zero is an
infinity, zero over zero is NaN, nothing panics. -/
def float64.div : float64 → float64 → float64
  | .fin s1 m1 e1, .fin s2 m2 e2 =>
    if m2 = 0 then (if m1 = 0 then .nan else .inf (xor s1 s2))
    else if m1 = 0 then float64.zero (xor s1 s2)
    else float64.round (xor s1 s2) (m1 * 2 ^ (e1 - e2).toNat) (m2 * 2 ^ (e2 - e1).toNat)
  | .fin s1 _ _, .inf s2 => float64.zero (xor s1 s2)
  | .inf s1, .fin s2 _ _ => .inf (xor s1 s2)
  | _, _ => .nan

/-- Multiplication of `float64` values. -/
def float64.mul : float64 → float64 → float64
  | .fin s1 m1 e1, .fin s2 m2 e2 =>
    if m1 = 0 ∨ m2 = 0 then float64.zero (xor s1 s2)
    else float64.round (xor s1 s2) (m1 * m2 * 2 ^ (e1 + e2).toNat) (2 ^ (-(e1 + e2)).toNat)
  | .fin s1 m1 _, .inf s2 => if m1 = 0 then .nan else .inf (xor s1 s2)
  | .inf s1, .fin s2 m2 _ => if m2 = 0 then .nan else .inf (xor s1 s2)
  | .inf s1, .inf s2 => .inf (xor s1 s2)
  | _, _ => .nan

/-- The rational number a finite `float64` stands for (0 for the others). -/
def float64.toRat : float64 → ℚ
  | .fin s m e => (if s then -1 else 1) * (m : ℚ) * 2 ^ e
  | _ => 0

/-! ## The file system and the codecs -/

/-- The part of an `os.FileInfo` the program reads. -/
structure FileInfo where
  isDir : Bool
  size : Int
  deriving DecidableEq

/-- The file system: the entries `os.Stat` finds, with their path. -/
abbrev FS := List (GoString × FileInfo)

/-- Go `os.Stat`: `none` is the error result. -/
def osStat : FS → GoString → Option FileInfo
  | [], _ => none
  | (q, i) :: rest, p => if q = p then some i else osStat rest p

/-- The file system after a regular file of `size` bytes is written at `p`. -/
def writeFile (fs : FS) (p : GoString) (size : Int) : FS :=
  fs.filter (fun e => !decide (e.1 = p)) ++ [(p, ⟨false, size⟩)]

/-- The file system after the entry at `p` is removed. -/
def removeFile (fs : FS) (p : GoString) : FS :=
  fs.filter fun e => !decide (e.1 = p)

/-- The file system after the directories `ds` are made, where there is no
entry yet. -/
def makeDirs (fs : FS) : List GoString → FS
  | [] => fs
  | d :: ds => makeDirs (if (osStat fs d).isSome then fs else fs ++ [(d, ⟨true, 0⟩)]) ds

/-- What the operating system, the codecs and the Unicode tables decide.
Every field but the first is given the file system at the time of the call. -/
structure Env where
  /-- `strings.Map(unicode.ToLower, s)`, used for strings with a non-ASCII byte. -/
  unicodeLower : GoString → GoString
  /-- `os.MkdirAll`: its error, and the directories it has made (the path
  and missing ancestors on success, possibly some ancestors on failure). -/
  mkdirAll : FS → GoString → Option GoString × List GoString
  /-- `os.Open`: its error. -/
  osOpen : FS → GoString → Option GoString
  /-- `jpeg.Decode` on the opened file: the image or the error. -/
  jpegDecode : FS → GoString → Except GoString Nat
  /-- `png.Decode` on the opened file: the image or the error. -/
  pngDecode : FS → GoString → Except GoString Nat
  /-- `os.Create`: its error; without one the file exists and is empty. -/
  osCreate : FS → GoString → Option GoString
  /-- `webp.Encode` (lossy) of an image at a quality into the created file:
  its error and the number of bytes the file holds afterwards. -/
  webpEncode : FS → GoString → Nat → Int → Option GoString × Int
  /-- `os.Remove`: whether the file is removed (its error is discarded). -/
  osRemove : FS → GoString → Bool

/-- The calls the program makes to the file system and the codecs. -/
inductive Event where
  | osStat (path : GoString)
  | osMkdirAll (path : GoString)
  | osOpen (path : GoString)
  | jpegDecode (path : GoString)
  | pngDecode (path : GoString)
  | osCreate (path : GoString)
  | webpEncode (path : GoString) (quality : Int)
  | osRemove (path : GoString)
  deriving DecidableEq

/-- The world outside the program: the file system and the calls made so far. -/
structure World where
  fs : FS
  trace : List Event

/-- Record a call. -/
def World.log (w : World) (e : Event) : World := { w with trace := w.trace ++ [e] }

/-! ## The program: state and effects -/

structure convertResult where
  path : GoString
  reason : GoString := []
  origSize : Int := 0
  newSize : Int := 0
  reduction : float64 := float64.zero false
  deriving DecidableEq

/-- The command-line flags. -/
structure Flags where
  quality : Int
  keepOriginal : Bool
  targetDir : GoString
  outputDir : GoString

/-- The variables of `main` the walk callback closes over, and the world. -/
structure State where
  successList : List convertResult
  skippedList : List convertResult
  failedList : List convertResult
  totalOrigSize : Int
  totalNewSize : Int
  world : World

/-- The `switch` of `convertToWebP` that picks the decoder by the lower-cased
extension and decodes the opened file. -/
def decodeByExt (env : Env) (w : World) (inputPath : GoString) : World × Except GoString Nat :=
  let ext := ToLower env.unicodeLower (Ext inputPath)
  if ext = extJPG ∨ ext = extJPEG then
    (w.log (.jpegDecode inputPath), env.jpegDecode w.fs inputPath)
  else if ext = extPNG then
    (w.log (.pngDecode inputPath), env.pngDecode w.fs inputPath)
  else (w, .error (str "不支持的格式: " ++ ext))

def convertToWebP (env : Env) (w : World) (inputPath outputPath : GoString) (quality : Int) :
    World × Option GoString :=
  let w := w.log (.osOpen inputPath)
  match env.osOpen w.fs inputPath with
  | some err => (w, some err)
  | none =>
    match decodeByExt env w inputPath with
    | (w, .error err) => (w, some err)
    | (w, .ok img) =>
      let w := w.log (.osCreate outputPath)
      match env.osCreate w.fs outputPath with
      | some err => (w, some err)
      | none =>
        let w := { w with fs := writeFile w.fs outputPath 0 }
        let w := w.log (.webpEncode outputPath quality)
        match env.webpEncode w.fs outputPath img quality with
        | (err, written) => ({ w with fs := writeFile w.fs outputPath written }, err)

/-- The percentage computed at line 108:
`float64(origSize-newSize) / float64(origSize) * 100`. -/
def reductionOf (origSize newSize : Int) : float64 :=
  float64.mul
    (float64.div (float64.ofInt (int64 (origSize - newSize))) (float64.ofInt origSize))
    (float64.ofInt 100)

/-- The callback `main` hands to `filepath.Walk`.  The result is the state
after the call and the error the callback returns (`none` is `nil`); the
result `none` is the run-time panic of `newInfo.Size()` on a nil `newInfo`. -/
def walkFn (env : Env) (fl : Flags) (st : State) (path : GoString) (info : FileInfo)
    (err : Option GoString) : Option (State × Option GoString) :=
  match err with
  | some e => some (st, some e)
  | none =>
    if info.isDir then some (st, none)
    else
      let ext := ToLower env.unicodeLower (Ext path)
      if !isSupportedExt ext then some (st, none)
      else
        let webpPath := getOutputPath path fl.targetDir fl.outputDir
        let w := st.world.log (.osStat webpPath)
        match osStat w.fs webpPath with
        | some _ =>
          some ({ st with
                  world := w
                  skippedList := st.skippedList ++
                    [{ path := path, reason := str "webp 文件已存在" }] }, none)
        | none =>
          let w := w.log (.osMkdirAll (Dir webpPath))
          match env.mkdirAll w.fs (Dir webpPath) with
          | (some e, made) =>
            some ({ st with
                    world := { w with fs := makeDirs w.fs made }
                    failedList := st.failedList ++
                      [{ path := path, reason := str "创建目录失败: " ++ e }] }, none)
          | (none, made) =>
            let w := { w with fs := makeDirs w.fs made }
            match convertToWebP env w path webpPath fl.quality with
            | (w, some e) =>
              some ({ st with
                      world := w
                      failedList := st.failedList ++ [{ path := path, reason := e }] }, none)
            | (w, none) =>
              let origSize := info.size
              let w := w.log (.osStat webpPath)
              match osStat w.fs webpPath with
              | none => none
              | some newInfo =>
                let newSize := newInfo.size
                let reduction := reductionOf origSize newSize
                let w :=
                  if !fl.keepOriginal then
                    let w := w.log (.osRemove path)
                    if env.osRemove w.fs path then { w with fs := removeFile w.fs path } else w
                  else w
                some ({ st with
                        world := w
                        successList := st.successList ++
                          [{ path := path, origSize := origSize, newSize := newSize,
                             reduction := reduction }]
                        totalOrigSize := int64 (st.totalOrigSize + origSize)
                        totalNewSize := int64 (st.totalNewSize + newSize) }, none)

/-- One call of the callback by `filepath.Walk`. -/
structure WalkArg where
  path : GoString
  info : FileInfo
  err : Option GoString

/-- Go `filepath.Walk` on the sequence of entries it comes to: the callback is
called on each in turn, and its first non-nil error ends the walk and is the
result (the callback never returns `filepath.SkipDir`). -/
def Walk (env : Env) (fl : Flags) : State → List WalkArg → Option (State × Option GoString)
  | st, [] => some (st, none)
  | st, a :: rest =>
    match walkFn env fl st a.path a.info a.err with
    | none => none
    | some (st, some e) => some (st, some e)
    | some (st, none) => Walk env fl st rest

/-- The arguments `main` passes to `printSummary` and to `saveSummaryFile`
(the duration apart, which is read from the clock). -/
structure SummaryArgs where
  successList : List convertResult
  skippedList : List convertResult
  failedList : List convertResult
  totalOrig : Int
  totalNew : Int
  deriving DecidableEq

/-- How a run of `main` ends. -/
inductive Ending where
  /-- a run-time panic -/
  | panicked
  /-- `os.Exit(code)` after the error of the walk is reported -/
  | exited (code : Int) (err : GoString)
  /-- normal return, with the arguments of the two summary calls -/
  | returned (printSummary saveSummaryFile : SummaryArgs)
  deriving DecidableEq

/-- The state at the start of the walk. -/
def initState (fs : FS) : State :=
  { successList := [], skippedList := [], failedList := [],
    totalOrigSize := 0, totalNewSize := 0, world := { fs := fs, trace := [] } }

/-- The function `main` on a file system and the sequence of entries the walk
of `targetDir` comes to. -/
def main (env : Env) (fl : Flags) (fs : FS) (walk : List WalkArg) : Ending :=
  match Walk env fl (initState fs) walk with
  | none => .panicked
  | some (_, some err) => .exited 1 err
  | some (st, none) =>
    .returned
      ⟨st.successList, st.skippedList, st.failedList, st.totalOrigSize, st.totalNewSize⟩
      ⟨st.successList, st.skippedList, st.failedList, st.totalOrigSize, st.totalNewSize⟩

/-! ## The destination path as the specification words it -/

/-- The final element of a path: what follows its last separator. -/
def lastElement (path : GoString) : GoString :=
  (path.reverse.takeWhile fun c => !decide (c = Separator)).reverse

/-- The directory part of a path: everything up to and including its last
separator. -/
def dirPart (path : GoString) : GoString :=
  (path.reverse.dropWhile fun c => !decide (c = Separator)).reverse

/-- A file name with its last extension (the last dot and what follows it)
removed; a name without a dot is left as it is. -/
def withoutExt (name : GoString) : GoString :=
  if dot ∈ name then (name.reverse.dropWhile fun c => !decide (c = dot)).tail.reverse
  else name

/-! ## Notions used to state the properties -/

/-- Whether the callback takes a file for conversion: its lower-cased
extension is one of `.jpg`, `.jpeg`, `.png`. -/
def supportedFile (env : Env) (path : GoString) : Bool :=
  isSupportedExt (ToLower env.unicodeLower (Ext path))

/-- The extensions the specification lists, lower-cased. -/
def imageExts : List GoString := [str ".jpg", str ".jpeg", str ".png"]

/-- The lower-cased extension of `path` is one of `.jpg`, `.jpeg`, `.png`,
as the specification words it. -/
def hasImageExt (env : Env) (path : GoString) : Bool :=
  decide (ToLower env.unicodeLower (Ext path) ∈ imageExts)

/-- Whether `e` is one of the supported extensions written in some letter
case: lower-casing its letters gives `.jpg`, `.jpeg` or `.png`. -/
def caseVariant (e : GoString) : Bool :=
  decide (e.map lowerByte ∈ supportedExts)

/-- The flags of the path examples of the specification: source root `/a`,
no output root. -/
def specFlags : Flags :=
  { quality := 85, keepOriginal := false, targetDir := str "/a", outputDir := [] }

/-- A file system in which the destination of `/a/b/img.jpg` exists already. -/
def skipFS : FS :=
  [(str "/a/b/img.jpg", { isDir := false, size := 50000 }),
   (str "/a/b/img.webp", { isDir := false, size := 20000 })]

/-- The handling of `path` fails whenever it is attempted: the directory
cannot be made, or the conversion returns an error. -/
def failsAlways (env : Env) (fl : Flags) (path : GoString) : Prop :=
  (∀ fs, (env.mkdirAll fs (Dir (getOutputPath path fl.targetDir fl.outputDir))).1 ≠ none) ∨
  (∀ w, (convertToWebP env w path (getOutputPath path fl.targetDir fl.outputDir)
    fl.quality).2 ≠ none)

/-- Nothing is left to convert for `path`: its destination exists or its
handling fails whenever attempted. -/
def Settled (env : Env) (fl : Flags) (fs : FS) (path : GoString) : Prop :=
  (osStat fs (getOutputPath path fl.targetDir fl.outputDir)).isSome = true ∨
    failsAlways env fl path

/-- A file or directory name: not empty, without separator, and neither `.`
nor `..`. -/
def IsName (e : GoString) : Prop :=
  e ≠ [] ∧ Separator ∉ e ∧ e ≠ [dot] ∧ e ≠ [dot, dot]

instance (e : GoString) : Decidable (IsName e) := by
  unfold IsName
  infer_instance

/-- The shape of the state of the loop of `filepath.Clean`: the protected
leading `..` elements, none when the path is rooted, followed by names. -/
def CleanForm (rooted : Bool) (s : List GoString × Nat) : Prop :=
  ∃ normal, s.1 = List.replicate s.2 [dot, dot] ++ normal ∧ (∀ e ∈ normal, IsName e) ∧
    (rooted = true → s.2 = 0)

/-- The relative path that goes down through the directories `dirs` to the
file `name`. -/
def relPath (dirs : List GoString) (name : GoString) : GoString :=
  joinSep (dirs ++ [name])

/-- The path `rel` below the root `root`: `root/rel`, where the root `.` adds
nothing and the root `/` no second separator. -/
def under (root rel : GoString) : GoString :=
  if root = [dot] then rel
  else if root = [Separator] then Separator :: rel
  else root ++ Separator :: rel

/-- The path that goes down from `root` through the directories `names`:
`root` itself when there are none. -/
def below (root : GoString) (names : List GoString) : GoString :=
  if names = [] then root else under root (joinSep names)

/-- Whether an entry of the walk is a regular file the callback takes for
conversion. -/
def candidate (env : Env) (a : WalkArg) : Bool :=
  !a.info.isDir && supportedFile env a.path

/-- From `st` to `st1` exactly one entry, for `path`, is added to exactly one
of the three lists. -/
def AddsOne (st st1 : State) (path : GoString) : Prop :=
  ∃ r : convertResult, r.path = path ∧
    ((st1.successList = st.successList ++ [r] ∧ st1.skippedList = st.skippedList ∧
        st1.failedList = st.failedList) ∨
     (st1.successList = st.successList ∧ st1.skippedList = st.skippedList ++ [r] ∧
        st1.failedList = st.failedList) ∨
     (st1.successList = st.successList ∧ st1.skippedList = st.skippedList ∧
        st1.failedList = st.failedList ++ [r]))

/-- From `st` to `st1` no entry is added to any of the three lists. -/
def AddsNone (st st1 : State) : Prop :=
  st1.successList = st.successList ∧ st1.skippedList = st.skippedList ∧
    st1.failedList = st.failedList

/-- The paths of the outcomes recorded in a state, of whatever kind. -/
def outcomePaths (st : State) : List GoString :=
  (st.successList ++ st.skippedList ++ st.failedList).map convertResult.path

/-- The number of outcomes recorded in a state. -/
def outcomes (st : State) : Nat :=
  st.successList.length + st.skippedList.length + st.failedList.length

/-- An environment in which every operation succeeds and every encoded image
takes 20000 bytes. -/
def envOK : Env :=
  { unicodeLower := id
    mkdirAll := fun _ _ => (none, [])
    osOpen := fun _ _ => none
    jpegDecode := fun _ _ => .ok 0
    pngDecode := fun _ _ => .ok 0
    osCreate := fun _ _ => none
    webpEncode := fun _ _ _ _ => (none, 20000)
    osRemove := fun _ _ => true }

/-- From `st` to `st1` the file `path` is recorded as failed with `reason`, and
nothing is added to the other two lists. -/
def RecordsFailure (st st1 : State) (path reason : GoString) : Prop :=
  st1.failedList = st.failedList ++ [{ path := path, reason := reason }] ∧
    st1.successList = st.successList ∧ st1.skippedList = st.skippedList

/-- An environment in which no directory can be made. -/
def envNoMkdir : Env :=
  { envOK with mkdirAll := fun _ _ => (some (str "mkdir static: permission denied"), []) }

/-- An environment in which no file can be opened. -/
def envNoOpen : Env :=
  { envOK with osOpen := fun _ _ => some (str "open static/a.jpg: permission denied") }

/-- An environment in which the JPEG decoder rejects every file. -/
def envBadJpeg : Env :=
  { envOK with jpegDecode := fun _ _ => .error (str "invalid JPEG format: missing SOI marker") }

/-- An environment in which the PNG decoder rejects every file. -/
def envBadPng : Env :=
  { envOK with pngDecode := fun _ _ => .error (str "png: invalid format: not a PNG file") }

/-- An environment in which no file can be created. -/
def envNoCreate : Env :=
  { envOK with osCreate := fun _ _ => some (str "open static/a.webp: read-only file system") }

/-- An environment in which the encoder fails after writing 10 bytes. -/
def envBadEncode : Env :=
  { envOK with webpEncode := fun _ _ _ _ => (some (str "webp: encode failed"), 10) }

/-- The default flags of the program. -/
def defaultFlags : Flags :=
  { quality := 85, keepOriginal := false, targetDir := str "./static", outputDir := [] }

/-- The entry of the walk for a regular file of a given size. -/
def regular (path : String) (size : Int) : WalkArg :=
  { path := str path, info := { isDir := false, size := size }, err := none }

/-- The entries of a file system as `filepath.Walk` reports them. -/
def walkArgs (fs : FS) : List WalkArg :=
  fs.map fun e => { path := e.1, info := e.2, err := none }

/-- One run of the program over the tree `fs`: the walk of the entries of the
tree from the initial state. -/
def run (env : Env) (fl : Flags) (fs : FS) : Option (State × Option GoString) :=
  Walk env fl (initState fs) (walkArgs fs)

/-- Two runs in succession, the second over the tree the first one leaves. -/
def runTwice (env : Env) (fl : Flags) (fs : FS) : Option (State × Option GoString) :=
  match run env fl fs with
  | some (st1, none) => run env fl st1.world.fs
  | other => other

/-- The environment answers each operation on a path the same way whenever it
is attempted: whether a directory can be made, a file opened, decoded, created
or encoded does not change from one call or one run to the next. -/
def Stationary (env : Env) : Prop :=
  ∀ (fs fs1 : FS) (p : GoString),
    (env.mkdirAll fs p).1 = (env.mkdirAll fs1 p).1 ∧
    env.osOpen fs p = env.osOpen fs1 p ∧
    env.jpegDecode fs p = env.jpegDecode fs1 p ∧
    env.pngDecode fs p = env.pngDecode fs1 p ∧
    env.osCreate fs p = env.osCreate fs1 p ∧
    ∀ img q, (env.webpEncode fs p img q).1 = (env.webpEncode fs1 p img q).1

/-- The directory of the end-to-end scenario of the specification. -/
def scenarioFS : FS :=
  [(str "static", { isDir := true, size := 4096 }),
   (str "static/a.jpg", { isDir := false, size := 50000 }),
   (str "static/b.png", { isDir := false, size := 30000 }),
   (str "static/c.webp", { isDir := false, size := 9000 }),
   (str "static/d.txt", { isDir := false, size := 12 })]

/-- The regular files of the scenario, in the order of the walk. -/
def scenarioFiles : List WalkArg :=
  [regular "static/a.jpg" 50000, regular "static/b.png" 30000,
   regular "static/c.webp" 9000, regular "static/d.txt" 12]

/-- The paths on which `os.Remove` was called, in order. -/
def removals (t : List Event) : List GoString :=
  t.filterMap fun e =>
    match e with
    | .osRemove p => some p
    | _ => none

/-- A directory holding `p.jpg` and `p.PNG`. -/
def twinFS : FS :=
  [(str "static/p.PNG", { isDir := false, size := 30000 }),
   (str "static/p.jpg", { isDir := false, size := 50000 })]

/-- A tree with one image. -/
def singleFS : FS := [(str "static/a.jpg", { isDir := false, size := 50000 })]

/-- The flags with `keep` set. -/
def keepFlags : Flags :=
  { quality := 85, keepOriginal := true, targetDir := str "./static", outputDir := [] }

/-- The state after the callback has dealt with `static/a.jpg` of the scenario. -/
def scenarioAfterA : State :=
  match walkFn envOK defaultFlags (initState scenarioFS) (str "static/a.jpg")
      { isDir := false, size := 50000 } none with
  | some (st, _) => st
  | none => initState scenarioFS

/-- The success recorded for `static/a.jpg` of the scenario. -/
def scenarioRecordA : convertResult :=
  { path := str "static/a.jpg", origSize := 50000, newSize := 20000,
    reduction := reductionOf 50000 20000 }

/-- Two sparse images of 2^62 bytes each. -/
def hugeFiles : List WalkArg :=
  [regular "static/a.jpg" (2 ^ 62), regular "static/b.jpg" (2 ^ 62)]

/-- The file system holding the two sparse images. -/
def hugeFS : FS :=
  [(str "static/a.jpg", { isDir := false, size := 2 ^ 62 }),
   (str "static/b.jpg", { isDir := false, size := 2 ^ 62 })]

/-! ## The four ways the callback deals with a supported regular file -/

/-- The world after `os.Remove(path)` when the original is not kept. -/
def afterRemove (env : Env) (fl : Flags) (w : World) (path : GoString) : World :=
  if !fl.keepOriginal then
    if env.osRemove w.fs path then
      { fs := removeFile w.fs path, trace := w.trace ++ [.osRemove path] }
    else { fs := w.fs, trace := w.trace ++ [.osRemove path] }
  else w

/-- The state in which the callback leaves a supported regular file `path`
reached in state `st`: skipped, failed at the directory, failed in the
conversion, or converted. -/
inductive Handled (env : Env) (fl : Flags) (st : State) (path : GoString) (info : FileInfo) :
    State → Prop where
  | skipped (i : FileInfo)
      (hstat : osStat st.world.fs (getOutputPath path fl.targetDir fl.outputDir) = some i) :
      Handled env fl st path info
        { st with
          world := st.world.log (.osStat (getOutputPath path fl.targetDir fl.outputDir))
          skippedList := st.skippedList ++ [{ path := path, reason := str "webp 文件已存在" }] }
  | mkdirFailed (e : GoString) (made : List GoString)
      (hstat : osStat st.world.fs (getOutputPath path fl.targetDir fl.outputDir) = none)
      (hmk : env.mkdirAll st.world.fs (Dir (getOutputPath path fl.targetDir fl.outputDir))
        = (some e, made)) :
      Handled env fl st path info
        { st with
          world :=
            { fs := makeDirs st.world.fs made
              trace := st.world.trace ++
                [.osStat (getOutputPath path fl.targetDir fl.outputDir),
                 .osMkdirAll (Dir (getOutputPath path fl.targetDir fl.outputDir))] }
          failedList := st.failedList ++
            [{ path := path, reason := str "创建目录失败: " ++ e }] }
  | convertFailed (e : GoString) (made : List GoString) (w1 : World)
      (hstat : osStat st.world.fs (getOutputPath path fl.targetDir fl.outputDir) = none)
      (hmk : env.mkdirAll st.world.fs (Dir (getOutputPath path fl.targetDir fl.outputDir))
        = (none, made))
      (hconv : convertToWebP env
          { fs := makeDirs st.world.fs made
            trace := st.world.trace ++
              [.osStat (getOutputPath path fl.targetDir fl.outputDir),
               .osMkdirAll (Dir (getOutputPath path fl.targetDir fl.outputDir))] }
          path (getOutputPath path fl.targetDir fl.outputDir) fl.quality = (w1, some e)) :
      Handled env fl st path info
        { st with
          world := w1
          failedList := st.failedList ++ [{ path := path, reason := e }] }
  | converted (made : List GoString) (w1 : World) (newInfo : FileInfo)
      (hstat : osStat st.world.fs (getOutputPath path fl.targetDir fl.outputDir) = none)
      (hmk : env.mkdirAll st.world.fs (Dir (getOutputPath path fl.targetDir fl.outputDir))
        = (none, made))
      (hconv : convertToWebP env
          { fs := makeDirs st.world.fs made
            trace := st.world.trace ++
              [.osStat (getOutputPath path fl.targetDir fl.outputDir),
               .osMkdirAll (Dir (getOutputPath path fl.targetDir fl.outputDir))] }
          path (getOutputPath path fl.targetDir fl.outputDir) fl.quality = (w1, none))
      (hnew : osStat w1.fs (getOutputPath path fl.targetDir fl.outputDir) = some newInfo) :
      Handled env fl st path info
        { st with
          world := afterRemove env fl
            (w1.log (.osStat (getOutputPath path fl.targetDir fl.outputDir))) path
          successList := st.successList ++
            [{ path := path, origSize := info.size, newSize := newInfo.size,
               reduction := reductionOf info.size newInfo.size }]
          totalOrigSize := int64 (st.totalOrigSize + info.size)
          totalNewSize := int64 (st.totalNewSize + newInfo.size) }

set_option maxRecDepth 8192

/-! ## Lemmas on strings and paths -/

theorem extScan_dot (r p acc : GoString) (h1 : dot ∉ r) (h2 : Separator ∉ r) :
    extScan (r ++ dot :: p) acc = dot :: (r.reverse ++ acc) := by
  induction r generalizing acc with
  | nil => simp [extScan, dot, Separator]
  | cons c r ih =>
    have hc1 : c ≠ dot := fun h => h1 (by simp [h])
    have hc2 : c ≠ Separator := fun h => h2 (by simp [h])
    have h1r : dot ∉ r := fun h => h1 (List.mem_cons_of_mem _ h)
    have h2r : Separator ∉ r := fun h => h2 (List.mem_cons_of_mem _ h)
    simp [extScan, hc1, hc2, ih (c :: acc) h1r h2r]

theorem extScan_none (r p acc : GoString) (h1 : dot ∉ r) (h2 : Separator ∉ r)
    (hp : p = [] ∨ ∃ q, p = Separator :: q) : extScan (r ++ p) acc = [] := by
  induction r generalizing acc with
  | nil =>
    rcases hp with rfl | ⟨q, rfl⟩
    · simp [extScan]
    · simp [extScan]
  | cons c r ih =>
    have hc1 : c ≠ dot := fun h => h1 (by simp [h])
    have hc2 : c ≠ Separator := fun h => h2 (by simp [h])
    have h1r : dot ∉ r := fun h => h1 (List.mem_cons_of_mem _ h)
    have h2r : Separator ∉ r := fun h => h2 (List.mem_cons_of_mem _ h)
    simp [extScan, hc1, hc2, ih (c :: acc) h1r h2r]

theorem Ext_append_dot (p e : GoString) (h1 : dot ∉ e) (h2 : Separator ∉ e) :
    Ext (p ++ dot :: e) = dot :: e := by
  have := extScan_dot e.reverse p.reverse [] (by simpa using h1) (by simpa using h2)
  simpa [Ext] using this

theorem TrimSuffix_append (p s : GoString) : TrimSuffix (p ++ s) s = p := by
  simp [TrimSuffix, HasSuffix]

theorem TrimSuffix_nil (s : GoString) : TrimSuffix s [] = s := by
  simp [TrimSuffix, HasSuffix]

/-- A list whose `dropWhile` is not empty splits at the first element that fails the test. -/
theorem dropWhile_head {α : Type} (f : α → Bool) (l : List α) :
    l.dropWhile f = [] ∨ ∃ a t, l.dropWhile f = a :: t ∧ f a = false := by
  induction l with
  | nil => simp
  | cons a l ih =>
    by_cases h : f a = true
    · simpa [List.dropWhile_cons, h] using ih
    · right
      exact ⟨a, l, by simp [List.dropWhile_cons, h], by simpa using h⟩

theorem not_mem_takeWhile_ne (x : Nat) (l : List Nat) :
    x ∉ l.takeWhile fun c => !decide (c = x) := by
  intro h
  have := List.mem_takeWhile_imp h
  simp at this

theorem dirPart_append_lastElement (path : GoString) :
    dirPart path ++ lastElement path = path := by
  unfold dirPart lastElement
  rw [← List.reverse_append, List.takeWhile_append_dropWhile, List.reverse_reverse]

/-- The destination next to the source, for every input path. -/
theorem getOutputPath_empty (inputPath sourceDir : GoString) :
    getOutputPath inputPath sourceDir [] =
      dirPart inputPath ++ withoutExt (lastElement inputPath) ++ extWEBP := by
  have hsplit := List.takeWhile_append_dropWhile (fun c => !decide (c = Separator))
    inputPath.reverse
  set tw := inputPath.reverse.takeWhile (fun c => !decide (c = Separator)) with htw
  set dw := inputPath.reverse.dropWhile (fun c => !decide (c = Separator)) with hdw
  have hsep : Separator ∉ tw := not_mem_takeWhile_ne Separator _
  have hp : inputPath = dw.reverse ++ tw.reverse := by
    have := congrArg List.reverse hsplit
    simpa using this.symm
  have hdw' : dw = [] ∨ ∃ q, dw = Separator :: q := by
    rcases dropWhile_head (fun c => !decide (c = Separator)) inputPath.reverse with h | ⟨a, t, h, ha⟩
    · left; exact h
    · right
      have : a = Separator := by simpa using ha
      exact ⟨t, by rw [hdw, h, this]⟩
  have hlast : lastElement inputPath = tw.reverse := rfl
  have hdir : dirPart inputPath = dw.reverse := rfl
  simp only [getOutputPath, if_true, hlast, hdir]
  by_cases hdot : dot ∈ tw
  · -- the final element has a dot: split it at the last one
    have hs2 := List.takeWhile_append_dropWhile (fun c => !decide (c = dot)) tw
    set a := tw.takeWhile (fun c => !decide (c = dot)) with ha
    have hda : dot ∉ a := not_mem_takeWhile_ne dot _
    rcases dropWhile_head (fun c => !decide (c = dot)) tw with h | ⟨x, b, h, hx⟩
    · rw [h, List.append_nil] at hs2
      exact absurd (hs2 ▸ hdot) hda
    · have hxd : x = dot := by simpa using hx
      subst hxd
      rw [h] at hs2
      have hsa : Separator ∉ a := fun hm => hsep (hs2 ▸ List.mem_append_left _ hm)
      have hwo : withoutExt tw.reverse = b.reverse := by
        have : dot ∈ tw.reverse := by simpa using hdot
        simp only [withoutExt, this, if_true, List.reverse_reverse, h, List.tail_cons]
      have hpath : inputPath = (dw.reverse ++ b.reverse) ++ dot :: a.reverse := by
        rw [hp, ← hs2]; simp
      have hext : Ext inputPath = dot :: a.reverse := by
        rw [hpath]
        exact Ext_append_dot _ _ (by simpa using hda) (by simpa using hsa)
      rw [hext, hwo]
      conv_lhs => rw [hpath]
      rw [TrimSuffix_append]
  · have hext : Ext inputPath = [] := by
      have := extScan_none tw dw [] hdot hsep hdw'
      simp only [Ext]
      rw [← hsplit]
      exact this
    have hwo : withoutExt tw.reverse = tw.reverse := by
      have : dot ∉ tw.reverse := by simpa using hdot
      simp [withoutExt, this]
    rw [hext, hwo, TrimSuffix_nil, hp]

/-! ## Lemmas on the file system -/

theorem osStat_append (a b : FS) (q : GoString) :
    osStat (a ++ b) q = (osStat a q).orElse fun _ => osStat b q := by
  induction a with
  | nil => simp [osStat]
  | cons e a ih =>
    obtain ⟨p, i⟩ := e
    by_cases h : p = q
    · simp [osStat, h]
    · simp [osStat, h, ih]

theorem osStat_removeFile (fs : FS) (p q : GoString) :
    osStat (removeFile fs p) q = if q = p then none else osStat fs q := by
  induction fs with
  | nil => simp [removeFile, osStat]
  | cons e fs ih =>
    obtain ⟨r, i⟩ := e
    simp only [removeFile] at ih
    by_cases hr : r = p
    · subst hr
      by_cases hq : q = r
      · simpa [removeFile, osStat, hq] using ih
      · have hq' : ¬ r = q := fun h => hq h.symm
        simpa [removeFile, osStat, hq, hq'] using ih
    · by_cases hq : r = q
      · subst hq
        simp [removeFile, osStat, hr]
      · simpa [removeFile, osStat, hr, hq] using ih

theorem osStat_writeFile (fs : FS) (p q : GoString) (n : Int) :
    osStat (writeFile fs p n) q = if q = p then some ⟨false, n⟩ else osStat fs q := by
  have h := osStat_removeFile fs p q
  simp only [removeFile] at h
  by_cases hq : q = p
  · subst hq
    simp only [if_true] at h
    simp [writeFile, osStat_append, h, osStat]
  · have hq' : ¬ p = q := fun h => hq h.symm
    simp only [hq, if_false] at h
    simp only [writeFile, osStat_append, h, osStat, hq, hq', if_false]
    cases osStat fs q <;> simp

theorem convertToWebP_created (env : Env) (w w1 : World) (i o : GoString) (q : Int)
    (h : convertToWebP env w i o q = (w1, none)) : ∃ n, osStat w1.fs o = some ⟨false, n⟩ := by
  unfold convertToWebP at h
  cases hopen : env.osOpen (w.log (.osOpen i)).fs i with
  | some e => simp [hopen] at h
  | none =>
    simp only [hopen] at h
    cases hdec : decodeByExt env (w.log (.osOpen i)) i with
    | mk w2 r =>
      cases r with
      | error e => simp [hdec] at h
      | ok img =>
        simp only [hdec] at h
        cases hcr : env.osCreate (w2.log (.osCreate o)).fs o with
        | some e => simp [hcr] at h
        | none =>
          simp only [hcr] at h
          cases henc : env.webpEncode
              (World.log { (w2.log (.osCreate o)) with
                fs := writeFile (w2.log (.osCreate o)).fs o 0 } (.webpEncode o q)).fs o img q with
          | mk err written =>
            simp only [henc, Prod.mk.injEq] at h
            obtain ⟨h1, _⟩ := h
            subst h1
            exact ⟨written, by simp [osStat_writeFile]⟩

/-! ## The callback on a supported regular file -/

/-- A supported regular file is handled in one of the four ways, and the
callback returns nil. -/
theorem walkFn_handled (env : Env) (fl : Flags) (st : State) (path : GoString) (info : FileInfo)
    (hd : info.isDir = false)
    (hs : isSupportedExt (ToLower env.unicodeLower (Ext path)) = true) :
    ∃ st1, walkFn env fl st path info none = some (st1, none) ∧ Handled env fl st path info st1 := by
  simp only [walkFn, hd, hs, Bool.false_eq_true, if_false, Bool.not_true]
  cases hstat : osStat (st.world.log
      (.osStat (getOutputPath path fl.targetDir fl.outputDir))).fs
      (getOutputPath path fl.targetDir fl.outputDir) with
  | some i => exact ⟨_, rfl, Handled.skipped i hstat⟩
  | none =>
    simp only []
    cases hmk : env.mkdirAll ((st.world.log
        (.osStat (getOutputPath path fl.targetDir fl.outputDir))).log
        (.osMkdirAll (Dir (getOutputPath path fl.targetDir fl.outputDir)))).fs
        (Dir (getOutputPath path fl.targetDir fl.outputDir)) with
    | mk e made =>
      cases e with
      | some e =>
        refine ⟨_, rfl, ?_⟩
        have := @Handled.mkdirFailed env fl st path info e made hstat hmk
        simpa [World.log] using this
      | none =>
        simp only []
        cases hconv : convertToWebP env
            { (st.world.log (.osStat (getOutputPath path fl.targetDir fl.outputDir))).log
                (.osMkdirAll (Dir (getOutputPath path fl.targetDir fl.outputDir))) with
              fs := makeDirs ((st.world.log
                (.osStat (getOutputPath path fl.targetDir fl.outputDir))).log
                (.osMkdirAll (Dir (getOutputPath path fl.targetDir fl.outputDir)))).fs made }
            path (getOutputPath path fl.targetDir fl.outputDir) fl.quality with
        | mk w1 e =>
          have hconv' : convertToWebP env
              { fs := makeDirs st.world.fs made
                trace := st.world.trace ++
                  [.osStat (getOutputPath path fl.targetDir fl.outputDir),
                   .osMkdirAll (Dir (getOutputPath path fl.targetDir fl.outputDir))] }
              path (getOutputPath path fl.targetDir fl.outputDir) fl.quality = (w1, e) := by
            simpa [World.log] using hconv
          cases e with
          | some e =>
            exact ⟨_, rfl, Handled.convertFailed e made w1 hstat hmk hconv'⟩
          | none =>
            obtain ⟨n, hn⟩ := convertToWebP_created env _ w1 path _ fl.quality hconv'
            have hn' : osStat (w1.log
                (.osStat (getOutputPath path fl.targetDir fl.outputDir))).fs
                (getOutputPath path fl.targetDir fl.outputDir) = some ⟨false, n⟩ := hn
            simp only [hn']
            refine ⟨_, rfl, ?_⟩
            have := @Handled.converted env fl st path info made w1 ⟨false, n⟩ hstat hmk hconv' hn
            convert this using 2

/-! ## Lemmas on the walk -/

theorem walkFn_error (env : Env) (fl : Flags) (st : State) (path : GoString) (info : FileInfo)
    (e : GoString) : walkFn env fl st path info (some e) = some (st, some e) := rfl

theorem walkFn_dir (env : Env) (fl : Flags) (st : State) (path : GoString) (info : FileInfo)
    (hd : info.isDir = true) : walkFn env fl st path info none = some (st, none) := by
  simp [walkFn, hd]

theorem walkFn_unsupported (env : Env) (fl : Flags) (st : State) (path : GoString)
    (info : FileInfo) (hs : supportedFile env path = false) :
    walkFn env fl st path info none = some (st, none) := by
  unfold supportedFile at hs
  simp [walkFn, hs]

theorem Handled.addsOne {env : Env} {fl : Flags} {st st1 : State} {path : GoString}
    {info : FileInfo} (h : Handled env fl st path info st1) : AddsOne st st1 path := by
  cases h with
  | skipped i hstat => exact ⟨_, rfl, Or.inr (Or.inl ⟨rfl, rfl, rfl⟩)⟩
  | mkdirFailed e made hstat hmk => exact ⟨_, rfl, Or.inr (Or.inr ⟨rfl, rfl, rfl⟩)⟩
  | convertFailed e made w1 hstat hmk hconv => exact ⟨_, rfl, Or.inr (Or.inr ⟨rfl, rfl, rfl⟩)⟩
  | converted made w1 newInfo hstat hmk hconv hnew => exact ⟨_, rfl, Or.inl ⟨rfl, rfl, rfl⟩⟩

theorem AddsOne.outcomes {st st1 : State} {path : GoString} (h : AddsOne st st1 path) :
    outcomes st1 = outcomes st + 1 := by
  obtain ⟨r, _, h | h | h⟩ := h <;> obtain ⟨h1, h2, h3⟩ := h <;>
    simp [ConvertToWebp.outcomes, h1, h2, h3] <;> omega

/-- The callback on an entry without a walker error returns nil, and adds one
outcome for a supported regular file and none otherwise. -/
theorem walkFn_file (env : Env) (fl : Flags) (st : State) (path : GoString) (info : FileInfo) :
    ∃ st1, walkFn env fl st path info none = some (st1, none) ∧
      if info.isDir = false ∧ supportedFile env path = true then AddsOne st st1 path
      else AddsNone st st1 := by
  by_cases hd : info.isDir = true
  · exact ⟨st, walkFn_dir env fl st path info hd, by simp [hd, AddsNone]⟩
  · have hd' : info.isDir = false := by simpa using hd
    by_cases hs : supportedFile env path = true
    · obtain ⟨st1, h1, h2⟩ := walkFn_handled env fl st path info hd' hs
      exact ⟨st1, h1, by simpa [hd', hs] using h2.addsOne⟩
    · have hs' : supportedFile env path = false := by simpa using hs
      exact ⟨st, walkFn_unsupported env fl st path info hs', by simp [hs', AddsNone]⟩

theorem Walk_append (env : Env) (fl : Flags) (st s1 : State) (pre post : List WalkArg)
    (h : Walk env fl st pre = some (s1, none)) :
    Walk env fl st (pre ++ post) = Walk env fl s1 post := by
  induction pre generalizing st with
  | nil =>
    simp only [Walk, Option.some.injEq, Prod.mk.injEq, and_true] at h
    simp [h]
  | cons a pre ih =>
    simp only [List.cons_append, Walk] at h ⊢
    cases hw : walkFn env fl st a.path a.info a.err with
    | none => simp [hw] at h
    | some r =>
      obtain ⟨s2, e⟩ := r
      cases e with
      | some e => simp [hw] at h
      | none =>
        simp only [hw] at h ⊢
        exact ih s2 h

/-- A walk over entries without walker errors runs to its end, and the number
of outcomes grows by the number of supported regular files. -/
theorem Walk_files (env : Env) (fl : Flags) (st : State) (files : List WalkArg)
    (hfiles : ∀ a ∈ files, a.err = none) :
    ∃ st1, Walk env fl st files = some (st1, none) ∧
      outcomes st1 = outcomes st + (files.filter (candidate env)).length := by
  induction files generalizing st with
  | nil => exact ⟨st, rfl, by simp⟩
  | cons a files ih =>
    have ha : a.err = none := hfiles a (List.mem_cons_self _ _)
    obtain ⟨s1, h1, h2⟩ := walkFn_file env fl st a.path a.info
    obtain ⟨s2, h3, h4⟩ := ih s1 fun b hb => hfiles b (List.mem_cons_of_mem _ hb)
    refine ⟨s2, by simp [Walk, ha, h1, h3], ?_⟩
    rw [h4]
    by_cases hc : a.info.isDir = false ∧ supportedFile env a.path = true
    · rw [if_pos hc] at h2
      have : candidate env a = true := by simp [candidate, hc.1, hc.2]
      rw [List.filter_cons_of_pos this, h2.outcomes, List.length_cons]
      omega
    · rw [if_neg hc] at h2
      have : ¬ candidate env a = true := by
        intro h
        simp only [candidate, Bool.and_eq_true, Bool.not_eq_true'] at h
        exact hc h
      rw [List.filter_cons_of_neg this]
      obtain ⟨e1, e2, e3⟩ := h2
      simp [outcomes, e1, e2, e3]

/-! ## Lemmas on the callback and the walk, for every entry -/

theorem walkFn_cases (env : Env) (fl : Flags) (st st1 : State) (path : GoString)
    (info : FileInfo) (err ret : Option GoString)
    (h : walkFn env fl st path info err = some (st1, ret)) :
    ret = err ∧ (st1 = st ∨ (err = none ∧ info.isDir = false ∧ supportedFile env path = true ∧
      Handled env fl st path info st1)) := by
  cases err with
  | some e =>
    rw [walkFn_error] at h
    simp only [Option.some.injEq, Prod.mk.injEq] at h
    exact ⟨h.2.symm, Or.inl h.1.symm⟩
  | none =>
    by_cases hd : info.isDir = true
    · rw [walkFn_dir env fl st path info hd] at h
      simp only [Option.some.injEq, Prod.mk.injEq] at h
      exact ⟨h.2.symm, Or.inl h.1.symm⟩
    · have hd' : info.isDir = false := by simpa using hd
      by_cases hs : supportedFile env path = true
      · obtain ⟨s2, h1, h2⟩ := walkFn_handled env fl st path info hd' hs
        rw [h1] at h
        simp only [Option.some.injEq, Prod.mk.injEq] at h
        exact ⟨h.2.symm, Or.inr ⟨rfl, hd', hs, h.1 ▸ h2⟩⟩
      · have hs' : supportedFile env path = false := by simpa using hs
        rw [walkFn_unsupported env fl st path info hs'] at h
        simp only [Option.some.injEq, Prod.mk.injEq] at h
        exact ⟨h.2.symm, Or.inl h.1.symm⟩

/-- The callback never panics, and returns the error it was given. -/
theorem walkFn_total (env : Env) (fl : Flags) (st : State) (path : GoString) (info : FileInfo)
    (err : Option GoString) : ∃ st1, walkFn env fl st path info err = some (st1, err) := by
  cases err with
  | some e => exact ⟨st, rfl⟩
  | none =>
    obtain ⟨st1, h, _⟩ := walkFn_file env fl st path info
    exact ⟨st1, h⟩

theorem Walk_total (env : Env) (fl : Flags) (st : State) (walk : List WalkArg) :
    ∃ st1 e, Walk env fl st walk = some (st1, e) := by
  induction walk generalizing st with
  | nil => exact ⟨st, none, rfl⟩
  | cons a walk ih =>
    obtain ⟨s1, h1⟩ := walkFn_total env fl st a.path a.info a.err
    cases he : a.err with
    | some e =>
      rw [he] at h1
      exact ⟨s1, some e, by simp [Walk, h1, he]⟩
    | none =>
      rw [he] at h1
      obtain ⟨s2, e, h2⟩ := ih s1
      exact ⟨s2, e, by simp [Walk, h1, he, h2]⟩

/-- A property of the state that every handling of a supported regular file of
the walk keeps holds after the walk. -/
theorem Walk_invariant (env : Env) (fl : Flags) (P : State → Prop) (walk : List WalkArg)
    (hstep : ∀ st a st1, a ∈ walk → a.info.isDir = false → supportedFile env a.path = true →
      P st → Handled env fl st a.path a.info st1 → P st1)
    (st st1 : State) (e : Option GoString) (h0 : P st)
    (h : Walk env fl st walk = some (st1, e)) : P st1 := by
  induction walk generalizing st with
  | nil =>
    simp only [Walk, Option.some.injEq, Prod.mk.injEq] at h
    exact h.1 ▸ h0
  | cons a walk ih =>
    simp only [Walk] at h
    cases hw : walkFn env fl st a.path a.info a.err with
    | none => simp [hw] at h
    | some r =>
      obtain ⟨s2, e2⟩ := r
      have hP : P s2 := by
        rcases (walkFn_cases env fl st s2 a.path a.info a.err e2 hw).2 with
          h1 | ⟨_, h2, h3, h1⟩
        · exact h1 ▸ h0
        · exact hstep st a s2 (List.mem_cons_self _ _) h2 h3 h0 h1
      have hstep' : ∀ st b st1, b ∈ walk → b.info.isDir = false →
          supportedFile env b.path = true → P st → Handled env fl st b.path b.info st1 → P st1 :=
        fun st b st1 hb => hstep st b st1 (List.mem_cons_of_mem _ hb)
      cases e2 with
      | some e2 =>
        simp only [hw, Option.some.injEq, Prod.mk.injEq] at h
        exact h.1 ▸ hP
      | none =>
        simp only [hw] at h
        exact ih hstep' s2 hP h

/-! ## What the conversion does to the world -/

theorem removals_append (a b : List Event) : removals (a ++ b) = removals a ++ removals b := by
  simp [removals, List.filterMap_append]

theorem removals_log (w : World) (e : Event) (he : ∀ p, e ≠ .osRemove p) :
    removals (w.log e).trace = removals w.trace := by
  simp only [World.log, removals_append]
  cases e with
  | osRemove p => exact absurd rfl (he p)
  | _ => simp [removals]

theorem decodeByExt_world (env : Env) (w : World) (i : GoString) :
    (decodeByExt env w i).1.fs = w.fs ∧
      removals (decodeByExt env w i).1.trace = removals w.trace := by
  unfold decodeByExt
  simp only []
  split
  · exact ⟨rfl, removals_log w _ (by simp)⟩
  · split
    · exact ⟨rfl, removals_log w _ (by simp)⟩
    · exact ⟨rfl, rfl⟩

/-- The conversion calls no `os.Remove`, and changes the file system at the
output path only, where it leaves what was there or a regular file. -/
theorem convertToWebP_world (env : Env) (w : World) (i o : GoString) (q : Int) :
    removals (convertToWebP env w i o q).1.trace = removals w.trace ∧
    (∀ p, p ≠ o → osStat (convertToWebP env w i o q).1.fs p = osStat w.fs p) ∧
    (osStat (convertToWebP env w i o q).1.fs o = osStat w.fs o ∨
      ∃ n, osStat (convertToWebP env w i o q).1.fs o = some ⟨false, n⟩) := by
  have hlog : removals (w.log (.osOpen i)).trace = removals w.trace :=
    removals_log w _ (by simp)
  unfold convertToWebP
  simp only []
  cases hopen : env.osOpen (w.log (.osOpen i)).fs i with
  | some e => exact ⟨hlog, fun p _ => rfl, Or.inl rfl⟩
  | none =>
    simp only []
    have hd := decodeByExt_world env (w.log (.osOpen i)) i
    cases hdec : decodeByExt env (w.log (.osOpen i)) i with
    | mk w2 r =>
      rw [hdec] at hd
      obtain ⟨hd1, hd2⟩ := hd
      simp only [] at hd1 hd2
      have hfs : w2.fs = w.fs := hd1
      cases r with
      | error e => exact ⟨hd2.trans hlog, fun p _ => by rw [hfs], Or.inl (by rw [hfs])⟩
      | ok img =>
        simp only []
        have hlog2 : removals (w2.log (.osCreate o)).trace = removals w.trace :=
          (removals_log w2 _ (by simp)).trans (hd2.trans hlog)
        cases hcr : env.osCreate (w2.log (.osCreate o)).fs o with
        | some e => exact ⟨hlog2, fun p _ => by simp [World.log, hfs], Or.inl (by simp [World.log, hfs])⟩
        | none =>
          simp only []
          refine ⟨?_, fun p hp => ?_,
            Or.inr ⟨(env.webpEncode (writeFile w2.fs o 0) o img q).2, ?_⟩⟩
          · exact (removals_log _ _ (by simp)).trans hlog2
          · simp [World.log, osStat_writeFile, hp, hfs]
          · simp [World.log, osStat_writeFile]

theorem convertToWebP_result {env : Env} {w w1 : World} {i o : GoString} {q : Int}
    {e : Option GoString} (h : convertToWebP env w i o q = (w1, e)) :
    removals w1.trace = removals w.trace ∧
    (∀ p, p ≠ o → osStat w1.fs p = osStat w.fs p) ∧
    (osStat w1.fs o = osStat w.fs o ∨ ∃ n, osStat w1.fs o = some ⟨false, n⟩) := by
  have := convertToWebP_world env w i o q
  rw [h] at this
  exact this

theorem osStat_makeDirs (fs : FS) (ds : List GoString) (p : GoString) :
    osStat (makeDirs fs ds) p = osStat fs p ∨
      (osStat fs p = none ∧ ∃ i, osStat (makeDirs fs ds) p = some i ∧ i.isDir = true) := by
  induction ds generalizing fs with
  | nil => exact Or.inl rfl
  | cons d ds ih =>
    simp only [makeDirs]
    by_cases hd : (osStat fs d).isSome = true
    · simpa [hd] using ih fs
    · simp only [hd, Bool.false_eq_true, if_false]
      have hdn : osStat fs d = none := by simpa using hd
      have happ : osStat (fs ++ [(d, ⟨true, 0⟩)]) p =
          if p = d then (some ⟨true, 0⟩ : Option FileInfo) else osStat fs p := by
        rw [osStat_append]
        by_cases hp : p = d
        · subst hp
          simp [hdn, osStat]
        · have hp' : ¬ d = p := fun h => hp h.symm
          cases hq : osStat fs p <;> simp [osStat, hp, hp']
      rcases ih (fs ++ [(d, ⟨true, 0⟩)]) with h | ⟨h1, i, h2, h3⟩
      · by_cases hp : p = d
        · subst hp
          right
          refine ⟨hdn, ⟨true, 0⟩, by rw [h, happ]; simp, rfl⟩
        · left
          rw [h, happ]
          simp [hp]
      · right
        rw [happ] at h1
        by_cases hp : p = d
        · simp [hp] at h1
        · simp only [hp, if_false] at h1
          exact ⟨h1, i, h2, h3⟩

theorem isSome_makeDirs (fs : FS) (ds : List GoString) (p : GoString)
    (h : (osStat fs p).isSome = true) : (osStat (makeDirs fs ds) p).isSome = true := by
  rcases osStat_makeDirs fs ds p with h1 | ⟨h1, _⟩
  · rw [h1]; exact h
  · rw [h1] at h; simp at h

theorem isSome_convertToWebP (env : Env) (w : World) (i o : GoString) (q : Int) (p : GoString)
    (h : (osStat w.fs p).isSome = true) :
    (osStat (convertToWebP env w i o q).1.fs p).isSome = true := by
  obtain ⟨_, h2, h3⟩ := convertToWebP_world env w i o q
  by_cases hp : p = o
  · subst hp
    rcases h3 with h3 | ⟨n, h3⟩
    · rw [h3]; exact h
    · rw [h3]; rfl
  · rw [h2 p hp]; exact h

theorem removals_afterRemove (env : Env) (fl : Flags) (w : World) (path : GoString) :
    removals (afterRemove env fl w path).trace =
      removals w.trace ++ if fl.keepOriginal then [] else [path] := by
  unfold afterRemove
  cases fl.keepOriginal with
  | true => simp
  | false =>
    simp only [Bool.not_false, if_true]
    split <;> simp [removals_append, removals]

theorem isSome_afterRemove (env : Env) (fl : Flags) (w : World) (path p : GoString)
    (h : (osStat w.fs p).isSome = true) :
    (osStat (afterRemove env fl w path).fs p).isSome = true ∨
      (p = path ∧ fl.keepOriginal = false) := by
  unfold afterRemove
  cases fl.keepOriginal with
  | true => left; simpa using h
  | false =>
    simp only [Bool.not_false, if_true]
    split
    · by_cases hp : p = path
      · right; exact ⟨hp, by simp⟩
      · left; simpa [osStat_removeFile, hp] using h
    · left; exact h

/-- The invariant that links the calls of `os.Remove` to the successes. -/
theorem Handled.removals {env : Env} {fl : Flags} {st st1 : State} {path : GoString}
    {info : FileInfo} (h : Handled env fl st path info st1)
    (h0 : removals st.world.trace =
      if fl.keepOriginal then [] else st.successList.map convertResult.path) :
    ConvertToWebp.removals st1.world.trace =
      if fl.keepOriginal then [] else st1.successList.map convertResult.path := by
  cases h with
  | skipped i hstat =>
    simp only []
    rw [removals_log _ _ (by simp)]
    exact h0
  | mkdirFailed e made hstat hmk =>
    simp only [removals_append]
    have : ConvertToWebp.removals [Event.osStat (getOutputPath path fl.targetDir fl.outputDir),
        Event.osMkdirAll (Dir (getOutputPath path fl.targetDir fl.outputDir))] = [] := rfl
    rw [this, List.append_nil]
    exact h0
  | convertFailed e made w1 hstat hmk hconv =>
    have h1 := (convertToWebP_result hconv).1
    simp only [removals_append] at h1
    have : ConvertToWebp.removals [Event.osStat (getOutputPath path fl.targetDir fl.outputDir),
        Event.osMkdirAll (Dir (getOutputPath path fl.targetDir fl.outputDir))] = [] := rfl
    rw [this, List.append_nil] at h1
    simp only []
    rw [h1]
    exact h0
  | converted made w1 newInfo hstat hmk hconv hnew =>
    have h1 := (convertToWebP_result hconv).1
    simp only [removals_append] at h1
    have : ConvertToWebp.removals [Event.osStat (getOutputPath path fl.targetDir fl.outputDir),
        Event.osMkdirAll (Dir (getOutputPath path fl.targetDir fl.outputDir))] = [] := rfl
    rw [this, List.append_nil] at h1
    simp only []
    rw [removals_afterRemove, removals_log _ _ (by simp), h1, h0]
    cases fl.keepOriginal <;> simp

/-- Entries of the file system stay, but for the source of a conversion when
the original is not kept. -/
theorem Handled.isSome {env : Env} {fl : Flags} {st st1 : State} {path : GoString}
    {info : FileInfo} (h : Handled env fl st path info st1) (p : GoString)
    (hp : (osStat st.world.fs p).isSome = true) :
    (osStat st1.world.fs p).isSome = true ∨
      (p = path ∧ fl.keepOriginal = false ∧
        ∃ r : convertResult, r.path = path ∧ st1.successList = st.successList ++ [r]) := by
  cases h with
  | skipped i hstat => exact Or.inl hp
  | mkdirFailed e made hstat hmk => exact Or.inl (isSome_makeDirs _ _ _ hp)
  | convertFailed e made w1 hstat hmk hconv =>
    have := isSome_convertToWebP env
      { fs := makeDirs st.world.fs made
        trace := st.world.trace ++
          [.osStat (getOutputPath path fl.targetDir fl.outputDir),
           .osMkdirAll (Dir (getOutputPath path fl.targetDir fl.outputDir))] }
      path (getOutputPath path fl.targetDir fl.outputDir) fl.quality p
      (isSome_makeDirs _ _ _ hp)
    rw [hconv] at this
    exact Or.inl this
  | converted made w1 newInfo hstat hmk hconv hnew =>
    have := isSome_convertToWebP env
      { fs := makeDirs st.world.fs made
        trace := st.world.trace ++
          [.osStat (getOutputPath path fl.targetDir fl.outputDir),
           .osMkdirAll (Dir (getOutputPath path fl.targetDir fl.outputDir))] }
      path (getOutputPath path fl.targetDir fl.outputDir) fl.quality p
      (isSome_makeDirs _ _ _ hp)
    rw [hconv] at this
    rcases isSome_afterRemove env fl
      (w1.log (.osStat (getOutputPath path fl.targetDir fl.outputDir))) path p this with h | h
    · exact Or.inl h
    · exact Or.inr ⟨h.1, h.2, _, rfl, rfl⟩

theorem Handled.successList_mono {env : Env} {fl : Flags} {st st1 : State} {path : GoString}
    {info : FileInfo} (h : Handled env fl st path info st1) (p : GoString)
    (hp : p ∈ st.successList.map convertResult.path) :
    p ∈ st1.successList.map convertResult.path := by
  cases h with
  | converted made w1 newInfo hstat hmk hconv hnew =>
    simp only [List.map_append, List.mem_append]
    exact Or.inl hp
  | _ => exact hp

/-! ## The error of the conversion -/

theorem convertToWebP_open_error (env : Env) (w : World) (i o : GoString) (q : Int)
    (e : GoString) (h : env.osOpen w.fs i = some e) :
    (convertToWebP env w i o q).2 = some e := by
  have h1 : env.osOpen (w.log (.osOpen i)).fs i = some e := h
  simp [convertToWebP, h1]

theorem convertToWebP_decode_error (env : Env) (w w2 : World) (i o : GoString) (q : Int)
    (e : GoString) (h : env.osOpen w.fs i = none)
    (hdec : decodeByExt env (w.log (.osOpen i)) i = (w2, .error e)) :
    (convertToWebP env w i o q).2 = some e := by
  have h1 : env.osOpen (w.log (.osOpen i)).fs i = none := h
  simp [convertToWebP, h1, hdec]

theorem convertToWebP_create_error (env : Env) (w w2 : World) (i o : GoString) (q : Int)
    (img : Nat) (e : GoString) (h : env.osOpen w.fs i = none)
    (hdec : decodeByExt env (w.log (.osOpen i)) i = (w2, .ok img))
    (hcr : env.osCreate w2.fs o = some e) :
    (convertToWebP env w i o q).2 = some e := by
  have h1 : env.osOpen (w.log (.osOpen i)).fs i = none := h
  have h2 : env.osCreate (w2.log (.osCreate o)).fs o = some e := hcr
  simp [convertToWebP, h1, hdec, h2]

theorem convertToWebP_encode_error (env : Env) (w w2 : World) (i o : GoString) (q : Int)
    (img : Nat) (h : env.osOpen w.fs i = none)
    (hdec : decodeByExt env (w.log (.osOpen i)) i = (w2, .ok img))
    (hcr : env.osCreate w2.fs o = none) :
    (convertToWebP env w i o q).2 = (env.webpEncode (writeFile w2.fs o 0) o img q).1 := by
  have h1 : env.osOpen (w.log (.osOpen i)).fs i = none := h
  have h2 : env.osCreate (w2.log (.osCreate o)).fs o = none := hcr
  simp only [convertToWebP, h1, hdec, h2]
  rfl

theorem Walk_abort (env : Env) (fl : Flags) (st : State) (pre post : List WalkArg)
    (path : GoString) (info : FileInfo) (e : GoString) (hpre : ∀ a ∈ pre, a.err = none) :
    ∃ s1, Walk env fl st pre = some (s1, none) ∧
      Walk env fl st (pre ++ ⟨path, info, some e⟩ :: post) = some (s1, some e) := by
  obtain ⟨s1, h1, _⟩ := Walk_files env fl st pre hpre
  exact ⟨s1, h1, by rw [Walk_append env fl st s1 pre _ h1]; rfl⟩

/-! ## Lemmas on numbers -/

theorem int64_add_int64 (a b : Int) : int64 (int64 a + b) = int64 (a + b) := by
  unfold int64
  norm_num
  omega

theorem int64_of_range (x : Int) (h1 : -2 ^ 63 ≤ x) (h2 : x < 2 ^ 63) : int64 x = x := by
  unfold int64
  norm_num at *
  omega

/-! ## Rounding to `float64` -/

theorem log2Fuel_spec : ∀ (fuel n : Nat), 0 < n → n ≤ fuel →
    2 ^ log2Fuel fuel n ≤ n ∧ n < 2 ^ (log2Fuel fuel n + 1)
  | 0, n, h0, h1 => by omega
  | fuel + 1, n, h0, h1 => by
    by_cases h : n < 2
    · have h2 : log2Fuel (fuel + 1) n = 0 := by simp only [log2Fuel, h, if_true]
      rw [h2, pow_zero, zero_add, pow_one]
      omega
    · simp only [log2Fuel, h, if_false]
      have ih := log2Fuel_spec fuel (n / 2) (by omega) (by omega)
      rw [pow_succ, pow_succ]
      rw [pow_succ] at ih
      omega

theorem floorLog2_spec (n : Nat) (h : 0 < n) :
    2 ^ floorLog2 n ≤ n ∧ n < 2 ^ (floorLog2 n + 1) :=
  log2Fuel_spec n n h (le_refl n)

theorem two_zpow_split (e : ℤ) : (2 : ℚ) ^ e = (2 : ℚ) ^ e.toNat / (2 : ℚ) ^ (-e).toNat := by
  rcases le_total 0 e with h | h
  · have h1 : (-e).toNat = 0 := Int.toNat_eq_zero.mpr (by omega)
    rw [h1, pow_zero, div_one, ← zpow_natCast, Int.toNat_of_nonneg h]
  · have h1 : e.toNat = 0 := Int.toNat_eq_zero.mpr h
    rw [h1, pow_zero, one_div, ← zpow_natCast, Int.toNat_of_nonneg (by omega : 0 ≤ -e),
      ← zpow_neg, neg_neg]

theorem scale_cast (p q : Nat) (e : ℤ) (hq : 0 < q) :
    ((p * 2 ^ (-e).toNat : ℕ) : ℚ) / ((q * 2 ^ e.toNat : ℕ) : ℚ) = (p : ℚ) / q / 2 ^ e := by
  have hq1 : (q : ℚ) ≠ 0 := by exact_mod_cast hq.ne'
  rw [two_zpow_split e]
  push_cast
  field_simp

theorem floorLog2Q_spec (p q : Nat) (hp : 0 < p) (hq : 0 < q) :
    (2 : ℚ) ^ floorLog2Q p q ≤ (p : ℚ) / q ∧ (p : ℚ) / q < 2 ^ (floorLog2Q p q + 1) := by
  obtain ⟨hp1, hp2⟩ := floorLog2_spec p hp
  obtain ⟨hq1, hq2⟩ := floorLog2_spec q hq
  have hp1 : (2 : ℚ) ^ floorLog2 p ≤ p := by exact_mod_cast hp1
  have hp2 : (p : ℚ) < 2 ^ floorLog2 p * 2 := by rw [← pow_succ]; exact_mod_cast hp2
  have hq1 : (2 : ℚ) ^ floorLog2 q ≤ q := by exact_mod_cast hq1
  have hq2 : (q : ℚ) < 2 ^ floorLog2 q * 2 := by rw [← pow_succ]; exact_mod_cast hq2
  have hA : (0 : ℚ) < 2 ^ floorLog2 p := by positivity
  have hB : (0 : ℚ) < 2 ^ floorLog2 q := by positivity
  have hq0 : (0 : ℚ) < q := by exact_mod_cast hq
  have hp0 : (0 : ℚ) < p := by exact_mod_cast hp
  have hlg : (2 : ℚ) ^ ((floorLog2 p : ℤ) - (floorLog2 q : ℤ))
      = 2 ^ floorLog2 p / 2 ^ floorLog2 q := by
    rw [zpow_sub₀ (by norm_num : (2 : ℚ) ≠ 0), zpow_natCast, zpow_natCast]
  have htest : (q * 2 ^ ((floorLog2 p : ℤ) - (floorLog2 q : ℤ)).toNat
        ≤ p * 2 ^ (-((floorLog2 p : ℤ) - (floorLog2 q : ℤ))).toNat) ↔
      (2 : ℚ) ^ ((floorLog2 p : ℤ) - (floorLog2 q : ℤ)) ≤ (p : ℚ) / q := by
    rw [two_zpow_split, div_le_div_iff₀ (by positivity) hq0]
    constructor
    · intro h
      have : ((q * 2 ^ ((floorLog2 p : ℤ) - (floorLog2 q : ℤ)).toNat : ℕ) : ℚ)
          ≤ ((p * 2 ^ (-((floorLog2 p : ℤ) - (floorLog2 q : ℤ))).toNat : ℕ) : ℚ) := by
        exact_mod_cast h
      push_cast at this
      linarith
    · intro h
      have : ((q * 2 ^ ((floorLog2 p : ℤ) - (floorLog2 q : ℤ)).toNat : ℕ) : ℚ)
          ≤ ((p * 2 ^ (-((floorLog2 p : ℤ) - (floorLog2 q : ℤ))).toNat : ℕ) : ℚ) := by
        push_cast
        linarith
      exact_mod_cast this
  unfold floorLog2Q
  simp only []
  split
  · rename_i h
    refine ⟨htest.mp h, ?_⟩
    rw [zpow_add_one₀ (by norm_num : (2 : ℚ) ≠ 0), hlg, div_mul_eq_mul_div,
      div_lt_div_iff₀ hq0 hB]
    nlinarith
  · rename_i h
    have h1 := lt_of_not_le (fun h2 => h (htest.mpr h2))
    rw [sub_add_cancel]
    refine ⟨?_, h1⟩
    rw [zpow_sub_one₀ (by norm_num : (2 : ℚ) ≠ 0), hlg, ← div_eq_mul_inv, div_div,
      div_le_div_iff₀ (by positivity) hq0]
    nlinarith

theorem roundNearest_spec (p q : Nat) (hq : 0 < q) :
    |((roundNearest p q : ℕ) : ℚ) - (p : ℚ) / q| ≤ 1 / 2 := by
  have hq0 : (0 : ℚ) < q := by exact_mod_cast hq
  have hr : p % q < q := Nat.mod_lt p hq
  have hdiv : ((p / q : ℕ) : ℚ) * q + ((p % q : ℕ) : ℚ) = p := by
    have := Nat.div_add_mod p q
    rw [mul_comm] at this
    exact_mod_cast this
  have hS : (p : ℚ) / q = ((p / q : ℕ) : ℚ) + ((p % q : ℕ) : ℚ) / q := by
    field_simp
    linarith
  have hr0 : (0 : ℚ) ≤ ((p % q : ℕ) : ℚ) / q := by positivity
  have hr1 : ((p % q : ℕ) : ℚ) / q < 1 := by
    rw [div_lt_one hq0]
    exact_mod_cast hr
  unfold roundNearest
  rw [hS, abs_le]
  split
  · rename_i h
    have h2 : (1 : ℚ) / 2 ≤ ((p % q : ℕ) : ℚ) / q := by
      rw [div_le_div_iff₀ (by norm_num) hq0]
      have : q ≤ 2 * (p % q) := by omega
      have : (q : ℚ) ≤ ((2 * (p % q) : ℕ) : ℚ) := by exact_mod_cast this
      push_cast at this
      linarith
    push_cast
    constructor <;> linarith
  · rename_i h
    have h2 : ((p % q : ℕ) : ℚ) / q ≤ 1 / 2 := by
      rw [div_le_div_iff₀ hq0 (by norm_num)]
      have : 2 * (p % q) ≤ q := by omega
      have : ((2 * (p % q) : ℕ) : ℚ) ≤ (q : ℚ) := by exact_mod_cast this
      push_cast at this
      linarith
    constructor <;> linarith

theorem roundPos_spec (p q : Nat) (hp : 0 < p) (hq : 0 < q)
    (hlo : (2 : ℚ) ^ (-1022 : ℤ) ≤ (p : ℚ) / q) (hhi : (p : ℚ) / q < 2 ^ (1023 : ℤ)) :
    (roundPos p q).2 ≤ 971 ∧ 0 < (roundPos p q).1 ∧
      |((roundPos p q).1 : ℚ) * 2 ^ (roundPos p q).2 - (p : ℚ) / q|
        ≤ (p : ℚ) / q / 2 ^ 53 := by
  obtain ⟨h1, h2⟩ := floorLog2Q_spec p q hp hq
  have h21 : (1 : ℚ) < 2 := by norm_num
  have h20 : (2 : ℚ) ≠ 0 := by norm_num
  have ha : (0 : ℚ) < (p : ℚ) / q := by positivity
  have hfl1 : -1022 ≤ floorLog2Q p q := by
    have := (zpow_lt_zpow_iff_right₀ h21).mp (lt_of_le_of_lt hlo h2)
    omega
  have hfl2 : floorLog2Q p q ≤ 1022 := by
    have := (zpow_lt_zpow_iff_right₀ h21).mp (lt_of_le_of_lt h1 hhi)
    omega
  have he : max (floorLog2Q p q - 52) (-1074) = floorLog2Q p q - 52 := max_eq_left (by omega)
  have hQ : 0 < q * 2 ^ (floorLog2Q p q - 52).toNat := by positivity
  have hr := roundNearest_spec (p * 2 ^ (-(floorLog2Q p q - 52)).toNat)
    (q * 2 ^ (floorLog2Q p q - 52).toNat) hQ
  rw [scale_cast p q (floorLog2Q p q - 52) hq] at hr
  have hpow : (0 : ℚ) < 2 ^ (floorLog2Q p q - 52) := by positivity
  have h3 : (2 : ℚ) ^ (floorLog2Q p q - 52) ≤ (p : ℚ) / q / 2 ^ 52 := by
    rw [le_div_iff₀ (by positivity), ← zpow_natCast, ← zpow_add₀ h20]
    simpa using h1
  have hval : ∀ m : ℚ, |m - (p : ℚ) / q / 2 ^ (floorLog2Q p q - 52)| ≤ 1 / 2 →
      |m * 2 ^ (floorLog2Q p q - 52) - (p : ℚ) / q| ≤ (p : ℚ) / q / 2 ^ 53 := by
    intro m hm
    have : m * 2 ^ (floorLog2Q p q - 52) - (p : ℚ) / q
        = (m - (p : ℚ) / q / 2 ^ (floorLog2Q p q - 52)) * 2 ^ (floorLog2Q p q - 52) := by
      field_simp
      ring
    rw [this, abs_mul, abs_of_pos hpow]
    calc _ ≤ 1 / 2 * ((p : ℚ) / q / 2 ^ 52) := mul_le_mul hm h3 hpow.le (by norm_num)
      _ = (p : ℚ) / q / 2 ^ 53 := by ring
  have hv := hval _ hr
  unfold roundPos
  simp only [he]
  split
  · rename_i hm
    refine ⟨by simp only []; omega, by simp only []; positivity, ?_⟩
    simp only []
    rw [hm] at hv
    have : ((2 ^ 52 : ℕ) : ℚ) * 2 ^ (floorLog2Q p q - 52 + 1)
        = ((2 ^ 53 : ℕ) : ℚ) * 2 ^ (floorLog2Q p q - 52) := by
      rw [zpow_add_one₀ h20]
      push_cast
      ring
    rw [this]
    exact hv
  · refine ⟨by simp only []; omega, ?_, hv⟩
    simp only []
    rcases Nat.eq_zero_or_pos (roundNearest (p * 2 ^ (-(floorLog2Q p q - 52)).toNat)
      (q * 2 ^ (floorLog2Q p q - 52).toNat)) with h0 | h0
    · rw [h0] at hv
      simp only [Nat.cast_zero, zero_mul, zero_sub, abs_neg, abs_of_pos ha] at hv
      have : (p : ℚ) / q / 2 ^ 53 < (p : ℚ) / q := div_lt_self ha (by norm_num)
      linarith
    · exact h0

theorem float64_round_spec (s : Bool) (p q : Nat) (hp : 0 < p) (hq : 0 < q)
    (hlo : (2 : ℚ) ^ (-1022 : ℤ) ≤ (p : ℚ) / q) (hhi : (p : ℚ) / q < 2 ^ (1023 : ℤ)) :
    ∃ m e, float64.round s p q = .fin s m e ∧ 0 < m ∧
      |(m : ℚ) * 2 ^ e - (p : ℚ) / q| ≤ (p : ℚ) / q / 2 ^ 53 := by
  obtain ⟨h1, h2, h3⟩ := roundPos_spec p q hp hq hlo hhi
  refine ⟨(roundPos p q).1, (roundPos p q).2, ?_, h2, h3⟩
  simp only [float64.round, not_lt.mpr h1, if_false, h2.ne']

theorem float64_ofInt_spec (i : Int) (h0 : i ≠ 0) (h1 : |i| < 2 ^ 63) :
    ∃ m e, float64.ofInt i = .fin (decide (i < 0)) m e ∧ 0 < m ∧
      |(m : ℚ) * 2 ^ e - abs (i : ℚ)| ≤ abs (i : ℚ) / 2 ^ 53 := by
  have hn : 0 < i.natAbs := Int.natAbs_pos.mpr h0
  have hc : ((i.natAbs : ℕ) : ℚ) = abs (i : ℚ) := by
    rw [Nat.cast_natAbs, Int.cast_abs]
  have hge : (1 : ℚ) ≤ abs (i : ℚ) := by
    rw [← hc]; exact_mod_cast hn
  have hlt : abs (i : ℚ) < 2 ^ 63 := by
    rw [← Int.cast_abs]; exact_mod_cast h1
  obtain ⟨m, e, h2, h3, h4⟩ := float64_round_spec (decide (i < 0)) i.natAbs 1 hn Nat.one_pos
    (by rw [Nat.cast_one, div_one, hc]
        exact le_trans (zpow_le_one_of_nonpos₀ (by norm_num) (by norm_num)) hge)
    (by rw [Nat.cast_one, div_one, hc]
        exact lt_trans hlt (by norm_num))
  rw [Nat.cast_one, div_one, hc] at h4
  exact ⟨m, e, by simp only [float64.ofInt, h0, if_false, h2], h3, h4⟩

theorem float64_div_spec (s1 s2 : Bool) (m1 m2 : Nat) (e1 e2 : Int) (h1 : 0 < m1) (h2 : 0 < m2)
    (hlo : (2 : ℚ) ^ (-1022 : ℤ) ≤ ((m1 : ℚ) * 2 ^ e1) / ((m2 : ℚ) * 2 ^ e2))
    (hhi : ((m1 : ℚ) * 2 ^ e1) / ((m2 : ℚ) * 2 ^ e2) < 2 ^ (1023 : ℤ)) :
    ∃ m e, float64.div (.fin s1 m1 e1) (.fin s2 m2 e2) = .fin (xor s1 s2) m e ∧ 0 < m ∧
      |(m : ℚ) * 2 ^ e - ((m1 : ℚ) * 2 ^ e1) / ((m2 : ℚ) * 2 ^ e2)|
        ≤ ((m1 : ℚ) * 2 ^ e1) / ((m2 : ℚ) * 2 ^ e2) / 2 ^ 53 := by
  have h20 : (2 : ℚ) ≠ 0 := by norm_num
  have hm2 : (m2 : ℚ) ≠ 0 := by exact_mod_cast h2.ne'
  have hcast : ((m1 * 2 ^ (e1 - e2).toNat : ℕ) : ℚ) / ((m2 * 2 ^ (e2 - e1).toNat : ℕ) : ℚ)
      = ((m1 : ℚ) * 2 ^ e1) / ((m2 : ℚ) * 2 ^ e2) := by
    have := scale_cast m1 m2 (e2 - e1) h2
    rw [neg_sub] at this
    rw [this, zpow_sub₀ h20]
    field_simp
  obtain ⟨m, e, h3, h4, h5⟩ := float64_round_spec (xor s1 s2) (m1 * 2 ^ (e1 - e2).toNat)
    (m2 * 2 ^ (e2 - e1).toNat) (by positivity) (by positivity)
    (by rw [hcast]; exact hlo) (by rw [hcast]; exact hhi)
  rw [hcast] at h5
  exact ⟨m, e, by simp only [float64.div, h2.ne', h1.ne', if_false, h3], h4, h5⟩

theorem float64_mul_spec (s1 s2 : Bool) (m1 m2 : Nat) (e1 e2 : Int) (h1 : 0 < m1) (h2 : 0 < m2)
    (hlo : (2 : ℚ) ^ (-1022 : ℤ) ≤ ((m1 : ℚ) * 2 ^ e1) * ((m2 : ℚ) * 2 ^ e2))
    (hhi : ((m1 : ℚ) * 2 ^ e1) * ((m2 : ℚ) * 2 ^ e2) < 2 ^ (1023 : ℤ)) :
    ∃ m e, float64.mul (.fin s1 m1 e1) (.fin s2 m2 e2) = .fin (xor s1 s2) m e ∧ 0 < m ∧
      |(m : ℚ) * 2 ^ e - ((m1 : ℚ) * 2 ^ e1) * ((m2 : ℚ) * 2 ^ e2)|
        ≤ ((m1 : ℚ) * 2 ^ e1) * ((m2 : ℚ) * 2 ^ e2) / 2 ^ 53 := by
  have h20 : (2 : ℚ) ≠ 0 := by norm_num
  have hcast : ((m1 * m2 * 2 ^ (e1 + e2).toNat : ℕ) : ℚ) / ((2 ^ (-(e1 + e2)).toNat : ℕ) : ℚ)
      = ((m1 : ℚ) * 2 ^ e1) * ((m2 : ℚ) * 2 ^ e2) := by
    have h : (2 : ℚ) ^ e1 * 2 ^ e2
        = (2 : ℚ) ^ (e1 + e2).toNat / (2 : ℚ) ^ (-(e1 + e2)).toNat := by
      rw [← zpow_add₀ h20, two_zpow_split]
    have h3 : ((m1 : ℚ) * 2 ^ e1) * ((m2 : ℚ) * 2 ^ e2)
        = (m1 : ℚ) * m2 * ((2 : ℚ) ^ e1 * 2 ^ e2) := by ring
    rw [h3, h]
    push_cast
    ring
  obtain ⟨m, e, h3, h4, h5⟩ := float64_round_spec (xor s1 s2) (m1 * m2 * 2 ^ (e1 + e2).toNat)
    (2 ^ (-(e1 + e2)).toNat) (by positivity) (by positivity)
    (by rw [hcast]; exact hlo) (by rw [hcast]; exact hhi)
  rw [hcast] at h5
  refine ⟨m, e, ?_, h4, h5⟩
  have hn : ¬ (m1 = 0 ∨ m2 = 0) := by omega
  simp only [float64.mul, hn, if_false, h3]

theorem error_chain (D O X Y Q R : ℚ) (hD : 0 < D) (hO : 0 < O)
    (hX : |X - D| ≤ D / 2 ^ 53) (hY : |Y - O| ≤ O / 2 ^ 53)
    (hQ : |Q - X / Y| ≤ X / Y / 2 ^ 53) (hR : |R - Q * 100| ≤ Q * 100 / 2 ^ 53) :
    |R - D / O * 100| ≤ D / O * 100 / 2 ^ 50 := by
  rw [abs_le] at hX hY hQ hR
  have hX1 : D * (1 - 1 / 2 ^ 53) ≤ X := by linarith
  have hX2 : X ≤ D * (1 + 1 / 2 ^ 53) := by linarith
  have hY1 : O * (1 - 1 / 2 ^ 53) ≤ Y := by linarith
  have hY2 : Y ≤ O * (1 + 1 / 2 ^ 53) := by linarith
  have hc1 : (0 : ℚ) < 1 - 1 / 2 ^ 53 := by norm_num
  have hc2 : (0 : ℚ) < 1 + 1 / 2 ^ 53 := by norm_num
  have hXpos : 0 < X := lt_of_lt_of_le (mul_pos hD hc1) hX1
  have hYpos : 0 < Y := lt_of_lt_of_le (mul_pos hO hc1) hY1
  have hE : 0 < D / O := div_pos hD hO
  have hXY1 : X / Y ≤ D / O * ((1 + 1 / 2 ^ 53) / (1 - 1 / 2 ^ 53)) := by
    rw [div_mul_div_comm]
    exact div_le_div₀ (by positivity) hX2 (mul_pos hO hc1) hY1
  have hXY2 : D / O * ((1 - 1 / 2 ^ 53) / (1 + 1 / 2 ^ 53)) ≤ X / Y := by
    rw [div_mul_div_comm]
    exact div_le_div₀ hXpos.le hX1 hYpos hY2
  have hQ1 : X / Y * (1 - 1 / 2 ^ 53) ≤ Q := by linarith
  have hQ2 : Q ≤ X / Y * (1 + 1 / 2 ^ 53) := by linarith
  have hR1 : Q * 100 * (1 - 1 / 2 ^ 53) ≤ R := by linarith
  have hR2 : R ≤ Q * 100 * (1 + 1 / 2 ^ 53) := by linarith
  have hup : R ≤ D / O * ((1 + 1 / 2 ^ 53) / (1 - 1 / 2 ^ 53) * (1 + 1 / 2 ^ 53) * 100
      * (1 + 1 / 2 ^ 53)) := by
    have a1 : Q ≤ D / O * ((1 + 1 / 2 ^ 53) / (1 - 1 / 2 ^ 53)) * (1 + 1 / 2 ^ 53) :=
      le_trans hQ2 (mul_le_mul_of_nonneg_right hXY1 hc2.le)
    have a2 : Q * 100 * (1 + 1 / 2 ^ 53)
        ≤ D / O * ((1 + 1 / 2 ^ 53) / (1 - 1 / 2 ^ 53)) * (1 + 1 / 2 ^ 53) * 100
          * (1 + 1 / 2 ^ 53) :=
      mul_le_mul_of_nonneg_right (mul_le_mul_of_nonneg_right a1 (by norm_num)) hc2.le
    linarith
  have hlow : D / O * ((1 - 1 / 2 ^ 53) / (1 + 1 / 2 ^ 53) * (1 - 1 / 2 ^ 53) * 100
      * (1 - 1 / 2 ^ 53)) ≤ R := by
    have a1 : D / O * ((1 - 1 / 2 ^ 53) / (1 + 1 / 2 ^ 53)) * (1 - 1 / 2 ^ 53) ≤ Q :=
      le_trans (mul_le_mul_of_nonneg_right hXY2 hc1.le) hQ1
    have a2 : D / O * ((1 - 1 / 2 ^ 53) / (1 + 1 / 2 ^ 53)) * (1 - 1 / 2 ^ 53) * 100
          * (1 - 1 / 2 ^ 53) ≤ Q * 100 * (1 - 1 / 2 ^ 53) :=
      mul_le_mul_of_nonneg_right (mul_le_mul_of_nonneg_right a1 (by norm_num)) hc1.le
    linarith
  have n1 : (1 + 1 / 2 ^ 53 : ℚ) / (1 - 1 / 2 ^ 53) * (1 + 1 / 2 ^ 53) * 100 * (1 + 1 / 2 ^ 53)
      ≤ 100 + 100 / 2 ^ 50 := by norm_num
  have n2 : (100 - 100 / 2 ^ 50 : ℚ)
      ≤ (1 - 1 / 2 ^ 53) / (1 + 1 / 2 ^ 53) * (1 - 1 / 2 ^ 53) * 100 * (1 - 1 / 2 ^ 53) := by
    norm_num
  have u1 := mul_le_mul_of_nonneg_left n1 hE.le
  have u2 := mul_le_mul_of_nonneg_left n2 hE.le
  rw [abs_le]
  constructor <;> linarith

theorem float64_ofInt_hundred : float64.ofInt 100 = .fin false 7036874417766400 (-46) := by decide

theorem hundred_value : ((7036874417766400 : ℕ) : ℚ) * 2 ^ (-46 : ℤ) = 100 := by
  norm_num [zpow_neg]

theorem reductionOf_spec (o n : Int) (ho : 0 < o ∧ o < 2 ^ 63) (hn : 0 ≤ n ∧ n < 2 ^ 63)
    (hne : n ≠ o) :
    ∃ m e, reductionOf o n = .fin (decide (o < n)) m e ∧ 0 < m ∧
      |(m : ℚ) * 2 ^ e - abs (((o - n : Int) : ℚ)) / (o : ℚ) * 100|
        ≤ abs (((o - n : Int) : ℚ)) / (o : ℚ) * 100 / 2 ^ 50 := by
  have hd0 : o - n ≠ 0 := by omega
  have hd1 : |o - n| < 2 ^ 63 := by rw [abs_lt]; constructor <;> omega
  have ho1 : |o| < 2 ^ 63 := by rw [abs_lt]; constructor <;> omega
  obtain ⟨mx, ex, hx, hx0, hxe⟩ := float64_ofInt_spec (o - n) hd0 hd1
  obtain ⟨my, ey, hy, hy0, hye⟩ := float64_ofInt_spec o (by omega) ho1
  have hoq : abs (o : ℚ) = (o : ℚ) := abs_of_pos (by exact_mod_cast ho.1)
  rw [hoq] at hye
  have hO1 : (1 : ℚ) ≤ (o : ℚ) := by exact_mod_cast ho.1
  have hO2 : (o : ℚ) < 2 ^ 63 := by exact_mod_cast ho.2
  have hD1 : (1 : ℚ) ≤ abs (((o - n : Int) : ℚ)) := by
    rw [← Int.cast_abs]
    have : (1 : Int) ≤ |o - n| := Int.one_le_abs hd0
    exact_mod_cast this
  have hD2 : abs (((o - n : Int) : ℚ)) < 2 ^ 63 := by
    rw [← Int.cast_abs]; exact_mod_cast hd1
  have hX := abs_le.mp hxe
  have hY := abs_le.mp hye
  have hXlo : (1 : ℚ) / 2 ≤ (mx : ℚ) * 2 ^ ex := by
    have : abs (((o - n : Int) : ℚ)) / 2 ^ 53 ≤ abs (((o - n : Int) : ℚ)) / 2 :=
      div_le_div_of_nonneg_left (by linarith) (by norm_num) (by norm_num)
    linarith [hX.1]
  have hXhi : (mx : ℚ) * 2 ^ ex ≤ 2 ^ 64 := by
    have : abs (((o - n : Int) : ℚ)) / 2 ^ 53 ≤ abs (((o - n : Int) : ℚ)) :=
      div_le_self (by linarith) (by norm_num)
    linarith [hX.2]
  have hYlo : (1 : ℚ) / 2 ≤ (my : ℚ) * 2 ^ ey := by
    have : (o : ℚ) / 2 ^ 53 ≤ (o : ℚ) / 2 :=
      div_le_div_of_nonneg_left (by linarith) (by norm_num) (by norm_num)
    linarith [hY.1]
  have hYhi : (my : ℚ) * 2 ^ ey ≤ 2 ^ 64 := by
    have : (o : ℚ) / 2 ^ 53 ≤ (o : ℚ) := div_le_self (by linarith) (by norm_num)
    linarith [hY.2]
  have hXpos : (0 : ℚ) < (mx : ℚ) * 2 ^ ex := by linarith
  have hYpos : (0 : ℚ) < (my : ℚ) * 2 ^ ey := by linarith
  have hlow : (2 : ℚ) ^ (-1022 : ℤ) ≤ 2 ^ (-72 : ℤ) :=
    (zpow_le_zpow_iff_right₀ (by norm_num : (1 : ℚ) < 2)).mpr (by norm_num)
  have hhigh : (2 : ℚ) ^ (72 : ℤ) < 2 ^ (1023 : ℤ) :=
    (zpow_lt_zpow_iff_right₀ (by norm_num : (1 : ℚ) < 2)).mpr (by norm_num)
  have h72 : (2 : ℚ) ^ (72 : ℤ) = 2 ^ 72 := by norm_cast
  have hm72 : (2 : ℚ) ^ (-72 : ℤ) = 1 / 2 ^ 72 := by
    rw [zpow_neg, one_div]; norm_cast
  have hQlo : (1 : ℚ) / 2 ^ 65 ≤ (mx : ℚ) * 2 ^ ex / ((my : ℚ) * 2 ^ ey) := by
    rw [le_div_iff₀ hYpos]
    calc (1 : ℚ) / 2 ^ 65 * ((my : ℚ) * 2 ^ ey) ≤ 1 / 2 ^ 65 * 2 ^ 64 :=
          mul_le_mul_of_nonneg_left hYhi (by norm_num)
      _ = 1 / 2 := by norm_num
      _ ≤ _ := hXlo
  have hQhi : (mx : ℚ) * 2 ^ ex / ((my : ℚ) * 2 ^ ey) ≤ 2 ^ 65 := by
    rw [div_le_iff₀ hYpos]
    calc (mx : ℚ) * 2 ^ ex ≤ 2 ^ 64 := hXhi
      _ = 2 ^ 65 * (1 / 2) := by norm_num
      _ ≤ 2 ^ 65 * ((my : ℚ) * 2 ^ ey) := mul_le_mul_of_nonneg_left hYlo (by norm_num)
  obtain ⟨mq, eq, hq, hq0, hqe⟩ := float64_div_spec (decide (o - n < 0)) (decide (o < 0)) mx my ex ey
    hx0 hy0
    (le_trans hlow (by rw [hm72]; exact le_trans (by norm_num) hQlo))
    (lt_of_le_of_lt (by rw [h72]; exact le_trans hQhi (by norm_num)) hhigh)
  have hQ := abs_le.mp hqe
  have hQvlo : (1 : ℚ) / 2 ^ 66 ≤ (mq : ℚ) * 2 ^ eq := by
    have : (mx : ℚ) * 2 ^ ex / ((my : ℚ) * 2 ^ ey) / 2 ^ 53
        ≤ (mx : ℚ) * 2 ^ ex / ((my : ℚ) * 2 ^ ey) / 2 :=
      div_le_div_of_nonneg_left (by linarith) (by norm_num) (by norm_num)
    have h2 : (1 : ℚ) / 2 ^ 66 = 1 / 2 ^ 65 / 2 := by norm_num
    linarith [hQ.1]
  have hQvhi : (mq : ℚ) * 2 ^ eq ≤ 2 ^ 66 := by
    have : (mx : ℚ) * 2 ^ ex / ((my : ℚ) * 2 ^ ey) / 2 ^ 53
        ≤ (mx : ℚ) * 2 ^ ex / ((my : ℚ) * 2 ^ ey) :=
      div_le_self (by linarith) (by norm_num)
    have h2 : (2 : ℚ) ^ 66 = 2 ^ 65 + 2 ^ 65 := by norm_num
    linarith [hQ.2]
  obtain ⟨mr, er, hr, hr0, hre⟩ := float64_mul_spec (xor (decide (o - n < 0)) (decide (o < 0))) false
    mq 7036874417766400 eq (-46) hq0 (by norm_num)
    (le_trans hlow (by rw [hm72, hundred_value]; linarith))
    (lt_of_le_of_lt (by rw [h72, hundred_value]; linarith) hhigh)
  rw [hundred_value] at hre
  have hsign : xor (xor (decide (o - n < 0)) (decide (o < 0))) false = decide (o < n) := by
    have h1 : ¬ o < 0 := by omega
    by_cases h2 : o < n
    · have h3 : o - n < 0 := by omega
      simp [h1, h2, h3]
    · have h3 : ¬ o - n < 0 := by omega
      simp [h1, h2, h3]
  refine ⟨mr, er, ?_, hr0, ?_⟩
  · rw [reductionOf, int64_of_range _ (by omega) (by omega), hx, hy, hq, float64_ofInt_hundred, hr,
      hsign]
  · exact error_chain _ _ _ _ _ _ (by linarith) (by linarith) hxe hye hqe hre

theorem reductionOf_self (o : Int) (ho : 0 < o ∧ o < 2 ^ 63) :
    reductionOf o o = float64.zero false := by
  obtain ⟨my, ey, hy, hy0, _⟩ := float64_ofInt_spec o (by omega)
    (by rw [abs_lt]; constructor <;> omega)
  have h1 : int64 (o - o) = 0 := by rw [sub_self]; rfl
  have h2 : ¬ o < 0 := by omega
  simp only [h2, decide_False] at hy
  rw [reductionOf, h1, hy, float64_ofInt_hundred]
  simp only [float64.ofInt, if_true, float64.zero, float64.div, hy0.ne', if_false,
    float64.mul, true_or, Bool.xor_false]

theorem reductionOf_zero_zero : reductionOf 0 0 = .nan := by decide

theorem reductionOf_zero_pos (n : Int) (hn : 0 < n ∧ n < 2 ^ 63) :
    reductionOf 0 n = .inf true := by
  obtain ⟨mx, ex, hx, hx0, _⟩ := float64_ofInt_spec (0 - n) (by omega)
    (by rw [abs_lt]; constructor <;> omega)
  have h2 : 0 - n < 0 := by omega
  simp only [h2, decide_True] at hx
  rw [reductionOf, int64_of_range _ (by omega) (by omega), hx, float64_ofInt_hundred]
  simp only [float64.ofInt, if_true, float64.zero, float64.div, hx0.ne', if_false,
    float64.mul, Bool.xor_false]
  rfl

/-- The value of the recorded reduction against the exact quotient. -/
theorem reductionOf_value (o n : Int) (ho : 0 < o ∧ o < 2 ^ 63) (hn : 0 ≤ n ∧ n < 2 ^ 63) :
    ∃ s m e, reductionOf o n = .fin s m e ∧ (s = true ↔ o < n) ∧ (m = 0 ↔ n = o) ∧
      |(reductionOf o n).toRat - ((o - n : Int) : ℚ) / (o : ℚ) * 100|
        ≤ abs (((o - n : Int) : ℚ) / (o : ℚ) * 100) / 2 ^ 50 := by
  have hO : (0 : ℚ) < (o : ℚ) := by exact_mod_cast ho.1
  by_cases hne : n = o
  · subst hne
    refine ⟨false, 0, -1074, reductionOf_self n ho, by simp, by simp, ?_⟩
    rw [reductionOf_self n ho]
    simp [float64.zero, float64.toRat]
  · obtain ⟨m, e, h1, h2, h3⟩ := reductionOf_spec o n ho hn hne
    refine ⟨decide (o < n), m, e, h1, by simp, ?_, ?_⟩
    · constructor
      · intro h; omega
      · intro h; exact absurd h hne
    · rw [h1]
      have habs : abs (((o - n : Int) : ℚ) / (o : ℚ) * 100)
          = abs (((o - n : Int) : ℚ)) / (o : ℚ) * 100 := by
        rw [abs_mul, abs_div, abs_of_pos hO, abs_of_pos (by norm_num : (0 : ℚ) < 100)]
      rw [habs]
      by_cases hlt : o < n
      · have hd : ((o - n : Int) : ℚ) < 0 := by
          have : o - n < 0 := by omega
          exact_mod_cast this
        have e1 : float64.toRat (.fin (decide (o < n)) m e) - ((o - n : Int) : ℚ) / (o : ℚ) * 100
            = -((m : ℚ) * 2 ^ e - abs (((o - n : Int) : ℚ)) / (o : ℚ) * 100) := by
          simp only [float64.toRat, hlt, decide_True, if_true, abs_of_neg hd]
          ring
        rw [e1, abs_neg]
        exact h3
      · have hd : (0 : ℚ) ≤ ((o - n : Int) : ℚ) := by
          have : 0 ≤ o - n := by omega
          exact_mod_cast this
        have e1 : float64.toRat (.fin (decide (o < n)) m e) - ((o - n : Int) : ℚ) / (o : ℚ) * 100
            = (m : ℚ) * 2 ^ e - abs (((o - n : Int) : ℚ)) / (o : ℚ) * 100 := by
          simp only [float64.toRat, hlt, decide_False, abs_of_nonneg hd]
          simp
        rw [e1]
        exact h3

/-- The record of a success is the one the callback builds at lines 105 to 120. -/
theorem walkFn_success_record (env : Env) (fl : Flags) (st st1 : State) (path : GoString)
    (info : FileInfo) (err ret : Option GoString) (r : convertResult)
    (h : walkFn env fl st path info err = some (st1, ret))
    (hr : st1.successList = st.successList ++ [r]) :
    r.path = path ∧ r.origSize = info.size ∧ r.reason = [] ∧
      r.reduction = reductionOf r.origSize r.newSize ∧
      osStat st.world.fs (getOutputPath path fl.targetDir fl.outputDir) = none ∧
      st1.totalOrigSize = int64 (st.totalOrigSize + r.origSize) ∧
      st1.totalNewSize = int64 (st.totalNewSize + r.newSize) := by
  have hne : st.successList ≠ st.successList ++ [r] := by
    intro h
    have := congrArg List.length h
    simp at this
  rcases (walkFn_cases env fl st st1 path info err ret h).2 with h1 | ⟨_, _, _, h1⟩
  · rw [h1] at hr; exact absurd hr hne
  · cases h1 with
    | skipped i hstat => exact absurd hr hne
    | mkdirFailed e made hstat hmk => exact absurd hr hne
    | convertFailed e made w1 hstat hmk hconv => exact absurd hr hne
    | converted made w1 newInfo hstat hmk hconv hnew =>
      simp only [List.append_cancel_left_eq, List.cons.injEq, and_true] at hr
      subst hr
      exact ⟨rfl, rfl, rfl, rfl, hstat, rfl, rfl⟩

/-! ## Extensions in any letter case -/

theorem lowerByte_eq_dot (c : Nat) (h : lowerByte c = dot) : c = dot := by
  unfold lowerByte at h
  unfold dot at *
  split at h <;> omega

theorem lowerByte_letter (c : Nat) (h : 97 ≤ lowerByte c ∧ lowerByte c ≤ 122) :
    c ≠ dot ∧ c ≠ Separator ∧ c < 128 := by
  unfold lowerByte at h
  unfold dot Separator
  split at h <;> omega

theorem map_lowerByte_shape (e l : GoString) (hl : ∀ x ∈ l, 97 ≤ x ∧ x ≤ 122)
    (h : e.map lowerByte = dot :: l) :
    ∃ t, e = dot :: t ∧ dot ∉ t ∧ Separator ∉ t ∧ ∀ x ∈ e, x < 128 := by
  cases e with
  | nil => simp at h
  | cons c t =>
    simp only [List.map_cons, List.cons.injEq] at h
    obtain ⟨hc, ht⟩ := h
    have hc' := lowerByte_eq_dot c hc
    have hall : ∀ x ∈ t, x ≠ dot ∧ x ≠ Separator ∧ x < 128 := by
      intro x hx
      apply lowerByte_letter
      apply hl
      rw [← ht]
      exact List.mem_map_of_mem _ hx
    refine ⟨t, by rw [hc'], fun hd => (hall _ hd).1 rfl, fun hd => (hall _ hd).2.1 rfl, ?_⟩
    intro x hx
    rcases List.mem_cons.mp hx with hx | hx
    · rw [hx, hc']; decide
    · exact (hall x hx).2.2

theorem caseVariant_shape (e : GoString) (h : caseVariant e = true) :
    ∃ t, e = dot :: t ∧ dot ∉ t ∧ Separator ∉ t ∧ ∀ x ∈ e, x < 128 := by
  have h1 : e.map lowerByte ∈ supportedExts := by simpa [caseVariant] using h
  have h2 : e.map lowerByte = dot :: [106, 112, 103] ∨ e.map lowerByte = dot :: [106, 112, 101, 103]
      ∨ e.map lowerByte = dot :: [112, 110, 103] := by
    have e1 : extJPG = dot :: [106, 112, 103] := by decide
    have e2 : extJPEG = dot :: [106, 112, 101, 103] := by decide
    have e3 : extPNG = dot :: [112, 110, 103] := by decide
    simpa [supportedExts, e1, e2, e3] using h1
  rcases h2 with h2 | h2 | h2
  · exact map_lowerByte_shape e _ (by decide) h2
  · exact map_lowerByte_shape e _ (by decide) h2
  · exact map_lowerByte_shape e _ (by decide) h2

theorem ToLower_ascii (u : GoString → GoString) (e : GoString) (h : ∀ x ∈ e, x < 128) :
    ToLower u e = e.map lowerByte := by
  have : e.all (fun c => decide (c < 128)) = true := by
    simpa [List.all_eq_true] using h
  simp [ToLower, this]

/-- A path that ends in a supported extension, in any letter case, has that
extension, is taken for conversion, and goes to the stem with `.webp`. -/
theorem caseVariant_path (env : Env) (p e sourceDir : GoString) (h : caseVariant e = true) :
    Ext (p ++ e) = e ∧ supportedFile env (p ++ e) = true ∧
      getOutputPath (p ++ e) sourceDir [] = p ++ extWEBP := by
  obtain ⟨t, ht, h1, h2, h3⟩ := caseVariant_shape e h
  have hext : Ext (p ++ e) = e := by rw [ht]; exact Ext_append_dot p t h1 h2
  refine ⟨hext, ?_, ?_⟩
  · have h4 : e.map lowerByte ∈ supportedExts := by simpa [caseVariant] using h
    simp only [supportedFile, hext, ToLower_ascii _ e h3, isSupportedExt, List.any_eq_true,
      decide_eq_true_eq]
    exact ⟨_, h4, rfl⟩
  · simp only [getOutputPath, if_true, hext, TrimSuffix_append]

/-- The destination next to the source is never itself taken for conversion. -/
theorem destination_unsupported (env : Env) (path sourceDir : GoString) :
    supportedFile env (getOutputPath path sourceDir []) = false := by
  have hw : extWEBP = dot :: [119, 101, 98, 112] := by decide
  have hext : Ext (TrimSuffix path (Ext path) ++ extWEBP) = extWEBP := by
    rw [hw]; exact Ext_append_dot _ _ (by decide) (by decide)
  have hlow : ToLower env.unicodeLower extWEBP = extWEBP := by
    rw [ToLower_ascii _ _ (by decide)]; decide
  simp only [getOutputPath, if_true, supportedFile, hext, hlow]
  decide

/-- With the output beside the source, an entry at a destination path stays
through every handling of a supported file. -/
theorem Handled.destination_stays {env : Env} {fl : Flags} {st st1 : State} {path : GoString}
    {info : FileInfo} (h : Handled env fl st path info st1)
    (hs : supportedFile env path = true) (q sourceDir : GoString)
    (hq : (osStat st.world.fs (getOutputPath q sourceDir [])).isSome = true) :
    (osStat st1.world.fs (getOutputPath q sourceDir [])).isSome = true := by
  rcases h.isSome _ hq with h1 | ⟨h1, _⟩
  · exact h1
  · rw [← h1, destination_unsupported] at hs
    cases hs

/-- After a success the destination exists. -/
theorem Handled.converted_created {env : Env} {fl : Flags} {st st1 : State} {path : GoString}
    {info : FileInfo} (h : Handled env fl st path info st1) (r : convertResult)
    (hr : st1.successList = st.successList ++ [r])
    (hs : supportedFile env path = true) (hout : fl.outputDir = []) :
    (osStat st1.world.fs (getOutputPath path fl.targetDir fl.outputDir)).isSome = true := by
  have hne : st.successList ≠ st.successList ++ [r] := by
    intro h
    have := congrArg List.length h
    simp at this
  cases h with
  | skipped i hstat => exact absurd hr hne
  | mkdirFailed e made hstat hmk => exact absurd hr hne
  | convertFailed e made w1 hstat hmk hconv => exact absurd hr hne
  | converted made w1 newInfo hstat hmk hconv hnew =>
    have h1 : (osStat (w1.log
        (.osStat (getOutputPath path fl.targetDir fl.outputDir))).fs
        (getOutputPath path fl.targetDir fl.outputDir)).isSome = true := by
      show (osStat w1.fs _).isSome = true
      rw [hnew]; rfl
    rcases isSome_afterRemove env fl _ path _ h1 with h2 | ⟨h2, _⟩
    · exact h2
    · rw [hout] at h2
      rw [← h2, destination_unsupported] at hs
      cases hs

/-! ## The entries of the file system through a run -/

theorem mem_of_osStat (fs : FS) (p : GoString) (i : FileInfo) (h : osStat fs p = some i) :
    (p, i) ∈ fs := by
  induction fs with
  | nil => simp [osStat] at h
  | cons e fs ih =>
    obtain ⟨q, j⟩ := e
    by_cases hq : q = p
    · simp only [osStat, hq, if_true, Option.some.injEq] at h
      rw [hq, h]; exact List.mem_cons_self _ _
    · simp only [osStat, hq, if_false] at h
      exact List.mem_cons_of_mem _ (ih h)

theorem mem_makeDirs (fs : FS) (ds : List GoString) (x : GoString × FileInfo) :
    (x ∈ fs → x ∈ makeDirs fs ds) ∧ (x ∈ makeDirs fs ds → x ∈ fs ∨ x.2.isDir = true) := by
  induction ds generalizing fs with
  | nil => exact ⟨id, Or.inl⟩
  | cons d ds ih =>
    simp only [makeDirs]
    split
    · exact ih fs
    · refine ⟨fun h => (ih _).1 (List.mem_append_left _ h), fun h => ?_⟩
      rcases (ih _).2 h with h1 | h1
      · rcases List.mem_append.mp h1 with h2 | h2
        · exact Or.inl h2
        · right
          simp only [List.mem_singleton] at h2
          rw [h2]
      · exact Or.inr h1

theorem mem_removeFile (fs : FS) (p : GoString) (x : GoString × FileInfo) :
    x ∈ removeFile fs p ↔ x ∈ fs ∧ x.1 ≠ p := by
  simp [removeFile]

theorem mem_writeFile (fs : FS) (p : GoString) (n : Int) (x : GoString × FileInfo) :
    x ∈ writeFile fs p n ↔ (x ∈ fs ∧ x.1 ≠ p) ∨ x = (p, ⟨false, n⟩) := by
  simp [writeFile]

/-- The conversion leaves every entry at another path than the output, and
adds entries at the output path only. -/
theorem mem_convertToWebP (env : Env) (w : World) (i o : GoString) (q : Int)
    (x : GoString × FileInfo) :
    (x ∈ w.fs → x.1 ≠ o → x ∈ (convertToWebP env w i o q).1.fs) ∧
    (x ∈ (convertToWebP env w i o q).1.fs → x ∈ w.fs ∨ x.1 = o) := by
  unfold convertToWebP
  simp only []
  cases hopen : env.osOpen (w.log (.osOpen i)).fs i with
  | some e => exact ⟨fun h _ => h, Or.inl⟩
  | none =>
    simp only []
    have hd := (decodeByExt_world env (w.log (.osOpen i)) i).1
    cases hdec : decodeByExt env (w.log (.osOpen i)) i with
    | mk w2 r =>
      rw [hdec] at hd
      have hfs : w2.fs = w.fs := hd
      cases r with
      | error e => simp only []; rw [hfs]; exact ⟨fun h _ => h, Or.inl⟩
      | ok img =>
        simp only []
        cases hcr : env.osCreate (w2.log (.osCreate o)).fs o with
        | some e =>
          simp only [World.log]
          rw [hfs]; exact ⟨fun h _ => h, Or.inl⟩
        | none =>
          simp only [World.log, mem_writeFile, hfs]
          constructor
          · intro h hx
            exact Or.inl ⟨Or.inl ⟨h, hx⟩, hx⟩
          · rintro (⟨(⟨h, _⟩ | h), _⟩ | h)
            · exact Or.inl h
            · right; rw [h]
            · right; rw [h]

theorem mem_afterRemove (env : Env) (fl : Flags) (w : World) (path : GoString)
    (x : GoString × FileInfo) :
    (x ∈ (afterRemove env fl w path).fs → x ∈ w.fs) ∧
    (fl.keepOriginal = true → x ∈ w.fs → x ∈ (afterRemove env fl w path).fs) := by
  unfold afterRemove
  cases fl.keepOriginal with
  | true => exact ⟨by simp, by simp⟩
  | false =>
    simp only [Bool.not_false, if_true]
    split
    · exact ⟨fun h => ((mem_removeFile _ _ _).mp h).1, by simp⟩
    · exact ⟨id, by simp⟩

/-- The entries after a handling: a new entry is a directory or lies at the
destination, and with `keep` set an entry at another path than the destination
stays. -/
theorem Handled.mem {env : Env} {fl : Flags} {st st1 : State} {path : GoString}
    {info : FileInfo} (h : Handled env fl st path info st1) (x : GoString × FileInfo) :
    (x ∈ st1.world.fs → x ∈ st.world.fs ∨ x.2.isDir = true ∨
      x.1 = getOutputPath path fl.targetDir fl.outputDir) ∧
    (fl.keepOriginal = true → x.1 ≠ getOutputPath path fl.targetDir fl.outputDir →
      x ∈ st.world.fs → x ∈ st1.world.fs) := by
  cases h with
  | skipped i hstat => exact ⟨Or.inl, fun _ _ h => h⟩
  | mkdirFailed e made hstat hmk =>
    refine ⟨fun h => ?_, fun _ _ h => (mem_makeDirs _ _ _).1 h⟩
    rcases (mem_makeDirs _ _ _).2 h with h1 | h1
    · exact Or.inl h1
    · exact Or.inr (Or.inl h1)
  | convertFailed e made w1 hstat hmk hconv =>
    have hm := mem_convertToWebP env
      { fs := makeDirs st.world.fs made
        trace := st.world.trace ++
          [.osStat (getOutputPath path fl.targetDir fl.outputDir),
           .osMkdirAll (Dir (getOutputPath path fl.targetDir fl.outputDir))] }
      path (getOutputPath path fl.targetDir fl.outputDir) fl.quality x
    rw [hconv] at hm
    refine ⟨fun h => ?_, fun _ hx h => hm.1 ((mem_makeDirs _ _ _).1 h) hx⟩
    rcases hm.2 h with h1 | h1
    · rcases (mem_makeDirs _ _ _).2 h1 with h2 | h2
      · exact Or.inl h2
      · exact Or.inr (Or.inl h2)
    · exact Or.inr (Or.inr h1)
  | converted made w1 newInfo hstat hmk hconv hnew =>
    have hm := mem_convertToWebP env
      { fs := makeDirs st.world.fs made
        trace := st.world.trace ++
          [.osStat (getOutputPath path fl.targetDir fl.outputDir),
           .osMkdirAll (Dir (getOutputPath path fl.targetDir fl.outputDir))] }
      path (getOutputPath path fl.targetDir fl.outputDir) fl.quality x
    rw [hconv] at hm
    have hr := mem_afterRemove env fl
      (w1.log (.osStat (getOutputPath path fl.targetDir fl.outputDir))) path x
    refine ⟨fun h => ?_, fun hk hx h => hr.2 hk (hm.1 ((mem_makeDirs _ _ _).1 h) hx)⟩
    rcases hm.2 (hr.1 h) with h1 | h1
    · rcases (mem_makeDirs _ _ _).2 h1 with h2 | h2
      · exact Or.inl h2
      · exact Or.inr (Or.inl h2)
    · exact Or.inr (Or.inr h1)

/-! ## A second run -/

theorem decodeByExt_stationary (env : Env) (henv : Stationary env) (w w1 : World)
    (i : GoString) : (decodeByExt env w i).2 = (decodeByExt env w1 i).2 := by
  unfold decodeByExt
  simp only []
  split
  · exact (henv w.fs w1.fs i).2.2.1
  · split
    · exact (henv w.fs w1.fs i).2.2.2.1
    · rfl

theorem convertToWebP_stationary (env : Env) (henv : Stationary env) (w w1 : World)
    (i o : GoString) (q : Int) :
    (convertToWebP env w i o q).2 = (convertToWebP env w1 i o q).2 := by
  have hopen : env.osOpen (w.log (.osOpen i)).fs i = env.osOpen (w1.log (.osOpen i)).fs i :=
    (henv _ _ i).2.1
  have hdec := decodeByExt_stationary env henv (w.log (.osOpen i)) (w1.log (.osOpen i)) i
  unfold convertToWebP
  simp only []
  rw [← hopen]
  cases env.osOpen (w.log (.osOpen i)).fs i with
  | some e => rfl
  | none =>
    simp only []
    cases hd : decodeByExt env (w.log (.osOpen i)) i with
    | mk w2 r =>
      cases hd1 : decodeByExt env (w1.log (.osOpen i)) i with
      | mk w3 r1 =>
        rw [hd, hd1] at hdec
        simp only [] at hdec
        subst hdec
        cases r with
        | error e => rfl
        | ok img =>
          simp only []
          have hcr : env.osCreate (w2.log (.osCreate o)).fs o =
              env.osCreate (w3.log (.osCreate o)).fs o := (henv _ _ o).2.2.2.2.1
          rw [← hcr]
          cases env.osCreate (w2.log (.osCreate o)).fs o with
          | some e => rfl
          | none => exact (henv _ _ o).2.2.2.2.2 img q

/-- After a handling the file is settled. -/
theorem Handled.settled {env : Env} {fl : Flags} {st st1 : State} {path : GoString}
    {info : FileInfo} (h : Handled env fl st path info st1) (henv : Stationary env)
    (hs : supportedFile env path = true) (hout : fl.outputDir = []) :
    Settled env fl st1.world.fs path := by
  cases h with
  | skipped i hstat => exact Or.inl (by show (osStat st.world.fs _).isSome = true; rw [hstat]; rfl)
  | mkdirFailed e made hstat hmk =>
    refine Or.inr (Or.inl fun fs => ?_)
    rw [(henv fs st.world.fs _).1, hmk]
    simp
  | convertFailed e made w1 hstat hmk hconv =>
    refine Or.inr (Or.inr fun w => ?_)
    rw [convertToWebP_stationary env henv w _ path _ fl.quality, hconv]
    simp
  | converted made w1 newInfo hstat hmk hconv hnew =>
    exact Or.inl ((Handled.converted made w1 newInfo hstat hmk hconv hnew).converted_created
      _ rfl hs hout)

/-- The handling of a settled file records no success; when its destination
exists it records a skip. -/
theorem Handled.of_settled {env : Env} {fl : Flags} {st st1 : State} {path : GoString}
    {info : FileInfo} (h : Handled env fl st path info st1)
    (hset : Settled env fl st.world.fs path) :
    st1.successList = st.successList ∧
      ((osStat st.world.fs (getOutputPath path fl.targetDir fl.outputDir)).isSome = true →
        path ∈ st1.skippedList.map convertResult.path) := by
  cases h with
  | skipped i hstat => exact ⟨rfl, fun _ => by simp⟩
  | mkdirFailed e made hstat hmk => exact ⟨rfl, fun h => by rw [hstat] at h; cases h⟩
  | convertFailed e made w1 hstat hmk hconv =>
    exact ⟨rfl, fun h => by rw [hstat] at h; cases h⟩
  | converted made w1 newInfo hstat hmk hconv hnew =>
    rcases hset with h | h | h
    · rw [hstat] at h; cases h
    · exact absurd (by rw [hmk]) (h st.world.fs)
    · exact absurd (by rw [hconv]) (h _)

theorem Handled.skippedList_mono {env : Env} {fl : Flags} {st st1 : State} {path : GoString}
    {info : FileInfo} (h : Handled env fl st path info st1) (p : GoString)
    (hp : p ∈ st.skippedList.map convertResult.path) :
    p ∈ st1.skippedList.map convertResult.path := by
  cases h with
  | skipped i hstat =>
    simp only [List.map_append, List.mem_append]
    exact Or.inl hp
  | _ => exact hp

theorem Settled.stays {env : Env} {fl : Flags} {st st1 : State} {path q : GoString}
    {info : FileInfo} (hq : Settled env fl st.world.fs q) (h : Handled env fl st path info st1)
    (hs : supportedFile env path = true) (hout : fl.outputDir = []) :
    Settled env fl st1.world.fs q := by
  rcases hq with hq | hq
  · left
    rw [hout] at hq ⊢
    exact h.destination_stays hs _ _ hq
  · exact Or.inr hq

/-- After a walk that ran to its end every supported regular file it came to
is settled. -/
theorem Walk_settles (env : Env) (fl : Flags) (henv : Stationary env) (hout : fl.outputDir = [])
    (walk : List WalkArg) (st st1 : State) (hw : Walk env fl st walk = some (st1, none)) :
    ∀ a ∈ walk, a.info.isDir = false → supportedFile env a.path = true →
      Settled env fl st1.world.fs a.path := by
  induction walk generalizing st with
  | nil => intro a ha; cases ha
  | cons b walk ih =>
    simp only [Walk] at hw
    cases hb : walkFn env fl st b.path b.info b.err with
    | none => simp [hb] at hw
    | some r =>
      obtain ⟨s2, e2⟩ := r
      cases e2 with
      | some e2 => simp [hb] at hw
      | none =>
        simp only [hb] at hw
        intro a ha hd hs
        rcases List.mem_cons.mp ha with rfl | ha
        · have h2 : Settled env fl s2.world.fs a.path := by
            rcases (walkFn_cases env fl st s2 a.path a.info a.err none hb).2 with
              h1 | ⟨_, _, _, h1⟩
            · obtain ⟨s3, h3, h4⟩ := walkFn_handled env fl st a.path a.info hd hs
              have he : a.err = none := (walkFn_cases env fl st s2 a.path a.info a.err none hb).1.symm
              rw [he, h3] at hb
              simp only [Option.some.injEq, Prod.mk.injEq, and_true] at hb
              rw [← hb]
              exact h4.settled henv hs hout
            · exact h1.settled henv hs hout
          exact Walk_invariant env fl (fun s => Settled env fl s.world.fs a.path) walk
            (fun s c s1 _ _ hsc h0 h => h0.stays h hsc hout) s2 st1 none h2 hw
        · exact ih s2 hw a ha hd hs

/-- A walk over files that are all settled records no success, and records a
skip for each of them whose destination exists. -/
theorem Walk_of_settled (env : Env) (fl : Flags) (hout : fl.outputDir = [])
    (walk : List WalkArg) (st st1 : State) (hw : Walk env fl st walk = some (st1, none))
    (hset : ∀ a ∈ walk, a.info.isDir = false → supportedFile env a.path = true →
      Settled env fl st.world.fs a.path) :
    st1.successList = st.successList ∧
      ∀ a ∈ walk, a.info.isDir = false → supportedFile env a.path = true →
        (osStat st.world.fs (getOutputPath a.path fl.targetDir fl.outputDir)).isSome = true →
        a.path ∈ st1.skippedList.map convertResult.path := by
  induction walk generalizing st with
  | nil =>
    simp only [Walk, Option.some.injEq, Prod.mk.injEq, and_true] at hw
    exact ⟨by rw [hw], fun a ha => by cases ha⟩
  | cons b walk ih =>
    simp only [Walk] at hw
    cases hb : walkFn env fl st b.path b.info b.err with
    | none => simp [hb] at hw
    | some r =>
      obtain ⟨s2, e2⟩ := r
      cases e2 with
      | some e2 => simp [hb] at hw
      | none =>
        simp only [hb] at hw
        -- what the first call does
        have hfirst : (s2 = st ∧ ¬ (b.info.isDir = false ∧ supportedFile env b.path = true)) ∨
            (b.info.isDir = false ∧ supportedFile env b.path = true ∧
              Handled env fl st b.path b.info s2) := by
          by_cases hc : b.info.isDir = false ∧ supportedFile env b.path = true
          · obtain ⟨s3, h3, h4⟩ := walkFn_handled env fl st b.path b.info hc.1 hc.2
            have he : b.err = none :=
              (walkFn_cases env fl st s2 b.path b.info b.err none hb).1.symm
            rw [he, h3] at hb
            simp only [Option.some.injEq, Prod.mk.injEq, and_true] at hb
            exact Or.inr ⟨hc.1, hc.2, hb ▸ h4⟩
          · rcases (walkFn_cases env fl st s2 b.path b.info b.err none hb).2 with
              h1 | ⟨_, h1, h2, _⟩
            · exact Or.inl ⟨h1, hc⟩
            · exact absurd ⟨h1, h2⟩ hc
        have hset2 : ∀ a ∈ walk, a.info.isDir = false → supportedFile env a.path = true →
            Settled env fl s2.world.fs a.path := by
          intro a ha hd hs
          have h0 := hset a (List.mem_cons_of_mem _ ha) hd hs
          rcases hfirst with ⟨h1, _⟩ | ⟨_, h2, h3⟩
          · rw [h1]; exact h0
          · exact h0.stays h3 h2 hout
        obtain ⟨ih1, ih2⟩ := ih s2 hw hset2
        have hsucc : s2.successList = st.successList := by
          rcases hfirst with ⟨h1, _⟩ | ⟨h1, h2, h3⟩
          · rw [h1]
          · exact (h3.of_settled (hset b (List.mem_cons_self _ _) h1 h2)).1
        refine ⟨ih1.trans hsucc, ?_⟩
        intro a ha hd hs hex
        rcases List.mem_cons.mp ha with rfl | ha
        · rcases hfirst with ⟨_, h2⟩ | ⟨h1, h2, h3⟩
          · exact absurd ⟨hd, hs⟩ h2
          · have h4 := (h3.of_settled (hset a (List.mem_cons_self _ _) h1 h2)).2 hex
            exact Walk_invariant env fl
              (fun s => a.path ∈ s.skippedList.map convertResult.path) walk
              (fun s c s1 _ _ _ h0 h => h.skippedList_mono _ h0) s2 st1 none h4 hw
        · apply ih2 a ha hd hs
          rcases hfirst with ⟨h1, _⟩ | ⟨_, h2, h3⟩
          · rw [h1]; exact hex
          · rw [hout] at hex ⊢
            exact h3.destination_stays h2 _ _ hex

theorem mem_walkArgs (fs : FS) (a : WalkArg) :
    a ∈ walkArgs fs ↔ ∃ x ∈ fs, a = ⟨x.1, x.2, none⟩ := by
  simp only [walkArgs, List.mem_map]
  constructor
  · rintro ⟨x, hx, rfl⟩; exact ⟨x, hx, rfl⟩
  · rintro ⟨x, hx, rfl⟩; exact ⟨x, hx, rfl⟩

/-- Through a walk with the output beside the source, the supported regular
files in the file system are among those it began with. -/
theorem Walk_no_new_source (env : Env) (fl : Flags) (hout : fl.outputDir = [])
    (walk : List WalkArg) (st st1 : State) (e : Option GoString)
    (hw : Walk env fl st walk = some (st1, e)) (x : GoString × FileInfo)
    (hx : x ∈ st1.world.fs) (hd : x.2.isDir = false) (hs : supportedFile env x.1 = true) :
    x ∈ st.world.fs :=
  Walk_invariant env fl
    (fun s => ∀ x ∈ s.world.fs, x.2.isDir = false → supportedFile env x.1 = true →
      x ∈ st.world.fs) walk
    (fun s a s1 _ _ _ h0 h x hx hd hs => by
      rcases (h.mem x).1 hx with h1 | h1 | h1
      · exact h0 x h1 hd hs
      · rw [hd] at h1; cases h1
      · rw [h1, hout, destination_unsupported] at hs; cases hs)
    st st1 e (fun x hx _ _ => hx) hw x hx hd hs

/-- Through a walk with `keep` set and the output beside the source, the
supported files of the file system stay. -/
theorem Walk_keeps_sources (env : Env) (fl : Flags) (hout : fl.outputDir = [])
    (hkeep : fl.keepOriginal = true) (walk : List WalkArg) (st st1 : State)
    (e : Option GoString) (hw : Walk env fl st walk = some (st1, e))
    (x : GoString × FileInfo) (hx : x ∈ st.world.fs) (hs : supportedFile env x.1 = true) :
    x ∈ st1.world.fs :=
  Walk_invariant env fl
    (fun s => ∀ x ∈ st.world.fs, supportedFile env x.1 = true → x ∈ s.world.fs) walk
    (fun s a s1 _ _ _ h0 h x hx hs => by
      refine (h.mem x).2 hkeep ?_ (h0 x hx hs)
      intro h1
      rw [h1, hout, destination_unsupported] at hs
      cases hs)
    st st1 e (fun x hx _ => hx) hw x hx hs

/-- Every success recorded in a walk from the initial state is for a supported
regular file of the walk, and its destination exists at the end. -/
theorem Walk_successes (env : Env) (fl : Flags) (hout : fl.outputDir = [])
    (walk : List WalkArg) (fs : FS) (st1 : State) (e : Option GoString)
    (hw : Walk env fl (initState fs) walk = some (st1, e)) :
    ∀ r ∈ st1.successList, supportedFile env r.path = true ∧
      (osStat st1.world.fs (getOutputPath r.path fl.targetDir fl.outputDir)).isSome = true ∧
      ∃ a ∈ walk, a.path = r.path ∧ a.info.isDir = false :=
  Walk_invariant env fl
    (fun s => ∀ r ∈ s.successList, supportedFile env r.path = true ∧
      (osStat s.world.fs (getOutputPath r.path fl.targetDir fl.outputDir)).isSome = true ∧
      ∃ a ∈ walk, a.path = r.path ∧ a.info.isDir = false) walk
    (fun s a s1 ha hd hs h0 h r hr => by
      have hold : ∀ r ∈ s.successList, supportedFile env r.path = true ∧
          (osStat s1.world.fs (getOutputPath r.path fl.targetDir fl.outputDir)).isSome = true ∧
          ∃ a ∈ walk, a.path = r.path ∧ a.info.isDir = false := by
        intro r hr
        obtain ⟨h1, h2, h3⟩ := h0 r hr
        refine ⟨h1, ?_, h3⟩
        rw [hout] at h2 ⊢
        exact h.destination_stays hs _ _ h2
      obtain ⟨r0, hr0, hcase | hcase | hcase⟩ := h.addsOne
      · rw [hcase.1] at hr
        rcases List.mem_append.mp hr with hr | hr
        · exact hold r hr
        · simp only [List.mem_singleton] at hr
          subst hr
          rw [hr0]
          exact ⟨hs, by rw [← hr0]; rw [hr0]; exact h.converted_created r hcase.1 hs hout,
            a, ha, rfl, hd⟩
      · rw [hcase.1] at hr; exact hold r hr
      · rw [hcase.1] at hr; exact hold r hr)
    (initState fs) st1 e (fun r hr => by simp [initState] at hr) hw

/-! ## Elements of paths -/

theorem joinSep_nil : joinSep [] = [] := rfl

theorem joinSep_single (e : GoString) : joinSep [e] = e := by
  simp [joinSep, List.intercalate]

theorem joinSep_cons_cons (e f : GoString) (rest : List GoString) :
    joinSep (e :: f :: rest) = e ++ Separator :: joinSep (f :: rest) := by
  simp [joinSep, List.intercalate]

theorem joinSep_append (xs ys : List GoString) (hx : xs ≠ []) (hy : ys ≠ []) :
    joinSep (xs ++ ys) = joinSep xs ++ Separator :: joinSep ys := by
  induction xs with
  | nil => exact absurd rfl hx
  | cons e xs ih =>
    cases xs with
    | nil =>
      cases ys with
      | nil => exact absurd rfl hy
      | cons f ys => simp [joinSep_cons_cons, joinSep_single]
    | cons f xs =>
      have := ih (by simp)
      simp only [List.cons_append] at this ⊢
      rw [joinSep_cons_cons, joinSep_cons_cons, this]
      simp

theorem elements_ne_nil (p : GoString) : elements p ≠ [] := by
  cases p with
  | nil => simp [elements]
  | cons c cs =>
    simp only [elements]
    split
    · simp
    · split <;> simp

theorem elements_sepfree (e : GoString) (h : Separator ∉ e) : elements e = [e] := by
  induction e with
  | nil => rfl
  | cons c cs ih =>
    have hc : c ≠ Separator := fun h1 => h (by simp [h1])
    have hcs : Separator ∉ cs := fun h1 => h (List.mem_cons_of_mem _ h1)
    simp [elements, hc, ih hcs]

theorem elements_append_sep (a b : GoString) :
    elements (a ++ Separator :: b) = elements a ++ elements b := by
  induction a with
  | nil => simp [elements]
  | cons c cs ih =>
    by_cases hc : c = Separator
    · simp [elements, hc, ih]
    · simp only [List.cons_append, elements, hc, if_false, List.append_eq]
      rw [ih]
      cases h : elements cs with
      | nil => exact absurd h (elements_ne_nil cs)
      | cons e es => simp

theorem elements_joinSep (out : List GoString) (hne : out ≠ [])
    (h : ∀ e ∈ out, Separator ∉ e) : elements (joinSep out) = out := by
  induction out with
  | nil => exact absurd rfl hne
  | cons e out ih =>
    cases out with
    | nil => rw [joinSep_single]; exact elements_sepfree e (h e (by simp))
    | cons f out =>
      rw [joinSep_cons_cons, elements_append_sep, elements_sepfree e (h e (by simp)),
        ih (by simp) fun x hx => h x (List.mem_cons_of_mem _ hx)]
      rfl

theorem elements_no_sep (p : GoString) : ∀ e ∈ elements p, Separator ∉ e := by
  induction p with
  | nil => simp [elements]
  | cons c cs ih =>
    by_cases hc : c = Separator
    · simp only [elements, hc, if_true]
      intro e he
      rcases List.mem_cons.mp he with rfl | he
      · simp
      · exact ih e he
    · simp only [elements, hc, if_false]
      cases h : elements cs with
      | nil => exact absurd h (elements_ne_nil cs)
      | cons e es =>
        rw [h] at ih
        intro x hx
        rcases List.mem_cons.mp hx with rfl | hx
        · intro hm
          rcases List.mem_cons.mp hm with hm | hm
          · exact hc hm.symm
          · exact ih e (by simp) hm
        · exact ih x (List.mem_cons_of_mem _ hx)

/-! ## The loop of `filepath.Clean` -/

theorem cleanStep_name (rooted : Bool) (s : List GoString × Nat) (e : GoString)
    (h : IsName e) : cleanStep rooted s e = (s.1 ++ [e], s.2) := by
  obtain ⟨h1, _, h3, h4⟩ := h
  simp [cleanStep, h1, h3, h4]

theorem foldl_cleanStep_names (rooted : Bool) (ns : List GoString) (s : List GoString × Nat)
    (h : ∀ e ∈ ns, IsName e) : ns.foldl (cleanStep rooted) s = (s.1 ++ ns, s.2) := by
  induction ns generalizing s with
  | nil => simp
  | cons e ns ih =>
    rw [List.foldl_cons, cleanStep_name rooted s e (h e (by simp)),
      ih _ fun x hx => h x (List.mem_cons_of_mem _ hx)]
    simp

theorem foldl_cleanStep_dotdots (k j : Nat) :
    (List.replicate k [dot, dot]).foldl (cleanStep false)
      (List.replicate j [dot, dot], j) = (List.replicate (j + k) [dot, dot], j + k) := by
  induction k generalizing j with
  | zero => simp
  | succ k ih =>
    have hstep : cleanStep false (List.replicate j [dot, dot], j) [dot, dot] =
        (List.replicate (j + 1) [dot, dot], j + 1) := by
      simp [cleanStep, List.replicate_succ', dot]
    rw [List.replicate_succ, List.foldl_cons, hstep, ih (j + 1)]
    have : j + 1 + k = j + (k + 1) := by omega
    rw [this]

theorem cleanStep_form (rooted : Bool) (s : List GoString × Nat) (e : GoString)
    (he : Separator ∉ e) (h : CleanForm rooted s) : CleanForm rooted (cleanStep rooted s e) := by
  obtain ⟨normal, h1, h2, h3⟩ := h
  unfold cleanStep
  split
  · exact ⟨normal, h1, h2, h3⟩
  · split
    · exact ⟨normal, h1, h2, h3⟩
    · split
      · split
        · rename_i hlt
          have hn : normal ≠ [] := by
            intro hn
            rw [h1, hn] at hlt
            simp at hlt
          refine ⟨normal.dropLast, ?_, fun x hx => h2 x (List.dropLast_subset _ hx), h3⟩
          simp only []
          rw [h1, List.dropLast_append_of_ne_nil _ hn]
        · split
          · exact ⟨normal, h1, h2, h3⟩
          · rename_i hlt hr
            have hn : normal = [] := by
              rw [h1] at hlt
              simp only [List.length_append, List.length_replicate, Nat.lt_add_right_iff_pos,
                not_lt, Nat.le_zero_eq, List.length_eq_zero] at hlt
              exact hlt
            refine ⟨[], ?_, by simp, fun hr1 => absurd hr1 hr⟩
            simp only []
            rw [h1, hn]
            simp [List.replicate_succ']
      · rename_i h4 h5 h6
        refine ⟨normal ++ [e], ?_, ?_, h3⟩
        · simp only []
          rw [h1, List.append_assoc]
        · intro x hx
          rcases List.mem_append.mp hx with hx | hx
          · exact h2 x hx
          · simp only [List.mem_singleton] at hx
            rw [hx]
            exact ⟨h4, he, h5, h6⟩

theorem foldl_cleanStep_form (rooted : Bool) (l : List GoString) (s : List GoString × Nat)
    (hl : ∀ e ∈ l, Separator ∉ e) (h : CleanForm rooted s) :
    CleanForm rooted (l.foldl (cleanStep rooted) s) := by
  induction l generalizing s with
  | nil => exact h
  | cons e l ih =>
    rw [List.foldl_cons]
    exact ih _ (fun x hx => hl x (List.mem_cons_of_mem _ hx))
      (cleanStep_form rooted s e (hl e (by simp)) h)

/-- The loop of `filepath.Clean` on the elements of a form gives the form back. -/
theorem foldl_cleanStep_of_form (rooted : Bool) (out : List GoString) (k : Nat)
    (h : CleanForm rooted (out, k)) :
    out.foldl (cleanStep rooted) ([], 0) = (out, k) := by
  obtain ⟨normal, h1, h2, h3⟩ := h
  simp only [] at h1 h3
  rw [h1, List.foldl_append]
  cases rooted with
  | true =>
    have hk : k = 0 := h3 rfl
    subst hk
    simp only [List.replicate_zero, List.foldl_nil, List.nil_append]
    rw [foldl_cleanStep_names true normal _ h2]
    simp
  | false =>
    have := foldl_cleanStep_dotdots k 0
    simp only [List.replicate_zero, Nat.zero_add] at this
    rw [this, foldl_cleanStep_names false normal _ h2]

theorem CleanForm.elem {rooted : Bool} {out : List GoString} {k : Nat}
    (h : CleanForm rooted (out, k)) : ∀ e ∈ out, e ≠ [] ∧ Separator ∉ e ∧ e ≠ [dot] := by
  obtain ⟨normal, h1, h2, _⟩ := h
  simp only [] at h1
  intro e he
  rw [h1] at he
  rcases List.mem_append.mp he with he | he
  · rw [List.eq_of_mem_replicate he]
    decide
  · exact ⟨(h2 e he).1, (h2 e he).2.1, (h2 e he).2.2.1⟩

theorem CleanForm.nil_zero {rooted : Bool} {k : Nat} (h : CleanForm rooted ([], k)) : k = 0 := by
  obtain ⟨normal, h1, _, _⟩ := h
  simp only [] at h1
  cases k with
  | zero => rfl
  | succ k => simp [List.replicate_succ] at h1

theorem CleanForm.append {rooted : Bool} {out ns : List GoString} {k : Nat}
    (h : CleanForm rooted (out, k)) (hns : ∀ e ∈ ns, IsName e) :
    CleanForm rooted (out ++ ns, k) := by
  obtain ⟨normal, h1, h2, h3⟩ := h
  simp only [] at h1
  refine ⟨normal ++ ns, by simp only []; rw [h1, List.append_assoc], ?_, h3⟩
  intro e he
  rcases List.mem_append.mp he with he | he
  · exact h2 e he
  · exact hns e he

theorem joinSep_head (out : List GoString) (hne : out ≠ [])
    (h : ∀ e ∈ out, e ≠ [] ∧ Separator ∉ e) :
    joinSep out ≠ [] ∧ (joinSep out).head? ≠ some Separator := by
  cases out with
  | nil => exact absurd rfl hne
  | cons e rest =>
    obtain ⟨h1, h2⟩ := h e (by simp)
    cases e with
    | nil => exact absurd rfl h1
    | cons c cs =>
      have hc : c ≠ Separator := fun hc => h2 (by simp [hc])
      cases rest with
      | nil => rw [joinSep_single]; simp [hc]
      | cons f rest => rw [joinSep_cons_cons]; simp [hc]

/-- What `filepath.Clean` reads off a rendered form. -/
theorem render_form (rooted : Bool) (out : List GoString) (k : Nat)
    (h : CleanForm rooted (out, k)) :
    render rooted out ≠ [] ∧
    decide ((render rooted out).head? = some Separator) = rooted ∧
    (elements (render rooted out)).foldl (cleanStep rooted) ([], 0) = (out, k) := by
  have helem := h.elem
  have hsf : ∀ e ∈ out, Separator ∉ e := fun e he => (helem e he).2.1
  have hne : ∀ e ∈ out, e ≠ [] ∧ Separator ∉ e := fun e he => ⟨(helem e he).1, (helem e he).2.1⟩
  cases rooted with
  | true =>
    refine ⟨by simp [render], by simp [render], ?_⟩
    have hel : elements (render true out) = [] :: elements (joinSep out) := by
      simp [render, elements, joinSep]
    rw [hel, List.foldl_cons]
    have h0 : cleanStep true ([], 0) [] = ([], 0) := by simp [cleanStep]
    rw [h0]
    by_cases ho : out = []
    · subst ho
      have hk := h.nil_zero
      subst hk
      simp [joinSep_nil, elements, cleanStep]
    · rw [elements_joinSep out ho hsf]
      exact foldl_cleanStep_of_form true out k h
  | false =>
    by_cases ho : out = []
    · subst ho
      have hk := h.nil_zero
      subst hk
      refine ⟨by simp [render], by simp [render, dot, Separator], ?_⟩
      simp [render, elements, cleanStep, dot, Separator]
    · have hr : render false out = joinSep out := by simp [render, ho, joinSep]
      obtain ⟨h1, h2⟩ := joinSep_head out ho hne
      rw [hr]
      refine ⟨h1, by simpa using h2, ?_⟩
      rw [elements_joinSep out ho hsf]
      exact foldl_cleanStep_of_form false out k h

/-- A rendered form is clean. -/
theorem Clean_render (rooted : Bool) (out : List GoString) (k : Nat)
    (h : CleanForm rooted (out, k)) : Clean (render rooted out) = render rooted out := by
  obtain ⟨h1, h2, h3⟩ := render_form rooted out k h
  simp only [Clean, h1, if_false, h2, h3]

/-- A clean path is a rendered form. -/
theorem clean_is_form (s : GoString) (hs : Clean s = s) :
    ∃ rooted out k, CleanForm rooted (out, k) ∧ s = render rooted out := by
  have hne : s ≠ [] := by
    intro h
    rw [h] at hs
    simp [Clean] at hs
  simp only [Clean, hne, if_false] at hs
  refine ⟨decide (s.head? = some Separator),
    ((elements s).foldl (cleanStep (decide (s.head? = some Separator))) ([], 0)).1,
    ((elements s).foldl (cleanStep (decide (s.head? = some Separator))) ([], 0)).2, ?_, hs.symm⟩
  exact foldl_cleanStep_form _ _ _ (elements_no_sep s) ⟨[], by simp, by simp, fun _ => rfl⟩

/-- Names put below a form: the cleaned path and its spelling. -/
theorem Clean_below (rooted : Bool) (out ns : List GoString) (k : Nat)
    (h : CleanForm rooted (out, k)) (hne : ns ≠ []) (hns : ∀ e ∈ ns, IsName e) :
    Clean (render rooted out ++ Separator :: joinSep ns) = render rooted (out ++ ns) ∧
      render rooted (out ++ ns) = under (render rooted out) (joinSep ns) := by
  obtain ⟨h1, h2, h3⟩ := render_form rooted out k h
  have hnsf : ∀ e ∈ ns, Separator ∉ e := fun e he => (hns e he).2.1
  constructor
  · have hp : render rooted out ++ Separator :: joinSep ns ≠ [] := by simp
    have hh : (render rooted out ++ Separator :: joinSep ns).head? = (render rooted out).head? := by
      cases hr : render rooted out with
      | nil => exact absurd hr h1
      | cons c cs => simp
    simp only [Clean, hp, if_false, hh, h2, elements_append_sep, List.foldl_append, h3,
      elements_joinSep ns hne hnsf]
    rw [foldl_cleanStep_names rooted ns _ hns]
  · have helem := h.elem
    have hne2 : ∀ e ∈ out, e ≠ [] ∧ Separator ∉ e :=
      fun e he => ⟨(helem e he).1, (helem e he).2.1⟩
    have hsf : ∀ e ∈ out, Separator ∉ e := fun e he => (helem e he).2.1
    cases rooted with
    | true =>
      by_cases ho : out = []
      · subst ho
        have e1 : render true [] = [Separator] := rfl
        have n1 : [Separator] ≠ [dot] := by decide
        rw [e1, under, if_neg n1, if_pos rfl]
        rfl
      · obtain ⟨hj, _⟩ := joinSep_head out ho hne2
        have e1 : render true out = Separator :: joinSep out := by simp [render, joinSep]
        have e2 : render true (out ++ ns) = Separator :: joinSep (out ++ ns) := by
          simp [render, joinSep]
        have n1 : Separator :: joinSep out ≠ [dot] := by simp [dot, Separator]
        have n2 : Separator :: joinSep out ≠ [Separator] := by simpa using hj
        rw [e1, e2, under, if_neg n1, if_neg n2, joinSep_append out ns ho hne]
        simp
    | false =>
      by_cases ho : out = []
      · subst ho
        simp [render, under, joinSep, hne]
      · have e1 : render false out = joinSep out := by simp [render, ho, joinSep]
        have e2 : render false (out ++ ns) = joinSep (out ++ ns) := by
          simp [render, ho, joinSep]
        have hel := elements_joinSep out ho hsf
        have n1 : joinSep out ≠ [dot] := by
          intro hc
          rw [hc] at hel
          have : [dot] ∈ out := by rw [← hel]; simp [elements, dot, Separator]
          exact (helem _ this).2.2 rfl
        have n2 : joinSep out ≠ [Separator] := by
          intro hc
          rw [hc] at hel
          have : ([] : GoString) ∈ out := by rw [← hel]; simp [elements]
          exact (helem _ this).1 rfl
        rw [e1, e2, under, if_neg n1, if_neg n2, joinSep_append out ns ho hne]

/-! ## `filepath.Rel` on a path below its base -/

theorem relLoop_nil (fuel : Nat) (t : GoString) : relLoop fuel [] t = ([], t) := by
  cases fuel <;> simp [relLoop]

theorem takeWhile_sepfree (e x : GoString) (h : Separator ∉ e) :
    (e ++ Separator :: x).takeWhile (fun c => !decide (c = Separator)) = e := by
  induction e with
  | nil => simp
  | cons c cs ih =>
    have hc : c ≠ Separator := fun h1 => h (by simp [h1])
    have hcs : Separator ∉ cs := fun h1 => h (List.mem_cons_of_mem _ h1)
    simp [List.takeWhile_cons, hc, ih hcs]

theorem takeWhile_sepfree_all (e : GoString) (h : Separator ∉ e) :
    e.takeWhile (fun c => !decide (c = Separator)) = e := by
  induction e with
  | nil => simp
  | cons c cs ih =>
    have hc : c ≠ Separator := fun h1 => h (by simp [h1])
    have hcs : Separator ∉ cs := fun h1 => h (List.mem_cons_of_mem _ h1)
    simp [List.takeWhile_cons, hc, ih hcs]

theorem drop_past (e x : GoString) : (e ++ Separator :: x).drop (e.length + 1) = x := by
  induction e with
  | nil => simp
  | cons c cs ih => simp

theorem joinSep_cons (e : GoString) (l : List GoString) :
    joinSep (e :: l) = if l = [] then e else e ++ Separator :: joinSep l := by
  cases l with
  | nil => simp [joinSep_single]
  | cons f rest => simp [joinSep_cons_cons]

theorem takeWhile_joinSep_cons (e : GoString) (l : List GoString) (he : Separator ∉ e) :
    (joinSep (e :: l)).takeWhile (fun c => !decide (c = Separator)) = e := by
  rw [joinSep_cons]
  split
  · exact takeWhile_sepfree_all e he
  · exact takeWhile_sepfree e _ he

theorem drop_joinSep_cons (e : GoString) (l : List GoString) :
    (joinSep (e :: l)).drop (e.length + 1) = joinSep l := by
  rw [joinSep_cons]
  split
  · rename_i h
    subst h
    simp [joinSep_nil]
  · exact drop_past e _

theorem joinSep_cons_ne_nil (e : GoString) (l : List GoString) (he : e ≠ []) :
    joinSep (e :: l) ≠ [] := by
  rw [joinSep_cons]
  split
  · exact he
  · simp

theorem length_joinSep_cons (e : GoString) (l : List GoString) (he : e ≠ []) :
    (joinSep l).length + 1 ≤ (joinSep (e :: l)).length := by
  have h1 : 1 ≤ e.length := List.length_pos.mpr he
  rw [joinSep_cons]
  split
  · rename_i h
    subst h
    simpa [joinSep_nil] using h1
  · simp only [List.length_append, List.length_cons]
    omega

/-- The loop of `filepath.Rel` takes the common elements `c` off a base and a
target that go on with different elements. -/
theorem relLoop_common (c B T : List GoString) (hc : ∀ e ∈ c, e ≠ [] ∧ Separator ∉ e)
    (hB : ∀ e ∈ B, Separator ∉ e) (hT : ∀ e ∈ T, Separator ∉ e)
    (hhead : B.head? ≠ T.head?) (fuel : Nat) (hf : (joinSep (c ++ B)).length ≤ fuel) :
    relLoop fuel (joinSep (c ++ B)) (joinSep (c ++ T)) = (joinSep B, joinSep T) := by
  induction c generalizing fuel with
  | nil =>
    simp only [List.nil_append]
    cases fuel with
    | zero => rfl
    | succ fuel =>
      simp only [relLoop]
      split
      · rfl
      · rename_i hne
        split
        · rfl
        · rename_i heq
          exfalso
          cases B with
          | nil => exact hne (Or.inl rfl)
          | cons e B =>
            cases T with
            | nil => exact hne (Or.inr rfl)
            | cons f T =>
              rw [takeWhile_joinSep_cons e B (hB e (by simp)),
                takeWhile_joinSep_cons f T (hT f (by simp))] at heq
              simp only [ne_eq, not_not] at heq
              exact hhead (by simp [heq])
  | cons e c ih =>
    obtain ⟨he1, he2⟩ := hc e (by simp)
    simp only [List.cons_append] at hf ⊢
    have hlen := length_joinSep_cons e (c ++ B) he1
    cases fuel with
    | zero => omega
    | succ fuel =>
      simp only [relLoop, joinSep_cons_ne_nil e _ he1, or_self, if_false,
        takeWhile_joinSep_cons e _ he2, ne_eq, not_true_eq_false, drop_joinSep_cons]
      exact ih (fun x hx => hc x (List.mem_cons_of_mem _ hx)) fuel (by omega)

theorem count_joinSep_cons (e : GoString) (l : List GoString)
    (h : ∀ x ∈ e :: l, Separator ∉ x) : (joinSep (e :: l)).count Separator = l.length := by
  induction l generalizing e with
  | nil =>
    rw [joinSep_single]
    exact List.count_eq_zero.mpr (h e (by simp))
  | cons f l ih =>
    rw [joinSep_cons_cons, List.count_append, List.count_cons_self,
      ih f (fun x hx => h x (List.mem_cons_of_mem _ hx)),
      List.count_eq_zero.mpr (h e (by simp))]
    simp

/-- The result `filepath.Rel` builds when `n + 1` elements of the base are left
over: that many `..`, then what is left of the target. -/
theorem joinSep_dotdots (n : Nat) (T : List GoString) (hT : T ≠ []) :
    [dot, dot] ++ (List.replicate n [Separator, dot, dot]).flatten ++ Separator :: joinSep T
      = joinSep (List.replicate (n + 1) [dot, dot] ++ T) := by
  induction n with
  | zero =>
    cases T with
    | nil => exact absurd rfl hT
    | cons f T => simp [joinSep_cons_cons]
  | succ n ih =>
    have hne : List.replicate (n + 1) [dot, dot] ++ T ≠ [] := by simp [List.replicate_succ]
    have h1 : List.replicate (n + 1 + 1) [dot, dot] ++ T
        = [dot, dot] :: (List.replicate (n + 1) [dot, dot] ++ T) := by
      rw [List.replicate_succ, List.cons_append]
    have h2 : (List.replicate (n + 1) [Separator, dot, dot]).flatten
        = [Separator, dot, dot] ++ (List.replicate n [Separator, dot, dot]).flatten := by
      rw [List.replicate_succ, List.flatten_cons]
    rw [h1, joinSep_cons, if_neg hne, ← ih, h2]
    simp

/-- From a clean base to a clean target that has the elements `c` in common
with it and then goes on differently, the base not with `..`:
`filepath.Rel` gives one `..` for every element left of the base, followed by
what is left of the target. -/
theorem Rel_forms (rooted : Bool) (c B T : List GoString) (kb kt : Nat)
    (hb : CleanForm rooted (c ++ B, kb)) (ht : CleanForm rooted (c ++ T, kt)) (hT : T ≠ [])
    (hhead : B.head? ≠ T.head?) (hup : B.head? ≠ some [dot, dot]) :
    Rel (render rooted (c ++ B)) (render rooted (c ++ T))
      = some (joinSep (List.replicate B.length [dot, dot] ++ T)) := by
  have hcb := Clean_render rooted (c ++ B) kb hb
  have hct := Clean_render rooted (c ++ T) kt ht
  have heb := hb.elem
  have het := ht.elem
  have hc : ∀ e ∈ c, e ≠ [] ∧ Separator ∉ e :=
    fun e he => ⟨(heb e (by simp [he])).1, (heb e (by simp [he])).2.1⟩
  have hB : ∀ e ∈ B, Separator ∉ e := fun e he => (heb e (by simp [he])).2.1
  have hTs : ∀ e ∈ T, Separator ∉ e := fun e he => (het e (by simp [he])).2.1
  have hTne : ∀ e ∈ T, e ≠ [] ∧ Separator ∉ e :=
    fun e he => ⟨(het e (by simp [he])).1, (het e (by simp [he])).2.1⟩
  have hcT : c ++ T ≠ [] := by simp [hT]
  have hne : render rooted (c ++ T) ≠ render rooted (c ++ B) := by
    intro heq
    have h1 := (render_form rooted (c ++ T) kt ht).2.2
    have h2 := (render_form rooted (c ++ B) kb hb).2.2
    rw [heq, h2] at h1
    have h3 : c ++ B = c ++ T := congrArg Prod.fst h1
    exact hhead (by rw [List.append_cancel_left h3])
  have hjT : joinSep T ≠ [] := (joinSep_head T hT hTne).1
  -- what the loop leaves, and the result built from it
  have hfin : ∀ fuel, (joinSep (c ++ B)).length ≤ fuel →
      (match relLoop fuel (joinSep (c ++ B)) (joinSep (c ++ T)) with
        | (b, t) =>
          if b.takeWhile (fun c => !decide (c = Separator)) = [dot, dot] then none
          else if b ≠ [] then
            some ([dot, dot] ++
              (List.replicate (b.count Separator) [Separator, dot, dot]).flatten
              ++ (if t ≠ [] then Separator :: t else []))
          else some t)
        = some (joinSep (List.replicate B.length [dot, dot] ++ T)) := by
    intro fuel hf
    rw [relLoop_common c B T hc hB hTs hhead fuel hf]
    simp only []
    cases B with
    | nil => simp [joinSep_nil, dot]
    | cons e B =>
      have h1 : (joinSep (e :: B)).takeWhile (fun c => !decide (c = Separator)) ≠ [dot, dot] := by
        rw [takeWhile_joinSep_cons e B (hB e (by simp))]
        intro h
        exact hup (by simp [h])
      have h2 : joinSep (e :: B) ≠ [] :=
        joinSep_cons_ne_nil e B (heb e (by simp)).1
      rw [if_neg h1, if_pos h2, if_pos hjT, count_joinSep_cons e B hB, List.length_cons,
        ← joinSep_dotdots B.length T hT]
  unfold Rel
  simp only [hcb, hct, hne, if_false]
  cases rooted with
  | true =>
    have e1 : ∀ l, render true l = Separator :: joinSep l := fun l => rfl
    have n1 : ∀ l : GoString, Separator :: l ≠ [dot] := by
      intro l h
      have := (List.cons.inj h).1
      exact absurd this (by decide)
    rw [e1, e1]
    simp only [n1, if_false, List.head?_cons, decide_True, ne_eq, not_true_eq_false,
      List.length_cons]
    have hl : relLoop ((joinSep (c ++ B)).length + 1) (Separator :: joinSep (c ++ B))
        (Separator :: joinSep (c ++ T))
        = relLoop (joinSep (c ++ B)).length (joinSep (c ++ B)) (joinSep (c ++ T)) := by
      simp only [relLoop, List.cons_ne_nil, or_self, if_false, List.takeWhile_cons,
        decide_True, Bool.not_true, Bool.false_eq_true, ne_eq, not_true_eq_false,
        List.length_nil, Nat.zero_add, List.drop_succ_cons, List.drop_zero]
    rw [hl]
    exact hfin _ (Nat.le_refl _)
  | false =>
    have hdot : ∀ l : List GoString, l ≠ [] → (∀ e ∈ l, e ≠ [] ∧ Separator ∉ e ∧ e ≠ [dot]) →
        joinSep l ≠ [dot] := by
      intro l hl0 hl hc1
      have hel := elements_joinSep l hl0 fun e he => (hl e he).2.1
      rw [hc1] at hel
      have : [dot] ∈ l := by rw [← hel]; simp [elements, dot, Separator]
      exact (hl _ this).2.2 rfl
    have e2 : render false (c ++ T) = joinSep (c ++ T) := by simp [render, hcT, joinSep]
    have n2 : joinSep (c ++ T) ≠ [dot] := hdot _ hcT het
    have e1 : (if render false (c ++ B) = [dot] then [] else render false (c ++ B))
        = joinSep (c ++ B) := by
      by_cases h0 : c ++ B = []
      · rw [h0]
        rfl
      · have : render false (c ++ B) = joinSep (c ++ B) := by simp [render, h0, joinSep]
        rw [this, if_neg (hdot _ h0 heb)]
    have s1 : decide ((joinSep (c ++ B)).head? = some Separator) = false := by
      by_cases h0 : c ++ B = []
      · rw [h0]
        rfl
      · simpa using (joinSep_head _ h0 fun e he => ⟨(heb e he).1, (heb e he).2.1⟩).2
    have s2 : decide ((joinSep (c ++ T)).head? = some Separator) = false := by
      simpa using (joinSep_head _ hcT fun e he => ⟨(het e he).1, (het e he).2.1⟩).2
    rw [e1, e2]
    simp only [n2, if_false, s1, s2, ne_eq, not_true_eq_false]
    exact hfin _ (Nat.le_refl _)

/-- From a clean base to a path that goes down from it through names,
`filepath.Rel` gives the names. -/
theorem Rel_below (rooted : Bool) (out ns : List GoString) (k : Nat)
    (h : CleanForm rooted (out, k)) (hne : ns ≠ []) (hns : ∀ e ∈ ns, IsName e) :
    Rel (render rooted out) (render rooted (out ++ ns)) = some (joinSep ns) := by
  have := Rel_forms rooted out [] ns k k (by simpa using h) (h.append hns) hne
    (by cases ns with
        | nil => exact absurd rfl hne
        | cons e ns => simp)
    (by simp)
  simpa using this

/-! ## The destination below an output root -/

theorem relPath_split (dirs : List GoString) (name : GoString) :
    relPath dirs name = (if dirs = [] then [] else joinSep dirs ++ [Separator]) ++ name := by
  by_cases hd : dirs = []
  · subst hd
    simp [relPath, joinSep_single]
  · simp only [relPath, hd, if_false]
    rw [joinSep_append dirs [name] hd (by simp), joinSep_single]
    simp

theorem split_at_last (p name : GoString) (hp : p = [] ∨ ∃ q, p = q ++ [Separator])
    (hn : Separator ∉ name) :
    dirPart (p ++ name) = p ∧ lastElement (p ++ name) = name := by
  have hr : Separator ∉ name.reverse := by simpa using hn
  rcases hp with rfl | ⟨q, rfl⟩
  · have h1 := takeWhile_sepfree_all name.reverse hr
    have h2 := List.takeWhile_append_dropWhile (fun c => !decide (c = Separator)) name.reverse
    rw [h1] at h2
    have h3 : name.reverse.dropWhile (fun c => !decide (c = Separator)) = [] := by
      simpa using h2
    simp only [dirPart, lastElement, List.nil_append, h1, h3, List.reverse_reverse,
      List.reverse_nil, and_self]
  · have hrev : (q ++ [Separator] ++ name).reverse =
        name.reverse ++ Separator :: q.reverse := by simp
    have h1 := takeWhile_sepfree name.reverse q.reverse hr
    have h2 := List.takeWhile_append_dropWhile (fun c => !decide (c = Separator))
      (name.reverse ++ Separator :: q.reverse)
    rw [h1] at h2
    have h3 := List.append_cancel_left h2
    simp only [dirPart, lastElement, hrev, h1, h3]
    simp

theorem mem_withoutExt (name : GoString) (x : Nat) (h : x ∈ withoutExt name) : x ∈ name := by
  unfold withoutExt at h
  split at h
  · have h1 := List.mem_reverse.mp h
    have h2 := List.mem_of_mem_tail h1
    have h3 := List.dropWhile_subset _ h2
    exact List.mem_reverse.mp h3
  · exact h

theorem isName_webp (name : GoString) (hn : Separator ∉ name) :
    IsName (withoutExt name ++ extWEBP) := by
  have hw : extWEBP = [46, 119, 101, 98, 112] := by decide
  refine ⟨by simp [hw], ?_, ?_, ?_⟩
  · intro h
    rcases List.mem_append.mp h with h | h
    · exact hn (mem_withoutExt name _ h)
    · rw [hw] at h
      simp [Separator] at h
  · intro h
    have := congrArg List.length h
    simp [hw] at this
  · intro h
    have := congrArg List.length h
    simp [hw] at this

/-- The relative path with the extension of its file name replaced. -/
theorem replace_ext_relPath (dirs : List GoString) (name : GoString) (hname : IsName name) :
    TrimSuffix (relPath dirs name) (Ext (relPath dirs name)) ++ extWEBP =
      relPath dirs (withoutExt name ++ extWEBP) := by
  have h := getOutputPath_empty (relPath dirs name) []
  simp only [getOutputPath, if_true] at h
  rw [h, relPath_split dirs name, relPath_split dirs (withoutExt name ++ extWEBP)]
  have hp : (if dirs = [] then [] else joinSep dirs ++ [Separator]) = [] ∨
      ∃ q, (if dirs = [] then [] else joinSep dirs ++ [Separator]) = q ++ [Separator] := by
    by_cases hd : dirs = []
    · left; simp [hd]
    · right; exact ⟨joinSep dirs, by simp [hd]⟩
  obtain ⟨h1, h2⟩ := split_at_last _ name hp hname.2.1
  rw [h1, h2, List.append_assoc]

/-- The destination of a file below a clean source root, for a clean output
root. -/
theorem getOutputPath_below (s o : GoString) (dirs : List GoString) (name : GoString)
    (hs : Clean s = s) (ho : Clean o = o) (hdirs : ∀ d ∈ dirs, IsName d)
    (hname : IsName name) :
    Join [s, relPath dirs name] = under s (relPath dirs name) ∧
    getOutputPath (under s (relPath dirs name)) s o =
      under o (relPath dirs (withoutExt name ++ extWEBP)) ∧
    Join [o, relPath dirs (withoutExt name ++ extWEBP)] =
      under o (relPath dirs (withoutExt name ++ extWEBP)) := by
  obtain ⟨rs, outs, ks, hfs, hss⟩ := clean_is_form s hs
  obtain ⟨ro, outo, ko, hfo, hoo⟩ := clean_is_form o ho
  have hsne : s ≠ [] := by
    intro h
    rw [h] at hs
    simp [Clean] at hs
  have hone : o ≠ [] := by
    intro h
    rw [h] at ho
    simp [Clean] at ho
  have hns : ∀ e ∈ dirs ++ [name], IsName e := by
    intro e he
    rcases List.mem_append.mp he with he | he
    · exact hdirs e he
    · simp only [List.mem_singleton] at he
      rw [he]; exact hname
  have hns2 : ∀ e ∈ dirs ++ [withoutExt name ++ extWEBP], IsName e := by
    intro e he
    rcases List.mem_append.mp he with he | he
    · exact hdirs e he
    · simp only [List.mem_singleton] at he
      rw [he]; exact isName_webp name hname.2.1
  obtain ⟨c1, c2⟩ := Clean_below rs outs (dirs ++ [name]) ks hfs (by simp) hns
  obtain ⟨c3, c4⟩ := Clean_below ro outo (dirs ++ [withoutExt name ++ extWEBP]) ko hfo
    (by simp) hns2
  have hjoin : ∀ a b : GoString, a ≠ [] → Join [a, b] = Clean (a ++ Separator :: b) := by
    intro a b ha
    simp [Join, ha, joinSep_cons_cons, joinSep_single]
  have j3 : Join [o, relPath dirs (withoutExt name ++ extWEBP)] =
      under o (relPath dirs (withoutExt name ++ extWEBP)) := by
    rw [hjoin _ _ hone, hoo]
    exact c3.trans c4
  refine ⟨?_, ?_, j3⟩
  · rw [hjoin _ _ hsne, hss]
    exact c1.trans c2
  · have hrel : Rel s (under s (relPath dirs name)) = some (relPath dirs name) := by
      have := Rel_below rs outs (dirs ++ [name]) ks hfs (by simp) hns
      rw [c2, ← hss] at this
      exact this
    simp only [getOutputPath, hone, if_false, hrel, Option.getD_some,
      replace_ext_relPath dirs name hname]
    exact j3

/-! ## A relative path that first goes up -/

theorem foldl_cleanStep_pop (rooted : Bool) (out ups : List GoString) (k : Nat)
    (hk : k ≤ out.length) :
    (List.replicate ups.length [dot, dot]).foldl (cleanStep rooted) (out ++ ups, k)
      = (out, k) := by
  induction ups using List.reverseRecOn with
  | nil => simp
  | append_singleton l a ih =>
    have hstep : cleanStep rooted (out ++ (l ++ [a]), k) [dot, dot] = (out ++ l, k) := by
      have hlt : k < (out ++ (l ++ [a])).length := by
        simp only [List.length_append, List.length_singleton]
        omega
      have hd : (out ++ (l ++ [a])).dropLast = out ++ l := by
        rw [← List.append_assoc, List.dropLast_concat]
      simp only [cleanStep, hlt, if_true, hd]
      simp [dot]
    rw [List.length_append, List.length_singleton, List.replicate_succ, List.foldl_cons, hstep, ih]

theorem CleanForm.le_length {rooted : Bool} {out : List GoString} {k : Nat}
    (h : CleanForm rooted (out, k)) : k ≤ out.length := by
  obtain ⟨normal, h1, _, _⟩ := h
  simp only [] at h1
  rw [h1]
  simp

/-- Below a form that ends with the names `ups`, a relative path that goes up
through all of them and then down through `ns`. -/
theorem Clean_across (rooted : Bool) (out ups ns : List GoString) (k : Nat)
    (h : CleanForm rooted (out, k)) (hups : ∀ e ∈ ups, IsName e) (hne : ns ≠ [])
    (hns : ∀ e ∈ ns, IsName e) :
    Clean (render rooted (out ++ ups) ++
        Separator :: joinSep (List.replicate ups.length [dot, dot] ++ ns))
      = render rooted (out ++ ns) := by
  obtain ⟨h1, h2, h3⟩ := render_form rooted (out ++ ups) k (h.append hups)
  have hr : List.replicate ups.length [dot, dot] ++ ns ≠ [] := by simp [hne]
  have hsf : ∀ e ∈ List.replicate ups.length [dot, dot] ++ ns, Separator ∉ e := by
    intro e he
    rcases List.mem_append.mp he with he | he
    · rw [(List.mem_replicate.mp he).2]
      decide
    · exact (hns e he).2.1
  have hp : render rooted (out ++ ups) ++
      Separator :: joinSep (List.replicate ups.length [dot, dot] ++ ns) ≠ [] := by simp
  have hh : (render rooted (out ++ ups) ++
      Separator :: joinSep (List.replicate ups.length [dot, dot] ++ ns)).head?
        = (render rooted (out ++ ups)).head? := by
    cases hr : render rooted (out ++ ups) with
    | nil => exact absurd hr h1
    | cons c cs => simp
  simp only [Clean, hp, if_false, hh, h2, elements_append_sep, List.foldl_append, h3,
    elements_joinSep _ hr hsf, foldl_cleanStep_pop rooted out ups k h.le_length]
  rw [foldl_cleanStep_names rooted ns _ hns]

theorem render_below (rooted : Bool) (out ups : List GoString) (k : Nat)
    (h : CleanForm rooted (out, k)) (hups : ∀ e ∈ ups, IsName e) :
    render rooted (out ++ ups) = below (render rooted out) ups := by
  by_cases hu : ups = []
  · simp [below, hu]
  · rw [below, if_neg hu]
    exact (Clean_below rooted out ups k h hu hups).2

theorem Rel_clean_target (b t t1 : GoString) (h1 : Clean t = t1) (h2 : Clean t1 = t1) :
    Rel b t = Rel b t1 := by
  unfold Rel
  simp only [h1, h2]

/-- The file reached from a clean source root by a relative path that goes up
through the last directories `ups` of the root and then down through `dirs`,
not back into the first directory it left: `filepath.Rel` gives that relative
path. -/
theorem Rel_across (s : GoString) (ups dirs : List GoString) (name : GoString)
    (hs : Clean s = s) (hups : ∀ d ∈ ups, IsName d)
    (hdirs : ∀ d ∈ dirs, IsName d) (hname : IsName name)
    (hleave : ups.head? ≠ (dirs ++ [name]).head?) :
    Clean (below s ups) = below s ups ∧
    Clean (relPath (List.replicate ups.length [dot, dot] ++ dirs) name)
      = relPath (List.replicate ups.length [dot, dot] ++ dirs) name ∧
    Join [below s ups, relPath (List.replicate ups.length [dot, dot] ++ dirs) name]
      = under s (relPath dirs name) ∧
    Rel (below s ups) (under s (relPath dirs name))
      = some (relPath (List.replicate ups.length [dot, dot] ++ dirs) name) ∧
    Rel (below s ups)
        (below s ups ++ Separator :: relPath (List.replicate ups.length [dot, dot] ++ dirs) name)
      = some (relPath (List.replicate ups.length [dot, dot] ++ dirs) name) := by
  obtain ⟨rs, outs, ks, hfs, hss⟩ := clean_is_form s hs
  have hns : ∀ e ∈ dirs ++ [name], IsName e := by
    intro e he
    rcases List.mem_append.mp he with he | he
    · exact hdirs e he
    · simp only [List.mem_singleton] at he
      rw [he]; exact hname
  have hS : below s ups = render rs (outs ++ ups) := by
    rw [hss, render_below rs outs ups ks hfs hups]
  have hSc : Clean (below s ups) = below s ups := by
    rw [hS]
    exact Clean_render rs _ ks (hfs.append hups)
  have hSne : below s ups ≠ [] := by
    intro h
    rw [h] at hSc
    simp [Clean] at hSc
  have hr : relPath (List.replicate ups.length [dot, dot] ++ dirs) name
      = joinSep (List.replicate ups.length [dot, dot] ++ (dirs ++ [name])) := by
    simp [relPath]
  have hc := Clean_across rs outs ups (dirs ++ [name]) ks hfs hups (by simp) hns
  obtain ⟨_, c2⟩ := Clean_below rs outs (dirs ++ [name]) ks hfs (by simp) hns
  have hT : render rs (outs ++ (dirs ++ [name])) = under s (relPath dirs name) := by
    rw [c2, ← hss]
    rfl
  have hrel := Rel_forms rs outs ups (dirs ++ [name]) ks ks (hfs.append hups) (hfs.append hns)
    (by simp) hleave
    (by cases ups with
        | nil => simp
        | cons e ups =>
          intro h
          simp only [List.head?_cons, Option.some.injEq] at h
          exact (hups e (by simp)).2.2.2 h)
  rw [← hS, hT, ← hr] at hrel
  rw [← hS, ← hr, hT] at hc
  have hform : CleanForm false
      (List.replicate ups.length [dot, dot] ++ (dirs ++ [name]), ups.length) :=
    ⟨dirs ++ [name], rfl, hns, fun h => by cases h⟩
  have hrc : Clean (relPath (List.replicate ups.length [dot, dot] ++ dirs) name)
      = relPath (List.replicate ups.length [dot, dot] ++ dirs) name := by
    have h1 := Clean_render false _ _ hform
    have h2 : render false (List.replicate ups.length [dot, dot] ++ (dirs ++ [name]))
        = joinSep (List.replicate ups.length [dot, dot] ++ (dirs ++ [name])) := by
      simp [render, joinSep]
    rw [h2, ← hr] at h1
    exact h1
  have hTc : Clean (under s (relPath dirs name)) = under s (relPath dirs name) := by
    rw [← hT]
    exact Clean_render rs _ ks (hfs.append hns)
  refine ⟨hSc, hrc, ?_, hrel, ?_⟩
  · have : Join [below s ups, relPath (List.replicate ups.length [dot, dot] ++ dirs) name]
        = Clean (below s ups ++
            Separator :: relPath (List.replicate ups.length [dot, dot] ++ dirs) name) := by
      simp [Join, hSne, joinSep_cons_cons, joinSep_single]
    rw [this, hc]
  · rw [Rel_clean_target _ _ _ hc hTc, hrel]

/-- The destination of a clean source root itself, the relative path `.`. -/
theorem getOutputPath_root (s o : GoString) (hs : Clean s = s) (ho : Clean o = o) :
    Join [s, [dot]] = s ∧
    getOutputPath s s o = under o (withoutExt [dot] ++ extWEBP) := by
  obtain ⟨rs, outs, ks, hfs, hss⟩ := clean_is_form s hs
  obtain ⟨ro, outo, ko, hfo, hoo⟩ := clean_is_form o ho
  have hsne : s ≠ [] := by
    intro h
    rw [h] at hs
    simp [Clean] at hs
  have hone : o ≠ [] := by
    intro h
    rw [h] at ho
    simp [Clean] at ho
  constructor
  · obtain ⟨h1, h2, h3⟩ := render_form rs outs ks hfs
    rw [← hss] at h1 h2 h3
    have hh : (s ++ Separator :: [dot]).head? = s.head? := by
      cases hr : s with
      | nil => exact absurd hr hsne
      | cons c cs => simp
    have hp : s ++ Separator :: [dot] ≠ [] := by simp
    have hdot : cleanStep rs (outs, ks) [dot] = (outs, ks) := by simp [cleanStep, dot]
    have hel : elements [dot] = [[dot]] := by decide
    simp only [Join, hsne, if_false, joinSep_cons_cons, joinSep_single, Clean, hp, hh, h2,
      elements_append_sep, List.foldl_append, h3, hel, List.foldl_cons, List.foldl_nil, hdot]
    exact hss.symm
  · have hw : withoutExt [dot] ++ extWEBP = extWEBP := by decide
    have hname : ∀ e ∈ [extWEBP], IsName e := by
      intro e he
      simp only [List.mem_singleton] at he
      rw [he]
      decide
    obtain ⟨c3, c4⟩ := Clean_below ro outo [extWEBP] ko hfo (by simp) hname
    rw [joinSep_single, ← hoo] at c3 c4
    have hrel : Rel s s = some [dot] := by simp [Rel]
    have hext : TrimSuffix [dot] (Ext [dot]) ++ extWEBP = extWEBP := by decide
    simp only [getOutputPath, hone, if_false, hrel, Option.getD_some, hext, hw, Join,
      joinSep_cons_cons, joinSep_single]
    exact c3.trans c4

/-! ## Removed sources -/

/-- Every outcome of a walk from the initial state is the outcome of a regular
file the walk came to. -/
theorem Walk_outcomes_visited (env : Env) (fl : Flags) (walk : List WalkArg) (fs : FS)
    (st1 : State) (e : Option GoString)
    (hw : Walk env fl (initState fs) walk = some (st1, e)) :
    ∀ p ∈ outcomePaths st1, ∃ a ∈ walk, a.path = p ∧ a.info.isDir = false :=
  Walk_invariant env fl
    (fun s => ∀ p ∈ outcomePaths s, ∃ a ∈ walk, a.path = p ∧ a.info.isDir = false) walk
    (fun s a s1 ha hd _ h0 h p hp => by
      obtain ⟨r, hr, h1⟩ := h.addsOne
      have hp1 : p ∈ outcomePaths s ∨ p = a.path := by
        simp only [outcomePaths, List.map_append, List.mem_append, List.mem_map] at hp ⊢
        rcases h1 with ⟨e1, e2, e3⟩ | ⟨e1, e2, e3⟩ | ⟨e1, e2, e3⟩ <;>
          rw [e1, e2, e3] at hp <;>
          simp only [List.mem_append, List.mem_singleton] at hp
        · rcases hp with (⟨x, (hx | hx), hxp⟩ | hp) | hp
          · exact Or.inl (Or.inl (Or.inl ⟨x, hx, hxp⟩))
          · exact Or.inr (by rw [← hxp, hx, hr])
          · exact Or.inl (Or.inl (Or.inr hp))
          · exact Or.inl (Or.inr hp)
        · rcases hp with (hp | ⟨x, (hx | hx), hxp⟩) | hp
          · exact Or.inl (Or.inl (Or.inl hp))
          · exact Or.inl (Or.inl (Or.inr ⟨x, hx, hxp⟩))
          · exact Or.inr (by rw [← hxp, hx, hr])
          · exact Or.inl (Or.inr hp)
        · rcases hp with (hp | hp) | ⟨x, (hx | hx), hxp⟩
          · exact Or.inl (Or.inl (Or.inl hp))
          · exact Or.inl (Or.inl (Or.inr hp))
          · exact Or.inl (Or.inr ⟨x, hx, hxp⟩)
          · exact Or.inr (by rw [← hxp, hx, hr])
      rcases hp1 with hp1 | hp1
      · exact h0 p hp1
      · exact ⟨a, ha, hp1.symm, hd⟩)
    (initState fs) st1 e (fun p hp => by simp [outcomePaths, initState] at hp) hw

theorem not_mem_afterRemove (env : Env) (fl : Flags) (w : World) (path : GoString)
    (hkeep : fl.keepOriginal = false) (hrm : ∀ fs p, env.osRemove fs p = true)
    (x : GoString × FileInfo) (hx : x ∈ (afterRemove env fl w path).fs) : x.1 ≠ path := by
  simp only [afterRemove, hkeep, hrm, Bool.not_false, if_true, removeFile,
    List.mem_filter, Bool.not_eq_true', decide_eq_false_iff_not] at hx
  exact hx.2

/-- When the original is not kept and `os.Remove` succeeds, no regular file is
left at the path of a success. -/
theorem Handled.removed {env : Env} {fl : Flags} {st st1 : State} {path : GoString}
    {info : FileInfo} (h : Handled env fl st path info st1) (hout : fl.outputDir = [])
    (hkeep : fl.keepOriginal = false) (hrm : ∀ fs p, env.osRemove fs p = true)
    (h0 : ∀ r ∈ st.successList, supportedFile env r.path = true ∧
      ∀ x ∈ st.world.fs, x.1 = r.path → x.2.isDir = true)
    (hs : supportedFile env path = true) :
    ∀ r ∈ st1.successList, supportedFile env r.path = true ∧
      ∀ x ∈ st1.world.fs, x.1 = r.path → x.2.isDir = true := by
  have hm := fun x => (h.mem x).1
  have hold : ∀ r ∈ st.successList, supportedFile env r.path = true ∧
      ∀ x ∈ st1.world.fs, x.1 = r.path → x.2.isDir = true := by
    intro r hr
    refine ⟨(h0 r hr).1, fun x hx hxr => ?_⟩
    rcases hm x hx with h1 | h1 | h1
    · exact (h0 r hr).2 x h1 hxr
    · exact h1
    · have := (h0 r hr).1
      rw [← hxr, h1, hout, destination_unsupported] at this
      cases this
  cases h with
  | skipped i hstat => exact hold
  | mkdirFailed e made hstat hmk => exact hold
  | convertFailed e made w1 hstat hmk hconv => exact hold
  | converted made w1 newInfo hstat hmk hconv hnew =>
    intro r hr
    simp only [List.mem_append, List.mem_singleton] at hr
    rcases hr with hr | hr
    · exact hold r hr
    · subst hr
      refine ⟨hs, fun x hx hxr => ?_⟩
      exact absurd hxr (not_mem_afterRemove env fl _ path hkeep hrm x hx)

theorem Walk_removed (env : Env) (fl : Flags) (hout : fl.outputDir = [])
    (hkeep : fl.keepOriginal = false) (hrm : ∀ fs p, env.osRemove fs p = true)
    (walk : List WalkArg) (fs : FS) (st1 : State) (e : Option GoString)
    (hw : Walk env fl (initState fs) walk = some (st1, e)) :
    ∀ r ∈ st1.successList, ∀ x ∈ st1.world.fs, x.1 = r.path → x.2.isDir = true :=
  fun r hr => (Walk_invariant env fl
    (fun s => ∀ r ∈ s.successList, supportedFile env r.path = true ∧
      ∀ x ∈ s.world.fs, x.1 = r.path → x.2.isDir = true) walk
    (fun s a s1 _ _ hs h0 h => h.removed hout hkeep hrm h0 hs)
    (initState fs) st1 e (fun r hr => by simp [initState] at hr) hw r hr).2

/-! ## Failures of one file -/

theorem supportedFile_eq_hasImageExt (env : Env) (path : GoString) :
    supportedFile env path = hasImageExt env path := by
  have hl : imageExts = supportedExts := rfl
  have hany : ∀ (l : List GoString) (x : GoString),
      (l.any fun y => decide (x = y)) = decide (x ∈ l) := by
    intro l x
    induction l with
    | nil => simp
    | cons a l ih => simp only [List.any_cons, ih, List.mem_cons, Bool.decide_or]
  simp only [supportedFile, hasImageExt, isSupportedExt, hl, hany]

theorem walkFn_mkdir_error (env : Env) (fl : Flags) (st : State) (path : GoString)
    (info : FileInfo) (e : GoString) (made : List GoString) (hd : info.isDir = false)
    (hs : supportedFile env path = true)
    (hmk : env.mkdirAll st.world.fs (Dir (getOutputPath path fl.targetDir fl.outputDir))
      = (some e, made))
    (hstat : osStat st.world.fs (getOutputPath path fl.targetDir fl.outputDir) = none) :
    ∃ st1, walkFn env fl st path info none = some (st1, none) ∧
      RecordsFailure st st1 path (str "创建目录失败: " ++ e) := by
  obtain ⟨st1, h1, h2⟩ := walkFn_handled env fl st path info hd hs
  refine ⟨st1, h1, ?_⟩
  cases h2 with
  | skipped i hstat2 => rw [hstat] at hstat2; cases hstat2
  | mkdirFailed e2 made2 hstat2 hmk2 =>
    rw [hmk] at hmk2
    simp only [Prod.mk.injEq, Option.some.injEq] at hmk2
    rw [hmk2.1]
    exact ⟨rfl, rfl, rfl⟩
  | convertFailed e2 made2 w1 hstat2 hmk2 hconv => rw [hmk] at hmk2; simp at hmk2
  | converted made2 w1 newInfo hstat2 hmk2 hconv hnew => rw [hmk] at hmk2; simp at hmk2

theorem walkFn_convert_error (env : Env) (fl : Flags) (st : State) (path : GoString)
    (info : FileInfo) (e : GoString) (made : List GoString) (hd : info.isDir = false)
    (hs : supportedFile env path = true)
    (hmk : env.mkdirAll st.world.fs (Dir (getOutputPath path fl.targetDir fl.outputDir))
      = (none, made))
    (hstat : osStat st.world.fs (getOutputPath path fl.targetDir fl.outputDir) = none)
    (herr : (convertToWebP env
        { fs := makeDirs st.world.fs made
          trace := st.world.trace ++
            [.osStat (getOutputPath path fl.targetDir fl.outputDir),
             .osMkdirAll (Dir (getOutputPath path fl.targetDir fl.outputDir))] }
        path (getOutputPath path fl.targetDir fl.outputDir) fl.quality).2 = some e) :
    ∃ st1, walkFn env fl st path info none = some (st1, none) ∧
      RecordsFailure st st1 path e := by
  obtain ⟨st1, h1, h2⟩ := walkFn_handled env fl st path info hd hs
  refine ⟨st1, h1, ?_⟩
  cases h2 with
  | skipped i hstat2 => rw [hstat] at hstat2; cases hstat2
  | mkdirFailed e2 made2 hstat2 hmk2 => rw [hmk] at hmk2; simp at hmk2
  | convertFailed e2 made2 w2 hstat2 hmk2 hconv2 =>
    rw [hmk] at hmk2
    simp only [Prod.mk.injEq, true_and] at hmk2
    subst hmk2
    rw [hconv2] at herr
    simp only [Option.some.injEq] at herr
    rw [herr]
    exact ⟨rfl, rfl, rfl⟩
  | converted made2 w2 newInfo hstat2 hmk2 hconv2 hnew =>
    rw [hmk] at hmk2
    simp only [Prod.mk.injEq, true_and] at hmk2
    subst hmk2
    rw [hconv2] at herr
    simp at herr

theorem decodeByExt_jpeg (env : Env) (w : World) (i : GoString)
    (h : ToLower env.unicodeLower (Ext i) = str ".jpg" ∨
      ToLower env.unicodeLower (Ext i) = str ".jpeg") :
    decodeByExt env w i = (w.log (.jpegDecode i), env.jpegDecode w.fs i) := by
  have h1 : ToLower env.unicodeLower (Ext i) = extJPG ∨
      ToLower env.unicodeLower (Ext i) = extJPEG := h
  simp only [decodeByExt, h1, if_true]

theorem decodeByExt_png (env : Env) (w : World) (i : GoString)
    (h : ToLower env.unicodeLower (Ext i) = str ".png") :
    decodeByExt env w i = (w.log (.pngDecode i), env.pngDecode w.fs i) := by
  have h1 : ToLower env.unicodeLower (Ext i) = extPNG := h
  have n1 : ¬ (extPNG = extJPG ∨ extPNG = extJPEG) := by decide
  simp only [decodeByExt, h1, n1, if_false, if_true]

/-! ## The claims -/

/-- C2: with an empty output directory the destination of every input path is
the input path with the last extension of its final element, as it is spelled,
removed and `.webp` appended; the directory part is unchanged and the source
directory plays no role.  Every path is its directory part followed by its
final element, and `/a/b/img.JPG` under `/a` goes to `/a/b/img.webp`. -/
theorem C2_output_beside_source :
    (∀ inputPath sourceDir : GoString,
      getOutputPath inputPath sourceDir [] =
        dirPart inputPath ++ withoutExt (lastElement inputPath) ++ extWEBP) ∧
    (∀ inputPath : GoString, dirPart inputPath ++ lastElement inputPath = inputPath) ∧
    getOutputPath (str "/a/b/img.JPG") (str "/a") [] = str "/a/b/img.webp" :=
  ⟨getOutputPath_empty, dirPart_append_lastElement, by decide⟩

/-- C1: over every sequence of regular files handed to the callback without a
walker error, whatever the file system and the codecs do, the callback returns
nil on each file; a file whose lower-cased extension is `.jpg`, `.jpeg` or
`.png` adds exactly one entry to exactly one of the three lists and any other
file adds none, so the number of recorded outcomes grows by the number of
supported files visited.  A path that ends in `.jpg`, `.jpeg` or `.png` in any
letter case is such a file; a path whose final element has no dot, or ends in
another extension of ASCII bytes, is not. -/
theorem C1_one_outcome_per_supported_file (env : Env) (fl : Flags) (st : State)
    (files : List WalkArg) (hfiles : ∀ a ∈ files, a.info.isDir = false ∧ a.err = none) :
    (∀ pre a post, files = pre ++ a :: post →
      ∃ s1 s2, Walk env fl st pre = some (s1, none) ∧
        walkFn env fl s1 a.path a.info a.err = some (s2, none) ∧
        if hasImageExt env a.path = true then AddsOne s1 s2 a.path else AddsNone s1 s2) ∧
    (∃ st1, Walk env fl st files = some (st1, none) ∧
      outcomes st1 = outcomes st + (files.filter fun a => hasImageExt env a.path).length) ∧
    (∀ p e : GoString, e.map lowerByte ∈ imageExts → hasImageExt env (p ++ e) = true) ∧
    (∀ path : GoString, dot ∉ lastElement path → hasImageExt env path = false) ∧
    (∀ p t : GoString, dot ∉ t → Separator ∉ t → (∀ x ∈ t, x < 128) →
      (dot :: t).map lowerByte ∉ imageExts → hasImageExt env (p ++ dot :: t) = false) := by
  have hsame : ∀ path, supportedFile env path = hasImageExt env path := by
    intro path
    have hl : imageExts = supportedExts := rfl
    have hany : ∀ (l : List GoString) (x : GoString),
        (l.any fun y => decide (x = y)) = decide (x ∈ l) := by
      intro l x
      induction l with
      | nil => simp
      | cons a l ih => simp only [List.any_cons, ih, List.mem_cons, Bool.decide_or]
    simp only [supportedFile, hasImageExt, isSupportedExt, hl, hany]
  refine ⟨?_, ?_, ?_, ?_, ?_⟩
  · intro pre a post hsplit
    have hpre : ∀ b ∈ pre, b.err = none := fun b hb =>
      (hfiles b (by rw [hsplit]; exact List.mem_append_left _ hb)).2
    have ha := hfiles a (by rw [hsplit]; simp)
    obtain ⟨s1, h1, _⟩ := Walk_files env fl st pre hpre
    obtain ⟨s2, h2, h3⟩ := walkFn_file env fl s1 a.path a.info
    refine ⟨s1, s2, h1, by rw [ha.2]; exact h2, ?_⟩
    rw [← hsame]
    simpa [ha.1] using h3
  · obtain ⟨st1, h1, h2⟩ := Walk_files env fl st files fun a ha => (hfiles a ha).2
    refine ⟨st1, h1, ?_⟩
    rw [h2]
    congr 2
    apply List.filter_congr
    intro a ha
    simp [candidate, (hfiles a ha).1, hsame]
  · intro p e he
    have hl : imageExts = supportedExts := rfl
    have hv : caseVariant e = true := by
      rw [hl] at he
      simpa [caseVariant] using he
    rw [← hsame]
    exact (caseVariant_path env p e [] hv).2.1
  · intro path hdot
    have hext : Ext path = [] := by
      have hsplit := List.takeWhile_append_dropWhile (fun c => !decide (c = Separator))
        path.reverse
      have hsep : Separator ∉ path.reverse.takeWhile (fun c => !decide (c = Separator)) :=
        not_mem_takeWhile_ne Separator _
      have hd : dot ∉ path.reverse.takeWhile (fun c => !decide (c = Separator)) := by
        intro h
        exact hdot (by simpa [lastElement] using h)
      have hdw : path.reverse.dropWhile (fun c => !decide (c = Separator)) = [] ∨
          ∃ q, path.reverse.dropWhile (fun c => !decide (c = Separator)) = Separator :: q := by
        rcases dropWhile_head (fun c => !decide (c = Separator)) path.reverse with h | ⟨a, t, h, ha⟩
        · exact Or.inl h
        · right
          have : a = Separator := by simpa using ha
          exact ⟨t, by rw [h, this]⟩
      have := extScan_none _ _ [] hd hsep hdw
      rw [hsplit] at this
      exact this
    have hlow : ToLower env.unicodeLower [] = [] := by simp [ToLower]
    simp only [hasImageExt, hext, hlow]
    decide
  · intro p t hd hs hascii hnot
    have hext : Ext (p ++ dot :: t) = dot :: t := Ext_append_dot p t hd hs
    have hall : ∀ x ∈ dot :: t, x < 128 := by
      intro x hx
      rcases List.mem_cons.mp hx with hx | hx
      · rw [hx]; decide
      · exact hascii x hx
    simp only [hasImageExt, hext, ToLower_ascii _ _ hall]
    simpa using hnot

/-- C1 on the scenario of the specification: of the four files `a.jpg` and
`b.png` get an outcome, a success each, and `c.webp` and `d.txt` get none. -/
theorem C1_witness :
    ∃ st1, Walk envOK defaultFlags (initState scenarioFS) scenarioFiles = some (st1, none) ∧
      outcomes st1 = 2 ∧
      st1.successList.map convertResult.path = [str "static/a.jpg", str "static/b.png"] ∧
      st1.skippedList = [] ∧ st1.failedList = [] := by
  obtain ⟨st1, h1, h2⟩ := (C1_one_outcome_per_supported_file envOK defaultFlags
    (initState scenarioFS) scenarioFiles (by decide)).2.1
  have hn : (scenarioFiles.filter fun a => hasImageExt envOK a.path).length = 2 := by decide
  have hev : (Walk envOK defaultFlags (initState scenarioFS) scenarioFiles).map
      (fun r => (r.1.successList.map convertResult.path,
        r.1.skippedList.map convertResult.path, r.1.failedList.map convertResult.path))
      = some ([str "static/a.jpg", str "static/b.png"], [], []) := by decide
  rw [h1] at hev
  simp only [Option.map_some', Option.some.injEq, Prod.mk.injEq, List.map_eq_nil_iff] at hev
  refine ⟨st1, h1, ?_, hev.1, hev.2.1, hev.2.2⟩
  rw [h2, hn]
  rfl

/-- C4: a supported file reached by the walk is recorded in `skippedList`
exactly when an entry exists at its destination path at the time of the check;
and when it is skipped the only call made is that `os.Stat`: no directory is
made, `convertToWebP` is not called (the source is neither opened nor decoded),
`os.Remove` is not called, the file system is as before and nothing is added to
the other two lists. -/
theorem C4_skipped_iff_destination_exists (env : Env) (fl : Flags) (st : State)
    (path : GoString) (info : FileInfo) (hd : info.isDir = false)
    (hs : supportedFile env path = true) :
    ∃ st1, walkFn env fl st path info none = some (st1, none) ∧
      ((∃ r : convertResult, r.path = path ∧ st1.skippedList = st.skippedList ++ [r]) ↔
        (osStat st.world.fs (getOutputPath path fl.targetDir fl.outputDir)).isSome = true) ∧
      ((osStat st.world.fs (getOutputPath path fl.targetDir fl.outputDir)).isSome = true →
        st1.world.trace = st.world.trace ++
            [Event.osStat (getOutputPath path fl.targetDir fl.outputDir)] ∧
          st1.world.fs = st.world.fs ∧ st1.successList = st.successList ∧
          st1.failedList = st.failedList) ∧
      ((osStat st.world.fs (getOutputPath path fl.targetDir fl.outputDir)) = none →
        st1.skippedList = st.skippedList) := by
  obtain ⟨st1, h1, h2⟩ := walkFn_handled env fl st path info hd hs
  refine ⟨st1, h1, ?_⟩
  have hne : ∀ r : convertResult, st.skippedList ≠ st.skippedList ++ [r] := by
    intro r h
    have := congrArg List.length h
    simp at this
  cases h2 with
  | skipped i hstat =>
    refine ⟨⟨fun _ => by simp [hstat], fun _ => ⟨_, rfl, rfl⟩⟩, fun _ => ⟨rfl, rfl, rfl, rfl⟩, ?_⟩
    intro h
    simp [hstat] at h
  | mkdirFailed e made hstat hmk =>
    exact ⟨⟨fun ⟨r, _, h⟩ => absurd h (hne r), fun h => by simp [hstat] at h⟩,
      fun h => by simp [hstat] at h, fun _ => rfl⟩
  | convertFailed e made w1 hstat hmk hconv =>
    exact ⟨⟨fun ⟨r, _, h⟩ => absurd h (hne r), fun h => by simp [hstat] at h⟩,
      fun h => by simp [hstat] at h, fun _ => rfl⟩
  | converted made w1 newInfo hstat hmk hconv hnew =>
    exact ⟨⟨fun ⟨r, _, h⟩ => absurd h (hne r), fun h => by simp [hstat] at h⟩,
      fun h => by simp [hstat] at h, fun _ => rfl⟩

/-- C7: in every run, when `keep` is set `os.Remove` is never called and every
entry of the file system is still there at the end; when it is not set the
paths on which `os.Remove` is called are, in order, exactly the paths recorded
in `successList`; so an entry that is gone at the end is the source of a
success, never a skipped, failed or unsupported file. -/
theorem C7_only_successes_removed (env : Env) (fl : Flags) (fs : FS) (walk : List WalkArg) :
    ∃ st1 e, Walk env fl (initState fs) walk = some (st1, e) ∧
      (fl.keepOriginal = true →
        removals st1.world.trace = [] ∧
        ∀ p, (osStat fs p).isSome = true → (osStat st1.world.fs p).isSome = true) ∧
      (fl.keepOriginal = false →
        removals st1.world.trace = st1.successList.map convertResult.path) ∧
      (∀ p, (osStat fs p).isSome = true →
        (osStat st1.world.fs p).isSome = true ∨
          (fl.keepOriginal = false ∧ p ∈ st1.successList.map convertResult.path)) := by
  obtain ⟨st1, e, hw⟩ := Walk_total env fl (initState fs) walk
  have hrem : removals st1.world.trace =
      if fl.keepOriginal then [] else st1.successList.map convertResult.path :=
    Walk_invariant env fl
      (fun st => removals st.world.trace =
        if fl.keepOriginal then [] else st.successList.map convertResult.path) walk
      (fun st a st1 _ _ _ h0 h => h.removals h0) (initState fs) st1 e
      (by simp [initState, removals]) hw
  have hfs : ∀ p, (osStat fs p).isSome = true →
      (osStat st1.world.fs p).isSome = true ∨
        (fl.keepOriginal = false ∧ p ∈ st1.successList.map convertResult.path) :=
    Walk_invariant env fl
      (fun st => ∀ p, (osStat fs p).isSome = true →
        (osStat st.world.fs p).isSome = true ∨
          (fl.keepOriginal = false ∧ p ∈ st.successList.map convertResult.path))
      walk
      (fun st a st1 _ _ _ h0 h p hp => by
        rcases h0 p hp with h1 | ⟨hk, h1⟩
        · rcases h.isSome p h1 with h2 | ⟨h2, h3, r, h4, h5⟩
          · exact Or.inl h2
          · refine Or.inr ⟨h3, ?_⟩
            rw [h5, h2]
            simp [h4]
        · exact Or.inr ⟨hk, h.successList_mono p h1⟩)
      (initState fs) st1 e (fun p hp => Or.inl hp) hw
  refine ⟨st1, e, hw, ?_, ?_, hfs⟩
  · intro hk
    refine ⟨by simpa [hk] using hrem, fun p hp => ?_⟩
    rcases hfs p hp with h | ⟨h, _⟩
    · exact h
    · rw [hk] at h; cases h
  · intro hk
    simpa [hk] using hrem

/-- C9: the callback returns exactly the error the walker passed to it, so a
non-nil error if and only if the walker's error is non-nil, and then nothing
else is done.  For a supported regular file whose destination does not exist:
a failure of `os.MkdirAll` is recorded in `failedList` with the error text
after the program's prefix; and once the directory is there, a failure of
`os.Open`, of `jpeg.Decode` for `.jpg` and `.jpeg`, of `png.Decode` for `.png`,
of `os.Create` or of `webp.Encode` is recorded in `failedList` with the text of
that error; each time nothing is added to the other lists and the callback
returns nil, so the walk goes on with the next entry.  An error of the walker
ends the walk with that error, and `main` then exits with status 1. -/
theorem C9_only_walker_errors_abort (env : Env) (fl : Flags) (st : State) (path : GoString)
    (info : FileInfo) (err : Option GoString) :
    (∃ st1, walkFn env fl st path info err = some (st1, err) ∧ (err ≠ none → st1 = st)) ∧
    (∀ made, info.isDir = false → hasImageExt env path = true →
      osStat st.world.fs (getOutputPath path fl.targetDir fl.outputDir) = none →
      (∀ e,
        env.mkdirAll st.world.fs (Dir (getOutputPath path fl.targetDir fl.outputDir))
          = (some e, made) →
        ∃ st1, walkFn env fl st path info none = some (st1, none) ∧
          RecordsFailure st st1 path (str "创建目录失败: " ++ e)) ∧
      (env.mkdirAll st.world.fs (Dir (getOutputPath path fl.targetDir fl.outputDir))
          = (none, made) →
        (∀ e, env.osOpen (makeDirs st.world.fs made) path = some e →
          ∃ st1, walkFn env fl st path info none = some (st1, none) ∧
            RecordsFailure st st1 path e) ∧
        (env.osOpen (makeDirs st.world.fs made) path = none →
          (∀ e,
            (ToLower env.unicodeLower (Ext path) = str ".jpg" ∨
              ToLower env.unicodeLower (Ext path) = str ".jpeg") →
            env.jpegDecode (makeDirs st.world.fs made) path = .error e →
            ∃ st1, walkFn env fl st path info none = some (st1, none) ∧
              RecordsFailure st st1 path e) ∧
          (∀ e, ToLower env.unicodeLower (Ext path) = str ".png" →
            env.pngDecode (makeDirs st.world.fs made) path = .error e →
            ∃ st1, walkFn env fl st path info none = some (st1, none) ∧
              RecordsFailure st st1 path e) ∧
          (∀ img,
            (((ToLower env.unicodeLower (Ext path) = str ".jpg" ∨
                ToLower env.unicodeLower (Ext path) = str ".jpeg") ∧
                env.jpegDecode (makeDirs st.world.fs made) path = .ok img) ∨
              (ToLower env.unicodeLower (Ext path) = str ".png" ∧
                env.pngDecode (makeDirs st.world.fs made) path = .ok img)) →
            (∀ e,
              env.osCreate (makeDirs st.world.fs made)
                (getOutputPath path fl.targetDir fl.outputDir) = some e →
              ∃ st1, walkFn env fl st path info none = some (st1, none) ∧
                RecordsFailure st st1 path e) ∧
            (env.osCreate (makeDirs st.world.fs made)
                (getOutputPath path fl.targetDir fl.outputDir) = none →
              ∀ e n,
                env.webpEncode
                  (writeFile (makeDirs st.world.fs made)
                    (getOutputPath path fl.targetDir fl.outputDir) 0)
                  (getOutputPath path fl.targetDir fl.outputDir) img fl.quality
                  = (some e, n) →
                ∃ st1, walkFn env fl st path info none = some (st1, none) ∧
                  RecordsFailure st st1 path e))))) ∧
    (∀ rest, ∃ st1, walkFn env fl st path info none = some (st1, none) ∧
      Walk env fl st (⟨path, info, none⟩ :: rest) = Walk env fl st1 rest) ∧
    (∀ (e : GoString) (pre post : List WalkArg), (∀ a ∈ pre, a.err = none) →
      ∃ s1, Walk env fl st pre = some (s1, none) ∧
        Walk env fl st (pre ++ ⟨path, info, some e⟩ :: post) = some (s1, some e)) ∧
    (∀ (e : GoString) (fs : FS) (pre post : List WalkArg), (∀ a ∈ pre, a.err = none) →
      main env fl fs (pre ++ ⟨path, info, some e⟩ :: post) = .exited 1 e) := by
  refine ⟨?_, ?_, ?_, ?_, ?_⟩
  · obtain ⟨st1, h⟩ := walkFn_total env fl st path info err
    refine ⟨st1, h, fun hne => ?_⟩
    cases err with
    | none => exact absurd rfl hne
    | some e =>
      rw [walkFn_error] at h
      simp only [Option.some.injEq, Prod.mk.injEq, and_true] at h
      exact h.symm
  · intro made hd hs hstat
    rw [← supportedFile_eq_hasImageExt] at hs
    refine ⟨fun e hmk => walkFn_mkdir_error env fl st path info e made hd hs hmk hstat,
      fun hmk => ?_⟩
    have conv := fun e herr =>
      walkFn_convert_error env fl st path info e made hd hs hmk hstat herr
    refine ⟨fun e hopen => conv e (convertToWebP_open_error env _ _ _ _ e hopen),
      fun hopen => ⟨fun e hext hdec => ?_, fun e hext hdec => ?_, fun img himg => ?_⟩⟩
    · have h := decodeByExt_jpeg env (World.log
          { fs := makeDirs st.world.fs made
            trace := st.world.trace ++
              [.osStat (getOutputPath path fl.targetDir fl.outputDir),
               .osMkdirAll (Dir (getOutputPath path fl.targetDir fl.outputDir))] }
          (.osOpen path)) path hext
      exact conv e (convertToWebP_decode_error env _ _ _ _ _ e hopen
        (h.trans (Prod.ext rfl hdec)))
    · have h := decodeByExt_png env (World.log
          { fs := makeDirs st.world.fs made
            trace := st.world.trace ++
              [.osStat (getOutputPath path fl.targetDir fl.outputDir),
               .osMkdirAll (Dir (getOutputPath path fl.targetDir fl.outputDir))] }
          (.osOpen path)) path hext
      exact conv e (convertToWebP_decode_error env _ _ _ _ _ e hopen
        (h.trans (Prod.ext rfl hdec)))
    · have hdec : ∃ w2 : World, w2.fs = makeDirs st.world.fs made ∧
          decodeByExt env (World.log
            { fs := makeDirs st.world.fs made
              trace := st.world.trace ++
                [.osStat (getOutputPath path fl.targetDir fl.outputDir),
                 .osMkdirAll (Dir (getOutputPath path fl.targetDir fl.outputDir))] }
            (.osOpen path)) path = (w2, .ok img) := by
        rcases himg with ⟨hext, hd⟩ | ⟨hext, hd⟩
        · exact ⟨_, rfl, (decodeByExt_jpeg env _ path hext).trans (Prod.ext rfl hd)⟩
        · exact ⟨_, rfl, (decodeByExt_png env _ path hext).trans (Prod.ext rfl hd)⟩
      obtain ⟨w2, hw2, hdec⟩ := hdec
      refine ⟨fun e hcr => conv e
        (convertToWebP_create_error env _ w2 _ _ _ img e hopen hdec (by rw [hw2]; exact hcr)),
        fun hcr e n henc => conv e ?_⟩
      rw [convertToWebP_encode_error env _ w2 _ _ _ img hopen hdec (by rw [hw2]; exact hcr),
        hw2, henc]
  · intro rest
    obtain ⟨st1, h⟩ := walkFn_total env fl st path info none
    exact ⟨st1, h, by simp [Walk, h]⟩
  · intro e pre post hpre
    exact Walk_abort env fl st pre post path info e hpre
  · intro e fs pre post hpre
    obtain ⟨s1, _, h⟩ := Walk_abort env fl (initState fs) pre post path info e hpre
    simp [main, h]

/-- C9 on `static/a.jpg` and `static/b.png` of the scenario, in environments
where one operation fails: each failure is recorded with its own error text. -/
theorem C9_witness :
    (∃ st1, walkFn envNoMkdir defaultFlags (initState scenarioFS) (str "static/a.jpg")
        ⟨false, 50000⟩ none = some (st1, none) ∧
      RecordsFailure (initState scenarioFS) st1 (str "static/a.jpg")
        (str "创建目录失败: " ++ str "mkdir static: permission denied")) ∧
    (∃ st1, walkFn envNoOpen defaultFlags (initState scenarioFS) (str "static/a.jpg")
        ⟨false, 50000⟩ none = some (st1, none) ∧
      RecordsFailure (initState scenarioFS) st1 (str "static/a.jpg")
        (str "open static/a.jpg: permission denied")) ∧
    (∃ st1, walkFn envBadJpeg defaultFlags (initState scenarioFS) (str "static/a.jpg")
        ⟨false, 50000⟩ none = some (st1, none) ∧
      RecordsFailure (initState scenarioFS) st1 (str "static/a.jpg")
        (str "invalid JPEG format: missing SOI marker")) ∧
    (∃ st1, walkFn envBadPng defaultFlags (initState scenarioFS) (str "static/b.png")
        ⟨false, 30000⟩ none = some (st1, none) ∧
      RecordsFailure (initState scenarioFS) st1 (str "static/b.png")
        (str "png: invalid format: not a PNG file")) ∧
    (∃ st1, walkFn envNoCreate defaultFlags (initState scenarioFS) (str "static/a.jpg")
        ⟨false, 50000⟩ none = some (st1, none) ∧
      RecordsFailure (initState scenarioFS) st1 (str "static/a.jpg")
        (str "open static/a.webp: read-only file system")) ∧
    (∃ st1, walkFn envBadEncode defaultFlags (initState scenarioFS) (str "static/a.jpg")
        ⟨false, 50000⟩ none = some (st1, none) ∧
      RecordsFailure (initState scenarioFS) st1 (str "static/a.jpg")
        (str "webp: encode failed")) ∧
    (Walk envBadJpeg defaultFlags (initState scenarioFS) scenarioFiles).map
      (fun r => (r.1.successList.map convertResult.path, r.1.failedList, r.2))
      = some ([str "static/b.png"],
          [{ path := str "static/a.jpg",
             reason := str "invalid JPEG format: missing SOI marker" }], none) :=
  ⟨((C9_only_walker_errors_abort envNoMkdir defaultFlags (initState scenarioFS)
      (str "static/a.jpg") ⟨false, 50000⟩ none).2.1 [] rfl (by decide) (by decide)).1 _ rfl,
   (((C9_only_walker_errors_abort envNoOpen defaultFlags (initState scenarioFS)
      (str "static/a.jpg") ⟨false, 50000⟩ none).2.1 [] rfl (by decide) (by decide)).2 rfl).1
      _ rfl,
   ((((C9_only_walker_errors_abort envBadJpeg defaultFlags (initState scenarioFS)
      (str "static/a.jpg") ⟨false, 50000⟩ none).2.1 [] rfl (by decide) (by decide)).2 rfl).2
      rfl).1 _ (by decide) rfl,
   ((((C9_only_walker_errors_abort envBadPng defaultFlags (initState scenarioFS)
      (str "static/b.png") ⟨false, 30000⟩ none).2.1 [] rfl (by decide) (by decide)).2 rfl).2
      rfl).2.1 _ (by decide) rfl,
   (((((C9_only_walker_errors_abort envNoCreate defaultFlags (initState scenarioFS)
      (str "static/a.jpg") ⟨false, 50000⟩ none).2.1 [] rfl (by decide) (by decide)).2 rfl).2
      rfl).2.2 0 (Or.inl ⟨by decide, rfl⟩)).1 _ rfl,
   (((((C9_only_walker_errors_abort envBadEncode defaultFlags (initState scenarioFS)
      (str "static/a.jpg") ⟨false, 50000⟩ none).2.1 [] rfl (by decide) (by decide)).2 rfl).2
      rfl).2.2 0 (Or.inl ⟨by decide, rfl⟩)).2 rfl _ 10 rfl,
   by decide⟩

/-- C5, counterexample: a success whose original size is 0 (and whose output
takes 20000 bytes) is recorded with the reduction `-Inf`, the result of the
division by zero, which is not 0 nor any finite value. -/
theorem C5_zero_size_not_guarded :
    (walkFn envOK defaultFlags (initState [(str "static/e.png", ⟨false, 0⟩)])
        (str "static/e.png") ⟨false, 0⟩ none).map
      (fun r => r.1.successList.map convertResult.reduction) = some [float64.inf true] ∧
    float64.inf true ≠ float64.zero false ∧
    ∀ s m e, float64.inf true ≠ float64.fin s m e := by
  refine ⟨by decide, by decide, fun s m e h => by cases h⟩

/-- C5, amended: for every success the callback records, with sizes in the
range of non-negative `int64` values, the recorded reduction is the result of
the `float64` operations `float64(origSize - newSize) / float64(origSize) * 100`,
each rounded to the nearest `float64`.  When `origSize` is not 0 it is a finite
value within the relative error `2 ^ (-50)` of the exact quotient
`(origSize - newSize) / origSize * 100`, unclamped: negative exactly when
`newSize > origSize` and zero exactly when the sizes are equal.  When
`origSize` is 0 the division is carried out all the same (there is no guard
and no panic) and the recorded reduction is NaN for `newSize = 0` and `-Inf`
for `newSize > 0`. -/
theorem C5_reduction_formula (env : Env) (fl : Flags) (st st1 : State) (path : GoString)
    (info : FileInfo) (err ret : Option GoString) (r : convertResult)
    (h : walkFn env fl st path info err = some (st1, ret))
    (hr : st1.successList = st.successList ++ [r])
    (ho : 0 ≤ r.origSize ∧ r.origSize < 2 ^ 63) (hn : 0 ≤ r.newSize ∧ r.newSize < 2 ^ 63) :
    r.origSize = info.size ∧
    r.reduction = float64.mul
      (float64.div (float64.ofInt (r.origSize - r.newSize)) (float64.ofInt r.origSize))
      (float64.ofInt 100) ∧
    (r.origSize ≠ 0 →
      ∃ s m e, r.reduction = .fin s m e ∧ (s = true ↔ r.origSize < r.newSize) ∧
        (m = 0 ↔ r.newSize = r.origSize) ∧
        |r.reduction.toRat - ((r.origSize - r.newSize : Int) : ℚ) / (r.origSize : ℚ) * 100|
          ≤ abs (((r.origSize - r.newSize : Int) : ℚ) / (r.origSize : ℚ) * 100) / 2 ^ 50) ∧
    (r.origSize = 0 → r.newSize = 0 → r.reduction = .nan) ∧
    (r.origSize = 0 → 0 < r.newSize → r.reduction = .inf true) := by
  obtain ⟨_, h2, _, h4, _⟩ := walkFn_success_record env fl st st1 path info err ret r h hr
  refine ⟨h2, ?_, fun h0 => ?_, fun h0 h1 => ?_, fun h0 h1 => ?_⟩
  · rw [h4, reductionOf, int64_of_range _ (by omega) (by omega)]
  · rw [h4]
    exact reductionOf_value _ _ ⟨by omega, ho.2⟩ hn
  · rw [h4, h0, h1]; exact reductionOf_zero_zero
  · rw [h4, h0]; exact reductionOf_zero_pos _ ⟨h1, hn.2⟩

/-- C5, amended, on the scenario: `static/a.jpg` of 50000 bytes converted to
20000 bytes is recorded with the reduction 60, which is
`8444249301319680 * 2 ^ (-47)`.  Further values of line 108: 30000 to 20000
bytes gives `4691249611844266 * 2 ^ (-47)` (the bits `0x4040aaaaaaaaaaaa`), not
the fraction 100/3; `2 ^ 53 + 1` bytes to 1 byte gives 100; 20000 to 30000
bytes gives -50. -/
theorem C5_witness :
    (scenarioRecordA.origSize = 50000 ∧
      scenarioRecordA.reduction = float64.mul
        (float64.div (float64.ofInt (scenarioRecordA.origSize - scenarioRecordA.newSize))
          (float64.ofInt scenarioRecordA.origSize))
        (float64.ofInt 100) ∧
      (scenarioRecordA.origSize ≠ 0 →
        ∃ s m e, scenarioRecordA.reduction = .fin s m e ∧
          (s = true ↔ scenarioRecordA.origSize < scenarioRecordA.newSize) ∧
          (m = 0 ↔ scenarioRecordA.newSize = scenarioRecordA.origSize) ∧
          |scenarioRecordA.reduction.toRat -
              ((scenarioRecordA.origSize - scenarioRecordA.newSize : Int) : ℚ) /
                (scenarioRecordA.origSize : ℚ) * 100|
            ≤ abs (((scenarioRecordA.origSize - scenarioRecordA.newSize : Int) : ℚ) /
                (scenarioRecordA.origSize : ℚ) * 100) / 2 ^ 50) ∧
      (scenarioRecordA.origSize = 0 → scenarioRecordA.newSize = 0 →
        scenarioRecordA.reduction = .nan) ∧
      (scenarioRecordA.origSize = 0 → 0 < scenarioRecordA.newSize →
        scenarioRecordA.reduction = .inf true)) ∧
    scenarioRecordA.reduction = .fin false 8444249301319680 (-47) ∧
    reductionOf 30000 20000 = .fin false 4691249611844266 (-47) ∧
    reductionOf (2 ^ 53 + 1) 1 = .fin false 7036874417766400 (-46) ∧
    reductionOf 20000 30000 = .fin true 7036874417766400 (-47) :=
  ⟨C5_reduction_formula envOK defaultFlags (initState scenarioFS) scenarioAfterA
    (str "static/a.jpg") ⟨false, 50000⟩ none none scenarioRecordA (by rfl) (by rfl)
    (by decide) (by decide), by decide, by decide, by decide, by decide⟩

/-- C6, counterexample: after two successes on files of 2^62 bytes each the
sum of the original sizes is 2^63 and `totalOrigSize` is -2^63. -/
theorem C6_total_wraps :
    (Walk envOK defaultFlags (initState hugeFS) hugeFiles).map
      (fun r => (r.1.totalOrigSize, (r.1.successList.map convertResult.origSize).sum))
      = some (-2 ^ 63, 2 ^ 63) := by
  decide

/-- C6, amended: after the callback has processed any sequence of entries,
`totalOrigSize` and `totalNewSize` are the sums of `origSize` and of `newSize`
over the entries of `successList`, reduced to `int64` (the exact sums whenever
these lie in the range of `int64`); skipped and failed files contribute
nothing; and `printSummary` and `saveSummaryFile` are given the same lists and
the same two totals. -/
theorem C6_totals_are_int64_sums (env : Env) (fl : Flags) (fs : FS) (walk : List WalkArg) :
    ∃ st1 e, Walk env fl (initState fs) walk = some (st1, e) ∧
      st1.totalOrigSize = int64 (st1.successList.map convertResult.origSize).sum ∧
      st1.totalNewSize = int64 (st1.successList.map convertResult.newSize).sum ∧
      (-2 ^ 63 ≤ (st1.successList.map convertResult.origSize).sum ∧
        (st1.successList.map convertResult.origSize).sum < 2 ^ 63 →
        st1.totalOrigSize = (st1.successList.map convertResult.origSize).sum) ∧
      (-2 ^ 63 ≤ (st1.successList.map convertResult.newSize).sum ∧
        (st1.successList.map convertResult.newSize).sum < 2 ^ 63 →
        st1.totalNewSize = (st1.successList.map convertResult.newSize).sum) ∧
      (e = none →
        main env fl fs walk =
          .returned
            ⟨st1.successList, st1.skippedList, st1.failedList,
              st1.totalOrigSize, st1.totalNewSize⟩
            ⟨st1.successList, st1.skippedList, st1.failedList,
              st1.totalOrigSize, st1.totalNewSize⟩) ∧
      (∀ a b, main env fl fs walk = .returned a b → a = b) := by
  obtain ⟨st1, e, hw⟩ := Walk_total env fl (initState fs) walk
  have hinv : st1.totalOrigSize = int64 (st1.successList.map convertResult.origSize).sum ∧
      st1.totalNewSize = int64 (st1.successList.map convertResult.newSize).sum :=
    Walk_invariant env fl
      (fun st => st.totalOrigSize = int64 (st.successList.map convertResult.origSize).sum ∧
        st.totalNewSize = int64 (st.successList.map convertResult.newSize).sum)
      walk
      (fun st a st1 _ _ _ h0 h => by
        cases h with
        | skipped i hstat => exact h0
        | mkdirFailed e made hstat hmk => exact h0
        | convertFailed e made w1 hstat hmk hconv => exact h0
        | converted made w1 newInfo hstat hmk hconv hnew =>
          simp only [List.map_append, List.map_cons, List.map_nil, List.sum_append,
            List.sum_cons, List.sum_nil, add_zero]
          rw [h0.1, h0.2, int64_add_int64, int64_add_int64]
          exact ⟨rfl, rfl⟩)
      (initState fs) st1 e (by simp [initState, int64]) hw
  refine ⟨st1, e, hw, hinv.1, hinv.2, ?_, ?_, ?_, ?_⟩
  · intro h; rw [hinv.1]; exact int64_of_range _ h.1 h.2
  · intro h; rw [hinv.2]; exact int64_of_range _ h.1 h.2
  · intro he
    subst he
    simp [main, hw]
  · intro a b hab
    simp only [main, hw] at hab
    cases e with
    | some e => simp at hab
    | none =>
      simp only [Ending.returned.injEq] at hab
      rw [← hab.1, ← hab.2]

/-- C4 on the example of the specification: `/a/b/img.webp` exists, so
`/a/b/img.jpg` is recorded as skipped and nothing but the `os.Stat` is done. -/
theorem C4_witness :
    ∃ st1, walkFn envOK specFlags (initState skipFS) (str "/a/b/img.jpg") ⟨false, 50000⟩ none
        = some (st1, none) ∧
      ((∃ r : convertResult, r.path = str "/a/b/img.jpg" ∧
          st1.skippedList = (initState skipFS).skippedList ++ [r]) ↔
        (osStat (initState skipFS).world.fs
          (getOutputPath (str "/a/b/img.jpg") specFlags.targetDir specFlags.outputDir)).isSome
          = true) ∧
      ((osStat (initState skipFS).world.fs
          (getOutputPath (str "/a/b/img.jpg") specFlags.targetDir specFlags.outputDir)).isSome
          = true →
        st1.world.trace = (initState skipFS).world.trace ++
            [Event.osStat
              (getOutputPath (str "/a/b/img.jpg") specFlags.targetDir specFlags.outputDir)] ∧
          st1.world.fs = (initState skipFS).world.fs ∧
          st1.successList = (initState skipFS).successList ∧
          st1.failedList = (initState skipFS).failedList) ∧
      ((osStat (initState skipFS).world.fs
          (getOutputPath (str "/a/b/img.jpg") specFlags.targetDir specFlags.outputDir)) = none →
        st1.skippedList = (initState skipFS).skippedList) :=
  C4_skipped_iff_destination_exists envOK specFlags (initState skipFS) (str "/a/b/img.jpg")
    ⟨false, 50000⟩ (by rfl) (by decide)

/-- C10: the destination beside the source does not tell supported extensions
apart: for every stem `p` and any two supported extensions `e1`, `e2` in any
letter case, `p ++ e1` and `p ++ e2` are both taken for conversion and both go
to `p ++ ".webp"`.  Hence in one run, once `p ++ e1` has been converted
successfully, a later visit of `p ++ e2` records it as skipped: only the
`os.Stat` of the destination is made, so it is not converted and not deleted. -/
theorem C10_destinations_collide (env : Env) (fl : Flags) (p e1 e2 : GoString)
    (h1 : caseVariant e1 = true) (h2 : caseVariant e2 = true) (hout : fl.outputDir = []) :
    (∀ sourceDir,
      getOutputPath (p ++ e1) sourceDir [] = getOutputPath (p ++ e2) sourceDir []) ∧
    supportedFile env (p ++ e1) = true ∧ supportedFile env (p ++ e2) = true ∧
    (∀ (st st1 s2 : State) (info1 info2 : FileInfo) (r : convertResult) (mid : List WalkArg),
      info2.isDir = false →
      walkFn env fl st (p ++ e1) info1 none = some (st1, none) →
      st1.successList = st.successList ++ [r] →
      Walk env fl st1 mid = some (s2, none) →
      ∃ s3, walkFn env fl s2 (p ++ e2) info2 none = some (s3, none) ∧
        s3.skippedList = s2.skippedList ++
          [{ path := p ++ e2, reason := str "webp 文件已存在" }] ∧
        s3.successList = s2.successList ∧ s3.failedList = s2.failedList ∧
        s3.world.trace = s2.world.trace ++ [Event.osStat (p ++ extWEBP)] ∧
        s3.world.fs = s2.world.fs) := by
  obtain ⟨_, hs1, ho1⟩ := caseVariant_path env p e1 fl.targetDir h1
  obtain ⟨_, hs2, ho2⟩ := caseVariant_path env p e2 fl.targetDir h2
  refine ⟨fun sourceDir => ?_, hs1, hs2, ?_⟩
  · rw [(caseVariant_path env p e1 sourceDir h1).2.2, (caseVariant_path env p e2 sourceDir h2).2.2]
  · intro st st1 s2 info1 info2 r mid hd2 hw1 hr hmid
    -- the destination exists after the success
    have hc1 : (osStat st1.world.fs (getOutputPath (p ++ e1) fl.targetDir [])).isSome = true := by
      rcases (walkFn_cases env fl st st1 (p ++ e1) info1 none none hw1).2 with h | ⟨_, _, _, h⟩
      · rw [h] at hr
        have := congrArg List.length hr
        simp at this
      · have := h.converted_created r hr hs1 hout
        rwa [hout] at this
    -- and stays through the entries in between
    have hc2 : (osStat s2.world.fs (getOutputPath (p ++ e1) fl.targetDir [])).isSome = true :=
      Walk_invariant env fl
        (fun st => (osStat st.world.fs (getOutputPath (p ++ e1) fl.targetDir [])).isSome = true)
        mid (fun st a st1 _ _ hs h0 h => h.destination_stays hs _ _ h0) st1 s2 none hc1 hmid
    rw [ho1] at hc2
    obtain ⟨s3, hw3, hh⟩ := walkFn_handled env fl s2 (p ++ e2) info2 hd2 hs2
    refine ⟨s3, hw3, ?_⟩
    have hpath : getOutputPath (p ++ e2) fl.targetDir fl.outputDir = p ++ extWEBP := by
      rw [hout]; exact ho2
    cases hh with
    | skipped i hstat =>
      rw [hpath]
      exact ⟨rfl, rfl, rfl, rfl, rfl⟩
    | mkdirFailed e made hstat hmk => rw [hpath] at hstat; rw [hstat] at hc2; cases hc2
    | convertFailed e made w1 hstat hmk hconv => rw [hpath] at hstat; rw [hstat] at hc2; cases hc2
    | converted made w1 newInfo hstat hmk hconv hnew =>
      rw [hpath] at hstat; rw [hstat] at hc2; cases hc2

/-- C10 on `static/p.jpg` and `static/p.PNG`: both go to `static/p.webp`, and
in the run over the two, in the order of the walk, the first is skipped once
the destination exists: `p.PNG` is converted and removed, `p.jpg` is skipped
and stays. -/
theorem C10_witness :
    (∀ sourceDir, getOutputPath (str "static/p" ++ str ".jpg") sourceDir [] =
      getOutputPath (str "static/p" ++ str ".PNG") sourceDir []) ∧
    supportedFile envOK (str "static/p" ++ str ".jpg") = true ∧
    supportedFile envOK (str "static/p" ++ str ".PNG") = true ∧
    (Walk envOK defaultFlags (initState twinFS) (walkArgs twinFS)).map
      (fun r => (r.1.successList.map convertResult.path,
        r.1.skippedList.map convertResult.path, removals r.1.world.trace,
        r.1.world.fs.map Prod.fst))
      = some ([str "static/p.PNG"], [str "static/p.jpg"], [str "static/p.PNG"],
          [str "static/p.jpg", str "static/p.webp"]) :=
  ⟨(C10_destinations_collide envOK defaultFlags (str "static/p") (str ".jpg") (str ".PNG")
      (by decide) (by decide) rfl).1,
    (C10_destinations_collide envOK defaultFlags (str "static/p") (str ".jpg") (str ".PNG")
      (by decide) (by decide) rfl).2.1,
    (C10_destinations_collide envOK defaultFlags (str "static/p") (str ".jpg") (str ".PNG")
      (by decide) (by decide) rfl).2.2.1,
    by decide⟩

/-- C8, counterexample: with the default flags (`keep` not set) the run over a
tree holding `static/a.jpg` converts it and removes it; the second run comes
to `static/a.webp` only and records nothing, so the file that was a success on
the first run has no skipped outcome on the second. -/
theorem C8_removed_source_not_skipped :
    (run envOK defaultFlags singleFS).map
      (fun r => (r.1.successList.map convertResult.path, r.1.world.fs.map Prod.fst))
      = some ([str "static/a.jpg"], [str "static/a.webp"]) ∧
    (runTwice envOK defaultFlags singleFS).map
      (fun r => (r.1.successList.map convertResult.path,
        r.1.skippedList.map convertResult.path, r.1.failedList.map convertResult.path))
      = some ([], [], []) := by
  constructor <;> decide

/-- C8, amended: for every source tree and every setting of the flags with an
empty output directory, in an environment that answers each operation on a path
the same way in both runs, two runs in succession run to their end and the
second records no success (zero additional conversions).  Every file that was a
success on the first run and is still there as a regular file is skipped on
the second, and with `keep` set that is every success of the first run.  A
success of the first run of which no regular file is left gets no outcome of
any kind on the second run, and with `keep` unset and `os.Remove` succeeding
that is every success of the first run: the second walk comes to no regular
file at its path. -/
theorem C8_second_run_converts_nothing (env : Env) (fl : Flags) (fs : FS)
    (hout : fl.outputDir = []) (henv : Stationary env) :
    ∃ st1 st2, run env fl fs = some (st1, none) ∧ runTwice env fl fs = some (st2, none) ∧
      st2.successList = [] ∧
      (∀ r ∈ st1.successList,
        (∃ i, (r.path, i) ∈ st1.world.fs ∧ i.isDir = false) →
        r.path ∈ st2.skippedList.map convertResult.path) ∧
      (fl.keepOriginal = true →
        ∀ r ∈ st1.successList, r.path ∈ st2.skippedList.map convertResult.path) ∧
      (∀ r ∈ st1.successList,
        (∀ i, (r.path, i) ∈ st1.world.fs → i.isDir = true) →
        r.path ∉ outcomePaths st2) ∧
      (fl.keepOriginal = false → (∀ fs p, env.osRemove fs p = true) →
        ∀ r ∈ st1.successList,
          (∀ a ∈ walkArgs st1.world.fs, a.path = r.path → a.info.isDir = true) ∧
          r.path ∉ outcomePaths st2) := by
  have herr : ∀ fs : FS, ∀ a ∈ walkArgs fs, a.err = none := by
    intro fs a ha
    obtain ⟨x, _, rfl⟩ := (mem_walkArgs fs a).mp ha
    rfl
  obtain ⟨st1, hw1, _⟩ := Walk_files env fl (initState fs) (walkArgs fs) (herr fs)
  obtain ⟨st2, hw2, _⟩ :=
    Walk_files env fl (initState st1.world.fs) (walkArgs st1.world.fs) (herr _)
  have hrun1 : run env fl fs = some (st1, none) := hw1
  have hrun2 : runTwice env fl fs = some (st2, none) := by
    simp only [runTwice, hrun1]
    exact hw2
  -- every supported regular file the second run comes to is settled
  have hset : ∀ a ∈ walkArgs st1.world.fs, a.info.isDir = false →
      supportedFile env a.path = true →
      Settled env fl (initState st1.world.fs).world.fs a.path := by
    intro a ha hd hs
    obtain ⟨x, hx, rfl⟩ := (mem_walkArgs _ a).mp ha
    have hx0 : x ∈ fs :=
      Walk_no_new_source env fl hout (walkArgs fs) (initState fs) st1 none hw1 x hx hd hs
    exact Walk_settles env fl henv hout (walkArgs fs) (initState fs) st1 hw1
      ⟨x.1, x.2, none⟩ ((mem_walkArgs fs _).mpr ⟨x, hx0, rfl⟩) hd hs
  obtain ⟨hnone, hskip⟩ := Walk_of_settled env fl hout (walkArgs st1.world.fs)
    (initState st1.world.fs) st2 hw2 hset
  have hsucc := Walk_successes env fl hout (walkArgs fs) fs st1 none hw1
  have hpresent : ∀ r ∈ st1.successList, ∀ i, (r.path, i) ∈ st1.world.fs → i.isDir = false →
      r.path ∈ st2.skippedList.map convertResult.path := by
    intro r hr i hi hd
    obtain ⟨hs, hex, _⟩ := hsucc r hr
    exact hskip ⟨r.path, i, none⟩ ((mem_walkArgs _ _).mpr ⟨(r.path, i), hi, rfl⟩) hd hs hex
  have habsent : ∀ p : GoString, (∀ i, (p, i) ∈ st1.world.fs → i.isDir = true) →
      p ∉ outcomePaths st2 := by
    intro p hp hmem
    obtain ⟨a, ha, hap, hd⟩ :=
      Walk_outcomes_visited env fl (walkArgs st1.world.fs) st1.world.fs st2 none hw2 p hmem
    obtain ⟨x, hx, rfl⟩ := (mem_walkArgs _ a).mp ha
    simp only [] at hap hd
    have := hp x.2 (by rw [← hap]; exact hx)
    rw [hd] at this
    cases this
  refine ⟨st1, st2, hrun1, hrun2, hnone, ?_, ?_, ?_, ?_⟩
  · rintro r hr ⟨i, hi, hd⟩
    exact hpresent r hr i hi hd
  · intro hkeep r hr
    obtain ⟨hs, _, a, ha, hap, hd⟩ := hsucc r hr
    obtain ⟨x, hx, rfl⟩ := (mem_walkArgs fs a).mp ha
    have hx1 : x ∈ st1.world.fs :=
      Walk_keeps_sources env fl hout hkeep (walkArgs fs) (initState fs) st1 none hw1 x hx
        (by simp only [] at hap; rw [hap]; exact hs)
    simp only [] at hap hd
    exact hpresent r hr x.2 (by rw [← hap]; exact hx1) hd
  · intro r _ hr
    exact habsent r.path hr
  · intro hkeep hrm r hr
    have hgone := Walk_removed env fl hout hkeep hrm (walkArgs fs) fs st1 none hw1 r hr
    refine ⟨fun a ha hap => ?_, habsent r.path fun i hi => hgone (r.path, i) hi rfl⟩
    obtain ⟨x, hx, rfl⟩ := (mem_walkArgs _ a).mp ha
    exact hgone x hx hap

/-- C8, amended, on the directory of the scenario: with `keep` set both images
are successes of the first run and are skipped on the second, which converts
nothing; with `keep` unset both are removed by the first run, and the second
comes to neither and records nothing. -/
theorem C8_witness :
    (∃ st1 st2, run envOK keepFlags scenarioFS = some (st1, none) ∧
      runTwice envOK keepFlags scenarioFS = some (st2, none) ∧
      st2.successList = [] ∧
      ∀ r ∈ st1.successList, r.path ∈ st2.skippedList.map convertResult.path) ∧
    (run envOK keepFlags scenarioFS).map (fun r => r.1.successList.map convertResult.path)
      = some [str "static/a.jpg", str "static/b.png"] ∧
    (runTwice envOK keepFlags scenarioFS).map
      (fun r => (r.1.successList.map convertResult.path,
        r.1.skippedList.map convertResult.path, r.1.failedList))
      = some ([], [str "static/a.jpg", str "static/b.png"], []) ∧
    (∃ st1 st2, run envOK defaultFlags scenarioFS = some (st1, none) ∧
      runTwice envOK defaultFlags scenarioFS = some (st2, none) ∧
      st2.successList = [] ∧
      ∀ r ∈ st1.successList,
        (∀ a ∈ walkArgs st1.world.fs, a.path = r.path → a.info.isDir = true) ∧
        r.path ∉ outcomePaths st2) ∧
    (run envOK defaultFlags scenarioFS).map
      (fun r => (r.1.successList.map convertResult.path, r.1.world.fs.map Prod.fst))
      = some ([str "static/a.jpg", str "static/b.png"],
          [str "static", str "static/c.webp", str "static/d.txt", str "static/a.webp",
           str "static/b.webp"]) ∧
    (runTwice envOK defaultFlags scenarioFS).map (fun r => outcomePaths r.1) = some [] := by
  have hst : Stationary envOK := fun _ _ _ => ⟨rfl, rfl, rfl, rfl, rfl, fun _ _ => rfl⟩
  obtain ⟨s1, s2, h1, h2, h3, _, h5, _, _⟩ :=
    C8_second_run_converts_nothing envOK keepFlags scenarioFS rfl hst
  obtain ⟨t1, t2, g1, g2, g3, _, _, _, g7⟩ :=
    C8_second_run_converts_nothing envOK defaultFlags scenarioFS rfl hst
  exact ⟨⟨s1, s2, h1, h2, h3, h5 rfl⟩, by decide, by decide,
    ⟨t1, t2, g1, g2, g3, g7 rfl (fun _ _ => rfl)⟩, by decide, by decide⟩

/-- C3: for every clean source root, every clean output root `o` (clean, so not
empty) and every clean relative path `r` with a file name `name` (not empty,
without separator, neither `.` nor `..`), the destination of the input path
`root/r` is `filepath.Join(o, r1)`, where `r1` is `r` with the last extension of
the file name replaced by `.webp`.  The relative path `r` goes down through the
directories `dirs`, after it has gone up through the last directories `ups` of
the root when it begins with `..` (the root is then `ups` below `s`, and `r`
does not lead back into the first directory it leaves, so that `r` is the path
from the root to the file).  Both spellings of the input are covered: joined by
`filepath.Join` and written with a separator.  When `r` only goes down (the
paths `filepath.Walk` passes), the destination is `r1` below `o`, so the
directories below the source root are the directories below the output root;
the root itself, `r = .`, goes to `.webp` below `o`.  In particular
`/a/b/img.png` under `/a` goes to `/out/b/img.webp` for the output root
`/out`. -/
theorem C3_structure_preserved (s o : GoString) (ups dirs : List GoString) (name : GoString)
    (hs : Clean s = s) (ho : Clean o = o) (hups : ∀ d ∈ ups, IsName d)
    (hdirs : ∀ d ∈ dirs, IsName d) (hname : IsName name)
    (hleave : ups.head? ≠ (dirs ++ [name]).head?) :
    o ≠ [] ∧
    Clean (below s ups) = below s ups ∧
    Clean (relPath (List.replicate ups.length [dot, dot] ++ dirs) name)
      = relPath (List.replicate ups.length [dot, dot] ++ dirs) name ∧
    Join [below s ups, relPath (List.replicate ups.length [dot, dot] ++ dirs) name]
      = under s (relPath dirs name) ∧
    getOutputPath
        (Join [below s ups, relPath (List.replicate ups.length [dot, dot] ++ dirs) name])
        (below s ups) o
      = Join [o, relPath (List.replicate ups.length [dot, dot] ++ dirs)
          (withoutExt name ++ extWEBP)] ∧
    getOutputPath
        (below s ups ++ Separator :: relPath (List.replicate ups.length [dot, dot] ++ dirs) name)
        (below s ups) o
      = Join [o, relPath (List.replicate ups.length [dot, dot] ++ dirs)
          (withoutExt name ++ extWEBP)] ∧
    (ups = [] →
      Join [o, relPath (List.replicate ups.length [dot, dot] ++ dirs)
          (withoutExt name ++ extWEBP)]
        = under o (relPath dirs (withoutExt name ++ extWEBP))) ∧
    Join [s, [dot]] = s ∧
    getOutputPath (Join [s, [dot]]) s o = Join [o, withoutExt [dot] ++ extWEBP] ∧
    Join [o, withoutExt [dot] ++ extWEBP] = under o (withoutExt [dot] ++ extWEBP) ∧
    getOutputPath (str "/a/b/img.png") (str "/a") (str "/out") = str "/out/b/img.webp" := by
  obtain ⟨a1, a2, a3, a4, a5⟩ := Rel_across s ups dirs name hs hups hdirs hname hleave
  obtain ⟨_, _, h3⟩ := getOutputPath_below s o dirs name hs ho hdirs hname
  obtain ⟨h4, h5⟩ := getOutputPath_root s o hs ho
  have hone : o ≠ [] := by
    intro h
    rw [h] at ho
    simp [Clean] at ho
  have h6 : Join [o, withoutExt [dot] ++ extWEBP] = under o (withoutExt [dot] ++ extWEBP) := by
    have hn : IsName (withoutExt [dot] ++ extWEBP) := by decide
    have := (getOutputPath_below o o [] (withoutExt [dot] ++ extWEBP) ho ho
      (fun d hd => by cases hd) hn).1
    simpa [relPath, joinSep_single] using this
  refine ⟨hone, a1, a2, a3, ?_, ?_, ?_, h4, ?_, h6, by decide⟩
  · rw [a3]
    simp only [getOutputPath, hone, if_false, a4, Option.getD_some,
      replace_ext_relPath _ name hname]
  · simp only [getOutputPath, hone, if_false, a5, Option.getD_some,
      replace_ext_relPath _ name hname]
  · intro hu
    subst hu
    simpa using h3
  · rw [h4, h5, h6]

/-- C3 on the example of the specification (source root `/a`, output root
`/out`, directory `b`, file `img.png`), on a relative path that begins with
`..` (source root `a/b`, file `a/c/x.png`, so `r = ../c/x.png`, output root
`out`), and on the file `a/x.png` under `a`. -/
theorem C3_witness :
    (Join [str "/a", str "b/img.png"] = str "/a/b/img.png" ∧
      getOutputPath (Join [str "/a", str "b/img.png"]) (str "/a") (str "/out")
        = Join [str "/out", str "b/img.webp"] ∧
      Join [str "/out", str "b/img.webp"] = str "/out/b/img.webp") ∧
    (Join [str "a/b", str "../c/x.png"] = str "a/c/x.png" ∧
      getOutputPath (Join [str "a/b", str "../c/x.png"]) (str "a/b") (str "out")
        = Join [str "out", str "../c/x.webp"] ∧
      getOutputPath (str "a/b/../c/x.png") (str "a/b") (str "out")
        = Join [str "out", str "../c/x.webp"]) ∧
    getOutputPath (str "a/c/x.png") (str "a/b") (str "out") = str "c/x.webp" ∧
    getOutputPath (str "a/x.png") (str "a") (str "out") = str "out/x.webp" ∧
    getOutputPath (str "a/../a/x.png") (str "a") (str "out") = str "out/x.webp" :=
  ⟨⟨(C3_structure_preserved (str "/a") (str "/out") [] [str "b"] (str "img.png")
        (by decide) (by decide) (by decide) (by decide) (by decide) (by decide)).2.2.2.1,
      (C3_structure_preserved (str "/a") (str "/out") [] [str "b"] (str "img.png")
        (by decide) (by decide) (by decide) (by decide) (by decide) (by decide)).2.2.2.2.1,
      (C3_structure_preserved (str "/a") (str "/out") [] [str "b"] (str "img.png")
        (by decide) (by decide) (by decide) (by decide) (by decide) (by decide)).2.2.2.2.2.2.1
        rfl⟩,
    ⟨(C3_structure_preserved (str "a") (str "out") [str "b"] [str "c"] (str "x.png")
        (by decide) (by decide) (by decide) (by decide) (by decide) (by decide)).2.2.2.1,
      (C3_structure_preserved (str "a") (str "out") [str "b"] [str "c"] (str "x.png")
        (by decide) (by decide) (by decide) (by decide) (by decide) (by decide)).2.2.2.2.1,
      (C3_structure_preserved (str "a") (str "out") [str "b"] [str "c"] (str "x.png")
        (by decide) (by decide) (by decide) (by decide) (by decide) (by decide)).2.2.2.2.2.1⟩,
    by decide, by decide, by decide⟩

end ConvertToWebp
